import Mathlib

/-!
# Verification of the keystone list-mutation pipeline

Shallow embedding of `src/packages/core/src/lib/core/mutations/create-update.ts`
and the delete module (`src/unnamed/part_000`) of the keystone repository.

The TypeScript pipeline is async but the orchestration of one mutation is a
single logical thread of control (spec §5): each `await` is a suspension
point, and the conceptually-parallel parts (`Promise.all` over the fields of
a list, `.map(async ...)` over the items of a batch) are independent
computations whose outcomes do not depend on each other.  We embed each
operation as a pure function returning `Except Err α` together with the list
of observable events (store calls, resolver and hook invocations) it
performed, in program order; `Promise.all` over fields is embedded as a
left-to-right traversal (the canonical ordering of the conceptually-parallel
field computations), and `.map(async ...)` over batch items as an
independent per-item run against the request-scoped store snapshot.

Modules imported by the two source files but not present under `src/`
(access-control, validation, where-inputs, utils, the nested-mutation input
resolvers, graphql-errors) are modelled from the spec; each such definition
carries a doc comment starting with `Modelled from the spec:`.
-/

namespace Keystone

/-- The three mutation operation kinds of the pipeline. -/
inductive Op where
  | create
  | update
  | delete
deriving DecidableEq, Repr

/-- Cardinality of a relation field (`field.dbField.mode` in the source). -/
inductive RelMode where
  | one
  | many
deriving DecidableEq, Repr

/-- JavaScript-level values flowing through the pipeline: raw input data,
resolved data and hook results.  `vundef` is JavaScript `undefined`
(distinct from `vnull` = JavaScript `null`, a distinction the source tests
explicitly, e.g. lines 243–250 of create-update.ts). -/
inductive Val where
  | vundef
  | vnull
  | vint (n : Int)
  | vstr (s : String)
  | vbool (b : Bool)
  | vobj (entries : List (String × Val))
  | vlist (items : List Val)

/-- A record value: an ordered association list of keys to values,
modelling a JavaScript object such as `rawData`/`resolvedData`. -/
abbrev Rec := List (String × Val)

/-- A value in the store's wire format.  `dbNull` is the store's explicit
"set to null" sentinel (`Prisma.DbNull` in the source), a distinct marker
that is not any in-memory value. -/
inductive DBVal where
  | dbNull
  | val (v : Val)

/-- A storage-column record: the flat `data` mapping handed to the store. -/
abbrev DBRec := List (String × DBVal)

/-- Look a key up in an association list (first occurrence wins, like
JavaScript property access on objects built by `Object.fromEntries`). -/
def alook {α : Type} : List (String × α) → String → Option α
  | [], _ => none
  | (k, v) :: rest, key => if k = key then some v else alook rest key

/-- Set a key in an association list, overriding an existing occurrence in
place and appending otherwise — the semantics of `{ ...data, id: 1 }` in
JavaScript (the overridden key keeps its original position). -/
def aset {α : Type} : List (String × α) → String → α → List (String × α)
  | [], k, v => [(k, v)]
  | (k', v') :: rest, k, v =>
    if k' = k then (k', v) :: rest else (k', v') :: aset rest k v

/-- Is this value JavaScript `undefined`? -/
def Val.isUndef : Val → Bool
  | .vundef => true
  | _ => false

/-- Is this value JavaScript `null`? -/
def Val.isNull : Val → Bool
  | .vnull => true
  | _ => false

/-- Equality test for primitive values (ids, strings, booleans), used to
match unique-where conditions against stored rows. -/
def vEqPrim : Val → Val → Bool
  | .vint a, .vint b => a == b
  | .vstr a, .vstr b => a == b
  | .vbool a, .vbool b => a == b
  | .vnull, .vnull => true
  | _, _ => false

/-- A persisted row: store-assigned identifier plus its attributes. -/
structure Item where
  id : Int
  attrs : Rec

/-- The error taxonomy of the pipeline (spec §7).  Field-tagged pair lists
mirror the `{ error, tag }` arrays the source aggregates
(`resolverError`, `relationshipError`, `extensionError` in graphql-errors);
`relationshipErrors` is the internal `RelationshipErrors` aggregate thrown
by the nested-mutation resolvers; `combined` is the rejection of
`promiseAllRejectWithAllErrors`. -/
inductive Err where
  | accessDenied (msg : String)
  | validation (msg : String)
  | filterAccessDenied (listKey fieldKey : String)
  | hookThrow (msg : String)
  | storeFailure (msg : String)
  | fuelExhausted
  | resolverError (errors : List (String × Err))
  | relationshipErrors (errors : List (String × Err))
  | relationshipError (errors : List (String × Err))
  | extensionError (phase : String) (errors : List (String × Err))
  | combined (errors : List Err)

/-- The four hook lifecycle phases (spec §4.5). -/
inductive Phase where
  | resolveInput
  | validate
  | beforeOperation
  | afterOperation
deriving DecidableEq, Repr

/-- Observable events of one pipeline run, in program order.  `depth` is the
nesting depth of the mutation that performed the event: `0` for the
top-level mutation, `d + 1` for a nested mutation started at depth `d`.
Store-write events carry `ok`: whether the store call durably succeeded. -/
inductive Event where
  | findUnique (depth : Nat) (listKey whereKey : String) (whereVal : Val) (filtered : Bool)
  | storeCreate (depth : Nat) (listKey : String) (data : DBRec) (ok : Bool)
  | storeUpdate (depth : Nat) (listKey : String) (id : Int) (data : DBRec) (ok : Bool)
  | storeDelete (depth : Nat) (listKey : String) (id : Int) (ok : Bool)
  | fieldResolver (depth : Nat) (tag : String)
  | fieldHook (depth : Nat) (phase : Phase) (listKey fieldKey : String)
  | listHook (depth : Nat) (phase : Phase) (listKey : String)

/-- The nesting depth at which an event was performed. -/
def Event.depth : Event → Nat
  | .findUnique d .. => d
  | .storeCreate d .. => d
  | .storeUpdate d .. => d
  | .storeDelete d .. => d
  | .fieldResolver d .. => d
  | .fieldHook d .. => d
  | .listHook d .. => d

/-- A pipeline computation: an outcome (value or raised error) together with
the events it performed, in order. -/
structure M (α : Type) : Type where
  res : Except Err α
  trace : List Event

namespace M

/-- Return a value, performing no events. -/
def pur {α : Type} (a : α) : M α := ⟨.ok a, []⟩

/-- Raise an error, performing no events. -/
def fail {α : Type} (e : Err) : M α := ⟨.error e, []⟩

/-- Perform one observable event. -/
def emit (ev : Event) : M Unit := ⟨.ok (), [ev]⟩

/-- Sequencing: events of the first computation happen first; an error
short-circuits the continuation (a rejected `await` propagates). -/
def bind {α β : Type} (x : M α) (f : α → M β) : M β :=
  match x.res with
  | .error e => ⟨.error e, x.trace⟩
  | .ok a => ⟨(f a).res, x.trace ++ (f a).trace⟩

/-- `try`-style capture: turn a computation's outcome into data, keeping its
events (models a `try { ... } catch (error) { ... }` block). -/
def attempt {α : Type} (x : M α) : M (Except Err α) := ⟨.ok x.res, x.trace⟩

/-- Lift an exception-only result (a plain `await` of a user function that
performs no store events) into the pipeline. -/
def liftE {α : Type} (r : Except Err α) : M α := ⟨r, []⟩

end M

instance : Monad M where
  pure := M.pur
  bind := M.bind

/-! ## Configuration data model (spec §3)

`InitialisedList`, `ResolvedDBField` and the hook maps come from the
schema-initialisation modules, which are outside this core (spec §1); the
structures below carry exactly the parts the two source files consume.
Hooks and input resolvers are caller-supplied callables (spec §6); after
list initialisation every hook slot is populated (with a default no-op when
the user supplied none), which is why the source awaits them
unconditionally — so they are total functions here, returning
`Except Err _` since a user callable may throw. -/

/-- Argument bundle threaded through one mutation's hooks (spec §3
`HookArgs`).  `inputData`/`resolvedData` are `none` for delete (the source
passes `undefined`); `originalItem` is only set for delete `afterOperation`
hooks. -/
structure HookArgs where
  listKey : String
  operation : Op
  inputData : Option Rec
  item : Option Item
  resolvedData : Option Rec
  originalItem : Option Item := none
  fieldKey : Option String := none

/-- Per-field, per-operation lifecycle hooks (`field.hooks` in the source). -/
structure FieldHooks where
  resolveInput : Op → HookArgs → Except Err Val
  validate : Op → HookArgs → Except Err Unit
  beforeOperation : Op → HookArgs → Except Err Unit
  afterOperation : Op → HookArgs → Except Err Unit

/-- Storage kind of a field (`ResolvedDBField`): a scalar column (with its
scalar type name, e.g. `"Json"`), a relation to another list, or a `multi`
field backed by several storage columns. -/
inductive DBField where
  | scalar (scalar : String)
  | relation (mode : RelMode) (list : String)
  | multi (fields : List (String × DBField))

/-- Is this a relation-kind field (`field.dbField.kind === 'relation'`)? -/
def DBField.isRelation : DBField → Bool
  | .relation .. => true
  | _ => false

/-- A field definition: storage kind, optional per-operation input resolver
(`field.input?.[operation]?.resolve`) and lifecycle hooks.  For relation
fields the source invokes the resolver with a third argument (the
nested-resolution factory); presence of the resolver is what gates the
relation pass. -/
structure FieldConfig where
  dbField : DBField
  inputResolver : Op → Option (Val → Except Err Val)
  hooks : FieldHooks

/-- Per-list, per-operation lifecycle hooks (`list.hooks` in the source).
The list-level `resolveInput` hook returns the new resolved-data record
(its result is used directly as the write payload source). -/
structure ListHooks where
  resolveInput : Op → HookArgs → Except Err Rec
  validate : Op → HookArgs → Except Err Unit
  beforeOperation : Op → HookArgs → Except Err Unit
  afterOperation : Op → HookArgs → Except Err Unit

/-- A list definition (`InitialisedList`): key, ordered field map, hooks,
the unique fields recognised by the Unique-Target Resolver, and the
singleton flag consulted by `createSingle`. -/
structure ListConfig where
  listKey : String
  fields : List (String × FieldConfig)
  hooks : ListHooks
  uniqueFields : List String
  isSingleton : Bool

/-- Row-level access restriction (spec §3 `AccessFilter`): the boolean
`true` (unrestricted), the boolean `false` (nothing visible), or an opaque
predicate combined with the user's `where` condition. -/
inductive AccessFilter where
  | allowAll
  | denyAll
  | pred (p : Item → Bool)

/-- The store client (spec §6), scoped per collection by list key.  `rows`
is the request-scoped snapshot read by `findUnique`; the write oracles give
each write's outcome (the created/updated/deleted row, or a store error) —
a store call either fully succeeds or throws (spec §4.7). -/
structure Store where
  rows : String → List Item
  createRes : String → DBRec → Except Err Item
  updateRes : String → Int → DBRec → Except Err Item
  deleteRes : String → Int → Except Err Item

/-- The acting context (`KeystoneContext`): store client, the resolved
access decisions of the Access decision provider (spec §6), the schema's
list graph (`list.lists` in the source, resolved at schema-build time), and
the filter-access and item-access decisions. -/
structure Ctx where
  store : Store
  operationAccess : String → Op → Bool
  accessFilters : String → Op → AccessFilter
  lists : List (String × ListConfig)
  filterOrderOk : String → String → Bool
  createAccessOk : String → Rec → Bool
  updateItemOk : String → Rec → Item → Bool
  deleteItemOk : String → Item → Bool

/-! ## Collaborator functions modelled from the spec

The modules below are imported by the source files but are not under
`src/`; each definition is modelled from the spec's description of its
behaviour. -/

/-- Modelled from the spec: `cannotForItem` of the access-control module
(not under src/) renders the deterministic per-operation denial message
used by `accessDeniedError` — identical for "denied" and "not found" by
design (spec §4.2, §7). -/
def cannotForItem (op : Op) (listKey : String) : String :=
  (match op with
    | .create => "create"
    | .update => "update"
    | .delete => "delete") ++ " denied for " ++ listKey

/-- Modelled from the spec: `getOperationAccess` of the access-control
module (not under src/) — the coarse per-operation allow/deny decision of
the Access Control Gate, consumed as a resolved decision (spec §1, §4.2);
it performs no store calls. -/
def getOperationAccess (list : ListConfig) (ctx : Ctx) (op : Op) : Bool :=
  ctx.operationAccess list.listKey op

/-- Modelled from the spec: `getAccessFilters` of the access-control module
(not under src/) — the row-level filter decision, computed once per batch
(spec §4.2); it performs no store calls. -/
def getAccessFilters (list : ListConfig) (ctx : Ctx) (op : Op) : AccessFilter :=
  ctx.accessFilters list.listKey op

/-- Modelled from the spec: `resolveUniqueWhereInput` of the where-inputs
module (not under src/) — the Unique-Target Resolver (spec §4.1): exactly
one recognised unique field must be supplied (a key of the list's unique
fields with a defined value), else `ValidationError`; no side effects. -/
def resolveUniqueWhereInput (input : Rec) (list : ListConfig) :
    Except Err (String × Val) :=
  match input.filter (fun kv => list.uniqueFields.contains kv.1 && !kv.2.isUndef) with
  | [kv] => .ok kv
  | _ => .error (.validation ("exactly one unique field must be supplied for " ++ list.listKey))

/-- Modelled from the spec: `checkFilterOrderAccess` of the
filter-order-access module (not under src/) — field-level permission to use
a field in a filter; throws when denied, performs no store calls. -/
def checkFilterOrderAccess (list : ListConfig) (ctx : Ctx) (fieldKey : String) :
    Except Err Unit :=
  if ctx.filterOrderOk list.listKey fieldKey then .ok ()
  else .error (.filterAccessDenied list.listKey fieldKey)

/-- Modelled from the spec: `applyAccessControlForCreate` of the mutation
access-control module (not under src/) — for create, row-level filtering
does not apply; only a create-specific authorization decision over the raw
input gates the operation, throwing `AccessDeniedError` when denied
(spec §4.2). -/
def applyAccessControlForCreate (list : ListConfig) (ctx : Ctx) (rawData : Rec) : M Unit :=
  if ctx.createAccessOk list.listKey rawData then M.pur ()
  else M.fail (.accessDenied (cannotForItem .create list.listKey))

/-- Does a row match the canonical unique-target condition?  Unique-where
values are primitive (ids, strings), so primitive equality suffices. -/
def matchesUnique (uw : String × Val) (it : Item) : Bool :=
  if uw.1 = "id" then vEqPrim uw.2 (.vint it.id)
  else match alook it.attrs uw.1 with
    | some v => vEqPrim uw.2 v
    | none => false

/-- Evaluate an access filter against a row (`denyAll` never reaches this:
it is rejected before the store, spec §3). -/
def evalFilter : AccessFilter → Item → Bool
  | .allowAll, _ => true
  | .denyAll, _ => false
  | .pred p, it => p it

/-- Modelled from the spec: the access-controlled row reload shared by
`getAccessControlledItemForUpdate` and `getAccessControlledItemForDelete`
(module not under src/): the target row is re-read through the store with
the access filter merged into the `where` condition; a `denyAll` filter is
rejected before reaching the store; if the reload returns no row the
operation fails with `AccessDeniedError`, indistinguishable from "row does
not exist" (spec §4.2, §3 invariant). -/
def accessFilteredReload (ctx : Ctx) (list : ListConfig) (op : Op)
    (uw : String × Val) (filt : AccessFilter) (depth : Nat) : M Item :=
  match filt with
  | .denyAll => M.fail (.accessDenied (cannotForItem op list.listKey))
  | f =>
    M.bind (M.emit (.findUnique depth list.listKey uw.1 uw.2 (match f with | .pred _ => true | _ => false)))
      (fun _ =>
        match (ctx.store.rows list.listKey).find? (fun it => matchesUnique uw it && evalFilter f it) with
        | some it => M.pur it
        | none => M.fail (.accessDenied (cannotForItem op list.listKey)))

/-- Modelled from the spec: `getAccessControlledItemForUpdate` (module not
under src/) — the access-filtered reload followed by the item-level update
access decision over the raw input (spec §6 `itemAccess`), throwing
`AccessDeniedError` when denied. -/
def getAccessControlledItemForUpdate (ctx : Ctx) (list : ListConfig)
    (uw : String × Val) (filt : AccessFilter) (rawData : Rec) (depth : Nat) : M Item :=
  M.bind (accessFilteredReload ctx list .update uw filt depth) (fun it =>
    if ctx.updateItemOk list.listKey rawData it then M.pur it
    else M.fail (.accessDenied (cannotForItem .update list.listKey)))

/-- Modelled from the spec: `getAccessControlledItemForDelete` (module not
under src/) — the access-filtered reload followed by the item-level delete
access decision (spec §6 `itemAccess`). -/
def getAccessControlledItemForDelete (ctx : Ctx) (list : ListConfig)
    (uw : String × Val) (filt : AccessFilter) (depth : Nat) : M Item :=
  M.bind (accessFilteredReload ctx list .delete uw filt depth) (fun it =>
    if ctx.deleteItemOk list.listKey it then M.pur it
    else M.fail (.accessDenied (cannotForItem .delete list.listKey)))

/-- Modelled from the spec: `getDBFieldKeyForFieldOnMultiField` of the
utils module (not under src/) — the deterministic `fieldKey_subKey` naming
scheme for the storage columns of a `multi` field (spec §4.6). -/
def getDBFieldKeyForFieldOnMultiField (fieldKey subKey : String) : String :=
  fieldKey ++ "_" ++ subKey

/-! ## The Write Executor transforms (create-update.ts lines 440–472) -/

/-- `transformInnerDBField` (create-update.ts lines 440–450): a `null`
value destined for a `Json` scalar column becomes the store's explicit
"set to null" sentinel (`Prisma.DbNull`); every other value passes
through. -/
def transformInnerDBField (dbField : DBField) (value : Val) : DBVal :=
  match dbField with
  | .scalar s => if s = "Json" && value.isNull then .dbNull else .val value
  | _ => .val value

/-- `transformForPrismaClient` (create-update.ts lines 452–472): flatten
the resolved value tree into storage-column form.  A `multi` field expands
into one column entry per entry of its (object) value, keyed by the
`fieldKey_subKey` scheme; every other field maps to a single column.  A
data key with no field definition, or a non-object `multi` value, would
crash in the source (`fields[fieldKey]` / `Object.entries` on a
non-object); the model passes the former through untransformed and expands
the latter to nothing — neither case is reachable from the pipeline. -/
def transformForPrismaClient (fields : List (String × FieldConfig)) (data : Rec) : DBRec :=
  data.flatMap (fun kv =>
    match alook fields kv.1 with
    | some f =>
      match f.dbField with
      | .multi mf =>
        (match kv.2 with
          | .vobj entries =>
            entries.map (fun ikv =>
              (getDBFieldKeyForFieldOnMultiField kv.1 ikv.1,
               transformInnerDBField ((alook mf ikv.1).getD (.scalar "")) ikv.2))
          | _ => [])
      | dbf => [(kv.1, transformInnerDBField dbf kv.2)]
    | none => [(kv.1, .val kv.2)])

/-! ## Field input resolution (create-update.ts `getResolvedData`) -/

/-- A deferred post-commit action (`() => afterOperation(item)` pushed onto
`NestedMutationState`). -/
abbrev Deferred : Type := Unit → M Unit

/-- The nested-create capability handed to the relationship resolvers: the
functional image of `NestedMutationState.create` — run a create on a
related list at the given nesting depth, returning the created item and
its deferred `afterOperation` action. -/
abbrev NCF : Type := ListConfig → Rec → Nat → M (Item × Deferred)

/-- The field tag used in aggregated errors (`` `${list.listKey}.${fieldKey}` ``). -/
def fieldTag (lk k : String) : String := lk ++ "." ++ k

/-- Pass 1 of `getResolvedData` (create-update.ts lines 208–224): every
non-relation field with an input resolver for the operation is invoked on
its raw value; a resolver that throws is recorded as an `{error, tag}`
pair and the raw value kept, and the remaining fields still resolve.  The
`Promise.all` over the fields is embedded left-to-right.  Returns the
rebuilt entries (one per field of the list) and the collected errors. -/
def applyNonRelResolvers (lk : String) (op : Op) (depth : Nat) (data : Rec) :
    List (String × FieldConfig) → M (Rec × List (String × Err))
  | [] => M.pur ([], [])
  | (k, f) :: rest =>
    let input := (alook data k).getD .vundef
    match (if f.dbField.isRelation then none else f.inputResolver op) with
    | none => do
      let (es, errs) ← applyNonRelResolvers lk op depth data rest
      M.pur ((k, input) :: es, errs)
    | some r => do
      M.emit (.fieldResolver depth (fieldTag lk k))
      match r input with
      | .ok v => do
        let (es, errs) ← applyNonRelResolvers lk op depth data rest
        M.pur ((k, v) :: es, errs)
      | .error e => do
        let (es, errs) ← applyNonRelResolvers lk op depth data rest
        M.pur ((k, input) :: es, (fieldTag lk k, e) :: errs)

/-- The `{ id }` reference value a nested resolution produces for the store
payload of the parent relation field. -/
def idObj (it : Item) : Val := .vobj [("id", .vint it.id)]

/-- Modelled from the spec: resolving one `connect` entry (nested-mutation
resolvers not under src/) — the existing related row is identified by the
related list's own Unique-Target Resolver and must exist in the store
snapshot, else the nested operation is denied (spec §4.4). -/
def resolveConnect (ctx : Ctx) (foreign : ListConfig) (c : Val) : Except Err Val :=
  match c with
  | .vobj uin =>
    match resolveUniqueWhereInput uin foreign with
    | .error e => .error e
    | .ok uw =>
      match (ctx.store.rows foreign.listKey).find? (fun it => matchesUnique uw it) with
      | some it => .ok (idObj it)
      | none => .error (.accessDenied ("cannot connect to " ++ foreign.listKey))
  | _ => .error (.validation "connect input must be an object")

/-- Read an optional list-valued key of a relationship input object. -/
def asList (v : Option Val) : List Val :=
  match v with
  | some (.vlist xs) => xs
  | _ => []

/-- Modelled from the spec: run the `create` entries of a relationship
input through the nested-create capability (spec §4.4): every entry is
attempted, errors are collected (tagged with the relation field's tag), and
each successful nested create's deferred action is appended to the shared
accumulator.  Returns the produced row references, the collected errors
and the grown deferred-action list. -/
def runNestedCreates (nc : NCF) (tag : String) (foreign : ListConfig) (depth : Nat) :
    List Val → List Deferred → M (List Val × List (String × Err) × List Deferred)
  | [], defs => M.pur ([], [], defs)
  | c :: rest, defs =>
    match c with
    | .vobj data => do
      let r ← M.attempt (nc foreign data depth)
      match r with
      | .ok (it, d) => do
        let (vs, errs, defs') ← runNestedCreates nc tag foreign depth rest (defs ++ [d])
        M.pur (idObj it :: vs, errs, defs')
      | .error e => do
        let (vs, errs, defs') ← runNestedCreates nc tag foreign depth rest defs
        M.pur (vs, (tag, e) :: errs, defs')
    | _ => do
      let (vs, errs, defs') ← runNestedCreates nc tag foreign depth rest defs
      M.pur (vs, (tag, .validation "create input must be an object") :: errs, defs')

/-- Modelled from the spec: the four nested-resolution strategies selected
by the factory (create-update.ts lines 242–287 select among the
`resolveRelateTo{Many,One}For{Create,Update}Input` resolvers, whose modules
are not under src/).  `undefined` or explicit `null` input is a deliberate
no-op (the source's lines 243–250).  To-many input accepts `connect` and
`create` entry lists; every entry is attempted and the errors are
collected into the dedicated `RelationshipErrors` aggregate.  To-one input
accepts a single `connect` or `create` and rejects ambiguous input
(spec §4.4; `disconnect`/`set` for update are outside what the claims
exercise and are not modelled).  The outcome is returned as data (the
source wraps the resolver call in `try`), alongside the grown
deferred-action list — deferred actions of sub-creates that succeeded
before a later entry failed remain accumulated, as with the source's
mutable `NestedMutationState`. -/
def relStrategy (nc : NCF) (ctx : Ctx) (tag : String) (foreignKey : String)
    (mode : RelMode) (depth : Nat) (input : Val) (defs : List Deferred) :
    M (Except Err Val × List Deferred) :=
  if input.isUndef || input.isNull then M.pur (.ok .vundef, defs) else
  match alook ctx.lists foreignKey with
  | none => M.pur (.error (.validation ("unknown list " ++ foreignKey)), defs)
  | some foreign =>
    match mode with
    | .many =>
      match input with
      | .vobj o => do
        let conRes := (asList (alook o "connect")).map (fun c => resolveConnect ctx foreign c)
        let (crVals, crErrs, defs') ←
          runNestedCreates nc tag foreign (depth + 1) (asList (alook o "create")) defs
        let conErrs := conRes.filterMap (fun r =>
          match r with | .error e => some (tag, e) | .ok _ => none)
        let errs := conErrs ++ crErrs
        if errs.isEmpty then
          M.pur (.ok (.vobj [("connect",
            .vlist ((conRes.filterMap (fun r => match r with | .ok v => some v | .error _ => none))
              ++ crVals))]), defs')
        else M.pur (.error (.relationshipErrors errs), defs')
      | _ => M.pur (.error (.validation "to-many relationship input must be an object"), defs)
    | .one =>
      match input with
      | .vobj o =>
        match alook o "connect", alook o "create" with
        | some c, none =>
          M.pur ((resolveConnect ctx foreign c).map (fun v => .vobj [("connect", v)]), defs)
        | none, some (.vobj data) => do
          let r ← M.attempt (nc foreign data (depth + 1))
          match r with
          | .ok (it, d) => M.pur (.ok (.vobj [("connect", idObj it)]), defs ++ [d])
          | .error e => M.pur (.error e, defs)
        | none, some _ => M.pur (.error (.validation "create input must be an object"), defs)
        | some _, some _ =>
          M.pur (.error (.validation "ambiguous input: both connect and create supplied"), defs)
        | none, none =>
          M.pur (.error (.validation "to-one relationship input needs connect or create"), defs)
      | _ => M.pur (.error (.validation "to-one relationship input must be an object"), defs)

/-- Pass 2 of `getResolvedData` (create-update.ts lines 228–300): every
relation field with an input resolver for the operation is invoked, with
the factory-selected nested-resolution strategy as its capability; a
throw is caught per field — a `RelationshipErrors` aggregate is flattened
into the collected pairs, any other error is paired with the field tag —
and the remaining fields still resolve.  The shared deferred-action
accumulator threads left-to-right through the fields. -/
def applyRelResolvers (nc : NCF) (ctx : Ctx) (lk : String) (op : Op) (depth : Nat)
    (data : Rec) :
    List (String × FieldConfig) → List Deferred →
      M (Rec × List (String × Err) × List Deferred)
  | [], defs => M.pur ([], [], defs)
  | (k, f) :: rest, defs =>
    let input := (alook data k).getD .vundef
    match f.dbField with
    | .relation mode foreignKey =>
      match f.inputResolver op with
      | none => do
        let (es, errs, defs') ← applyRelResolvers nc ctx lk op depth data rest defs
        M.pur ((k, input) :: es, errs, defs')
      | some _ => do
        M.emit (.fieldResolver depth (fieldTag lk k))
        let (r, defs₁) ← relStrategy nc ctx (fieldTag lk k) foreignKey mode depth input defs
        match r with
        | .ok v => do
          let (es, errs, defs') ← applyRelResolvers nc ctx lk op depth data rest defs₁
          M.pur ((k, v) :: es, errs, defs')
        | .error e => do
          let (es, errs, defs') ← applyRelResolvers nc ctx lk op depth data rest defs₁
          let flat := match e with
            | .relationshipErrors es' => es'
            | e' => [(fieldTag lk k, e')]
          M.pur ((k, input) :: es, flat ++ errs, defs')
    | _ => do
      let (es, errs, defs') ← applyRelResolvers nc ctx lk op depth data rest defs
      M.pur ((k, input) :: es, errs, defs')

/-- The field-hook pass of `getResolvedData` (create-update.ts lines
304–346): every field's `resolveInput` hook for the operation is invoked
with the full resolved data; a hook that throws is recorded (tagged
`listKey.fieldKey.hooks.resolveInput`) and contributes `undefined` as the
field's value, and the remaining hooks still run. -/
def applyFieldResolveInputHooks (lk : String) (op : Op) (depth : Nat)
    (inputData : Rec) (item : Option Item) (resolvedData : Rec) :
    List (String × FieldConfig) → M (Rec × List (String × Err))
  | [] => M.pur ([], [])
  | (k, f) :: rest => do
    M.emit (.fieldHook depth .resolveInput lk k)
    let args : HookArgs :=
      { listKey := lk, operation := op, inputData := some inputData, item := item,
        resolvedData := some resolvedData, fieldKey := some k }
    let r := f.hooks.resolveInput op args
    let (es, errs) ← applyFieldResolveInputHooks lk op depth inputData item resolvedData rest
    match r with
    | .ok v => M.pur ((k, v) :: es, errs)
    | .error e =>
      M.pur ((k, .vundef) :: es, (fieldTag lk k ++ ".hooks.resolveInput", e) :: errs)

/-- `getResolvedData` (create-update.ts lines 187–374): the two input
resolver passes, each followed by its aggregation gate, then the field
`resolveInput` hooks with their gate, then the list `resolveInput` hook
(whose throw is wrapped as a one-element `extensionError`).  The operation
kind is derived from the presence of the pre-operation item, as in the
source.  Returns the resolved data and the accumulated deferred actions. -/
def getResolvedData (nc : NCF) (ctx : Ctx) (list : ListConfig)
    (inputData : Rec) (item : Option Item) (depth : Nat) :
    M (Rec × List Deferred) := do
  let op := match item with | none => Op.create | some _ => Op.update
  let (d1, errs1) ← applyNonRelResolvers list.listKey op depth inputData list.fields
  if errs1.isEmpty then do
    let (d2, errs2, defs) ← applyRelResolvers nc ctx list.listKey op depth d1 list.fields []
    if errs2.isEmpty then do
      let (d3, errs3) ←
        applyFieldResolveInputHooks list.listKey op depth inputData item d2 list.fields
      if errs3.isEmpty then do
        M.emit (.listHook depth .resolveInput list.listKey)
        let args : HookArgs :=
          { listKey := list.listKey, operation := op, inputData := some inputData,
            item := item, resolvedData := some d3 }
        match list.hooks.resolveInput op args with
        | .ok r => M.pur (r, defs)
        | .error e =>
          M.fail (.extensionError "resolveInput" [(list.listKey ++ ".hooks.resolveInput", e)])
      else M.fail (.extensionError "resolveInput" errs3)
    else M.fail (.relationshipError errs2)
  else M.fail (.resolverError errs1)

/-! ## Hook lifecycle runner (spec §4.5) -/

/-- Run one field-level hook per field sequentially, fail-fast — the
embedding of the source's `for (const fieldKey in list.fields) await ...`
loops for `beforeOperation`/`afterOperation` field hooks. -/
def runFieldHooksSeq (phase : Phase)
    (sel : FieldConfig → Op → HookArgs → Except Err Unit)
    (lk : String) (op : Op) (depth : Nat) (args : HookArgs) :
    List (String × FieldConfig) → M Unit
  | [] => M.pur ()
  | (k, f) :: rest => do
    M.emit (.fieldHook depth phase lk k)
    M.liftE (sel f op { args with fieldKey := some k })
    runFieldHooksSeq phase sel lk op depth args rest

/-- Run one field-level hook per field, collecting `{error, tag}` pairs
without fail-fast — the aggregation shape shared by the field resolvers
and the validate hooks (spec §4.5, §9). -/
def runFieldHooksCollect (phase : Phase)
    (sel : FieldConfig → Op → HookArgs → Except Err Unit) (tagSuffix : String)
    (lk : String) (op : Op) (depth : Nat) (args : HookArgs) :
    List (String × FieldConfig) → M (List (String × Err))
  | [] => M.pur []
  | (k, f) :: rest => do
    M.emit (.fieldHook depth phase lk k)
    let r := sel f op { args with fieldKey := some k }
    let errs ← runFieldHooksCollect phase sel tagSuffix lk op depth args rest
    match r with
    | .ok _ => M.pur errs
    | .error e => M.pur ((fieldTag lk k ++ tagSuffix, e) :: errs)

/-- Modelled from the spec: `validateFields` of the validation module (not
under src/) — every field's `validate` hook runs, all validation errors
across all fields are collected, and a single combined failure is raised
when any hook threw (spec §4.5). -/
def validateFields (list : ListConfig) (op : Op) (depth : Nat) (args : HookArgs) : M Unit := do
  let errs ← runFieldHooksCollect .validate (fun f => f.hooks.validate) ".hooks.validate"
    list.listKey op depth args list.fields
  if errs.isEmpty then M.pur () else M.fail (.extensionError "validate" errs)

/-- Modelled from the spec: `validateList` of the validation module (not
under src/) — the list-level `validate` hook, running after the field
validate gate and seeing the fully-resolved value tree; a throw is raised
as a one-element combined failure (spec §4.5). -/
def validateList (list : ListConfig) (op : Op) (depth : Nat) (args : HookArgs) : M Unit := do
  M.emit (.listHook depth .validate list.listKey)
  match list.hooks.validate op args with
  | .ok _ => M.pur ()
  | .error e => M.fail (.extensionError "validate" [(list.listKey ++ ".hooks.validate", e)])

/-- Run the accumulated deferred actions, all of them, collecting their
errors (`promiseAllRejectWithAllErrors` over `#afterOperations`, utils not
under src/: run every promise, then reject with all collected errors). -/
def collectDeferredErrors : List Deferred → M (List Err)
  | [] => M.pur []
  | d :: rest => do
    let r ← M.attempt (d ())
    let es ← collectDeferredErrors rest
    match r with
    | .ok _ => M.pur es
    | .error e => M.pur (e :: es)

/-- `NestedMutationState.afterOperation` (create-update.ts lines 77–79):
drain the deferred actions via `promiseAllRejectWithAllErrors` — every
action runs, and if any failed a single combined rejection is raised. -/
def nestedAfterOperation (defs : List Deferred) : M Unit := do
  let es ← collectDeferredErrors defs
  if es.isEmpty then M.pur () else M.fail (.combined es)

/-- The `afterOperation` closure returned by
`resolveInputForCreateOrUpdate` (create-update.ts lines 418–436): first the
nested mutation state's deferred actions, then the list `afterOperation`
hook, then the field `afterOperation` hooks; the closure's item argument is
not consulted (the source ignores `updatedItem`), and the hook args are the
ones captured at resolve time, as in the source. -/
def afterOperationClosure (list : ListConfig) (op : Op) (depth : Nat)
    (args : HookArgs) (defs : List Deferred) : Item → M Unit :=
  fun _ => do
    nestedAfterOperation defs
    M.emit (.listHook depth .afterOperation list.listKey)
    M.liftE (list.hooks.afterOperation op args)
    runFieldHooksSeq .afterOperation (fun f => f.hooks.afterOperation)
      list.listKey op depth args list.fields

/-- `resolveInputForCreateOrUpdate` (create-update.ts lines 376–438):
construct the nested-mutation state (here: the deferred-action list
accumulated by `getResolvedData`), resolve the input, then run the
`validate` (field, then list) and `beforeOperation` (list, then field)
phases, and return the storage-ready payload together with the
`afterOperation` closure. -/
def resolveInputForCreateOrUpdate (nc : NCF) (ctx : Ctx) (list : ListConfig)
    (inputData : Rec) (item : Option Item) (depth : Nat) :
    M (DBRec × (Item → M Unit)) := do
  let op := match item with | none => Op.create | some _ => Op.update
  let (resolvedData, defs) ← getResolvedData nc ctx list inputData item depth
  let args : HookArgs :=
    { listKey := list.listKey, operation := op, inputData := some inputData,
      item := item, resolvedData := some resolvedData }
  validateFields list op depth args
  validateList list op depth args
  M.emit (.listHook depth .beforeOperation list.listKey)
  M.liftE (list.hooks.beforeOperation op args)
  runFieldHooksSeq .beforeOperation (fun f => f.hooks.beforeOperation)
    list.listKey op depth args list.fields
  M.pur (transformForPrismaClient list.fields resolvedData,
    afterOperationClosure list op depth args defs)

/-! ## The single-item mutations and the fuel-tied nested recursion

The source recursion (a nested create runs the full create pipeline of the
related list, `NestedMutationState.create → createSingle →
resolveInputForCreateOrUpdate → relationship resolvers →
NestedMutationState.create → ...`) terminates because input trees are
finite; the embedding makes this explicit with a fuel parameter counting
the remaining nesting budget.  `getWriteLimit`/`runWithPrisma` (utils, not
under src/) add no observable behaviour beyond issuing the store call
inside the caller-scoped limiter, so the store call is issued directly. -/

/-- `createSingle` (create-update.ts lines 33–57), parameterized by the
nested-create capability: the create-specific access gate, input
resolution, then exactly one store `create` call whose data has `id: 1`
spliced over it for singleton lists. -/
def createSingleGo (nc : NCF) (ctx : Ctx) (list : ListConfig) (rawData : Rec)
    (depth : Nat) : M (Item × (Item → M Unit)) := do
  applyAccessControlForCreate list ctx rawData
  let (data, afterOp) ← resolveInputForCreateOrUpdate nc ctx list rawData none depth
  let payload := if list.isSingleton then aset data "id" (.val (.vint 1)) else data
  match ctx.store.createRes list.listKey payload with
  | .ok it => do
    M.emit (.storeCreate depth list.listKey payload true)
    M.pur (it, afterOp)
  | .error e => do
    M.emit (.storeCreate depth list.listKey payload false)
    M.fail e

/-- `NestedMutationState.create` (create-update.ts lines 65–75) tied into
the recursion by fuel: the related list's own `operationAccess` gates the
nested create; on success the created item is returned together with the
deferred `() => afterOperation(item)` action. -/
def ncF : Nat → Ctx → NCF
  | 0, _ => fun _ _ _ => M.fail .fuelExhausted
  | n + 1, ctx => fun list data depth => do
    if getOperationAccess list ctx .create then do
      let (item, afterOp) ← createSingleGo (ncF n ctx) ctx list data depth
      M.pur (item, fun _ => afterOp item)
    else M.fail (.accessDenied (cannotForItem .create list.listKey))

/-- `createSingle` with its nested-create capability instantiated. -/
def createSingle (fuel : Nat) (ctx : Ctx) (list : ListConfig) (rawData : Rec)
    (depth : Nat) : M (Item × (Item → M Unit)) :=
  createSingleGo (ncF fuel ctx) ctx list rawData depth

/-- `updateSingle` (create-update.ts lines 114–153): resolve the unique
target, check filter access, reload the row under access control, resolve
the input against the pre-operation item, issue exactly one store `update`
call, then run the `afterOperation` closure on the updated item. -/
def updateSingle (fuel : Nat) (ctx : Ctx) (list : ListConfig)
    (uniqueInput : Rec) (rawData : Rec) (accessFilters : AccessFilter)
    (depth : Nat) : M Item := do
  let uw ← M.liftE (resolveUniqueWhereInput uniqueInput list)
  M.liftE (checkFilterOrderAccess list ctx uw.1)
  let item ← getAccessControlledItemForUpdate ctx list uw accessFilters rawData depth
  let (data, afterOp) ←
    resolveInputForCreateOrUpdate (ncF fuel ctx) ctx list rawData (some item) depth
  match ctx.store.updateRes list.listKey item.id data with
  | .ok updatedItem => do
    M.emit (.storeUpdate depth list.listKey item.id data true)
    afterOp updatedItem
    M.pur updatedItem
  | .error e => do
    M.emit (.storeUpdate depth list.listKey item.id data false)
    M.fail e

/-- `deleteSingle` (part_000 lines 11–73): resolve the unique target, check
filter access, reload the row under access control, run `validate`
(field, then list) and `beforeOperation` (list, then field) — delete skips
`resolveInput` since there is no input to resolve — then exactly one store
`delete` call, then the `afterOperation` hooks (list, then field) with the
deleted row as `originalItem`. -/
def deleteSingle (ctx : Ctx) (list : ListConfig) (uniqueInput : Rec)
    (accessFilters : AccessFilter) (depth : Nat) : M Item := do
  let uw ← M.liftE (resolveUniqueWhereInput uniqueInput list)
  M.liftE (checkFilterOrderAccess list ctx uw.1)
  let item ← getAccessControlledItemForDelete ctx list uw accessFilters depth
  let args : HookArgs :=
    { listKey := list.listKey, operation := .delete, inputData := none,
      item := some item, resolvedData := none }
  validateFields list .delete depth args
  validateList list .delete depth args
  M.emit (.listHook depth .beforeOperation list.listKey)
  M.liftE (list.hooks.beforeOperation .delete args)
  runFieldHooksSeq .beforeOperation (fun f => f.hooks.beforeOperation)
    list.listKey .delete depth args list.fields
  match ctx.store.deleteRes list.listKey item.id with
  | .ok newItem => do
    M.emit (.storeDelete depth list.listKey item.id true)
    let args2 := { args with item := none, originalItem := some item }
    M.emit (.listHook depth .afterOperation list.listKey)
    M.liftE (list.hooks.afterOperation .delete args2)
    runFieldHooksSeq .afterOperation (fun f => f.hooks.afterOperation)
      list.listKey .delete depth args2 list.fields
    M.pur newItem
  | .error e => do
    M.emit (.storeDelete depth list.listKey item.id false)
    M.fail e

/-! ## The mutation orchestrators (the public surface, spec §4.7)

The `...Many` orchestrators embed the source's `inputs.map(async ...)`:
a list of independent per-item computations against the request-scoped
context, each gated by the batch-level access decision computed once. -/

/-- `createOne` (create-update.ts lines 82–95). -/
def createOne (fuel : Nat) (ctx : Ctx) (list : ListConfig) (data : Rec) : M Item := do
  if getOperationAccess list ctx .create then do
    let (item, afterOp) ← createSingle fuel ctx list data 0
    afterOp item
    M.pur item
  else M.fail (.accessDenied (cannotForItem .create list.listKey))

/-- `createMany` (create-update.ts lines 97–112): the operation-access
decision is computed once per batch, then each input runs its full item
pipeline independently, throwing the per-item denial when access is
false. -/
def createMany (fuel : Nat) (ctx : Ctx) (list : ListConfig) (datas : List Rec) :
    List (M Item) :=
  let operationAccess := getOperationAccess list ctx .create
  datas.map (fun data =>
    if operationAccess then do
      let (item, afterOp) ← createSingle fuel ctx list data 0
      afterOp item
      M.pur item
    else M.fail (.accessDenied (cannotForItem .create list.listKey)))

/-- `updateOne` (create-update.ts lines 155–167). -/
def updateOne (fuel : Nat) (ctx : Ctx) (list : ListConfig)
    (uniqueInput : Rec) (data : Rec) : M Item := do
  if getOperationAccess list ctx .update then
    updateSingle fuel ctx list uniqueInput data (getAccessFilters list ctx .update) 0
  else M.fail (.accessDenied (cannotForItem .update list.listKey))

/-- `updateMany` (create-update.ts lines 169–185): operation access and the
access filters are computed once per batch; each item still throws the
denial individually. -/
def updateMany (fuel : Nat) (ctx : Ctx) (list : ListConfig)
    (updateInputs : List (Rec × Rec)) : List (M Item) :=
  let operationAccess := getOperationAccess list ctx .update
  let accessFilters := getAccessFilters list ctx .update
  updateInputs.map (fun ui =>
    if operationAccess then
      updateSingle fuel ctx list ui.1 ui.2 accessFilters 0
    else M.fail (.accessDenied (cannotForItem .update list.listKey)))

/-- `deleteOne` (part_000 lines 93–105). -/
def deleteOne (ctx : Ctx) (list : ListConfig) (uniqueInput : Rec) : M Item := do
  if getOperationAccess list ctx .delete then
    deleteSingle ctx list uniqueInput (getAccessFilters list ctx .delete) 0
  else M.fail (.accessDenied (cannotForItem .delete list.listKey))

/-- `deleteMany` (part_000 lines 75–91). -/
def deleteMany (ctx : Ctx) (list : ListConfig) (uniqueInputs : List Rec) :
    List (M Item) :=
  let operationAccess := getOperationAccess list ctx .delete
  let accessFilters := getAccessFilters list ctx .delete
  uniqueInputs.map (fun uniqueInput =>
    if operationAccess then
      deleteSingle ctx list uniqueInput accessFilters 0
    else M.fail (.accessDenied (cannotForItem .delete list.listKey)))

/-! ## Event classification -/

/-- Is this event a store call of any kind (read or write)? -/
def Event.isStore : Event → Bool
  | .findUnique .. => true
  | .storeCreate .. => true
  | .storeUpdate .. => true
  | .storeDelete .. => true
  | _ => false

/-- Is this event a store write (create/update/delete call, succeeded or
not) performed at depth `d` — i.e. the own write of a mutation running at
that depth? -/
def Event.isWriteAt (d : Nat) : Event → Bool
  | .storeCreate d' _ _ _ => d' == d
  | .storeUpdate d' _ _ _ _ => d' == d
  | .storeDelete d' _ _ _ => d' == d
  | _ => false

/-- Is this event a durably-succeeded store write of the top-level
mutation (depth 0)? -/
def Event.isTopOkWrite : Event → Bool
  | .storeCreate 0 _ _ ok => ok
  | .storeUpdate 0 _ _ _ ok => ok
  | .storeDelete 0 _ _ ok => ok
  | _ => false

/-- Is this event an `afterOperation`-phase hook invocation (at any
depth)? -/
def Event.isAfterOpHook : Event → Bool
  | .fieldHook _ .afterOperation _ _ => true
  | .listHook _ .afterOperation _ => true
  | _ => false

/-- Is this event a hook invocation (field- or list-level, any phase, any
depth)? -/
def Event.isHook : Event → Bool
  | .fieldHook .. => true
  | .listHook .. => true
  | _ => false

/-- Is this event an access-filtered store reload (`findUnique`)? -/
def Event.isFindUnique : Event → Bool
  | .findUnique .. => true
  | _ => false

/-- The C4 observation filter: the top-level mutation's own hook
invocations and store writes (depth 0), the events whose relative order
spec §4.5 fixes. -/
def Event.isPhase0 : Event → Bool
  | .fieldHook 0 _ _ _ => true
  | .listHook 0 _ _ => true
  | .storeCreate 0 _ _ _ => true
  | .storeUpdate 0 _ _ _ _ => true
  | .storeDelete 0 _ _ _ => true
  | _ => false

/-! ## Canonical hook-order sequences (spec §4.5) -/

/-- One field-level hook invocation event per field of a list, in field
order, for a given phase (top level). -/
def fieldHookEvents (phase : Phase) (lk : String)
    (fields : List (String × FieldConfig)) : List Event :=
  fields.map (fun kf => .fieldHook 0 phase lk kf.1)

/-- The canonical top-level hook order before the write, for create and
update: `resolveInput` (field, then list) → `validate` (field, then list)
→ `beforeOperation` (list, then field). -/
def canonicalBeforeWrite (lk : String) (fields : List (String × FieldConfig)) : List Event :=
  fieldHookEvents .resolveInput lk fields ++ [.listHook 0 .resolveInput lk] ++
  fieldHookEvents .validate lk fields ++ [.listHook 0 .validate lk] ++
  [.listHook 0 .beforeOperation lk] ++ fieldHookEvents .beforeOperation lk fields

/-- The canonical top-level hook order before the write for delete — the
same order with `resolveInput` skipped. -/
def canonicalBeforeWriteDelete (lk : String) (fields : List (String × FieldConfig)) : List Event :=
  fieldHookEvents .validate lk fields ++ [.listHook 0 .validate lk] ++
  [.listHook 0 .beforeOperation lk] ++ fieldHookEvents .beforeOperation lk fields

/-- The canonical top-level hook order after the write:
`afterOperation` (list, then field). -/
def canonicalAfterWrite (lk : String) (fields : List (String × FieldConfig)) : List Event :=
  [.listHook 0 .afterOperation lk] ++ fieldHookEvents .afterOperation lk fields

/-! ## Specification mirrors for error aggregation (C5)

Independent per-field evaluation: each field's resolver outcome computed
on its own, with no influence from the other fields of the pass.  The
aggregation claims compare the pipeline's collected error lists against
these mirrors. -/

/-- The pass-1 errors as independent per-field outcomes: for every
non-relation field with a resolver for the operation, the pair
`(fieldTag, error)` when its resolver throws on the field's raw value. -/
def pass1ErrorsSpec (lk : String) (op : Op) (data : Rec)
    (fields : List (String × FieldConfig)) : List (String × Err) :=
  fields.filterMap (fun kf =>
    match (if kf.2.dbField.isRelation then none else kf.2.inputResolver op) with
    | none => none
    | some r =>
      match r ((alook data kf.1).getD .vundef) with
      | .ok _ => none
      | .error e => some (fieldTag lk kf.1, e))

/-- The outcome of one relation field's strategy evaluated independently
(with an empty deferred accumulator — the strategy's outcome does not
depend on the accumulator it is handed). -/
def relFieldResult (nc : NCF) (ctx : Ctx) (tag foreignKey : String)
    (mode : RelMode) (depth : Nat) (input : Val) : Except Err Val :=
  match (relStrategy nc ctx tag foreignKey mode depth input []).res with
  | .ok (r, _) => r
  | .error e => .error e

/-- The pass-2 errors as independent per-field outcomes, with the
`RelationshipErrors` aggregate of a failing strategy flattened into the
collected pairs as the source's `catch` does. -/
def pass2ErrorsSpec (nc : NCF) (ctx : Ctx) (lk : String) (op : Op) (depth : Nat)
    (data : Rec) (fields : List (String × FieldConfig)) : List (String × Err) :=
  fields.flatMap (fun kf =>
    match kf.2.dbField with
    | .relation mode foreignKey =>
      (match kf.2.inputResolver op with
        | none => []
        | some _ =>
          match relFieldResult nc ctx (fieldTag lk kf.1) foreignKey mode depth
              ((alook data kf.1).getD .vundef) with
          | .ok _ => []
          | .error (.relationshipErrors es) => es
          | .error e => [(fieldTag lk kf.1, e)])
    | _ => [])

/-- The field-`resolveInput`-hook errors as independent per-field
outcomes (every hook sees the same resolved data, as in the source). -/
def pass3ErrorsSpec (lk : String) (op : Op) (inputData : Rec)
    (item : Option Item) (resolvedData : Rec)
    (fields : List (String × FieldConfig)) : List (String × Err) :=
  fields.filterMap (fun kf =>
    match kf.2.hooks.resolveInput op
        { listKey := lk, operation := op, inputData := some inputData, item := item,
          resolvedData := some resolvedData, fieldKey := some kf.1 } with
    | .ok _ => none
    | .error e => some (fieldTag lk kf.1 ++ ".hooks.resolveInput", e))

/-- The pass-1 entries as independent per-field outcomes: the resolved
value when the field's resolver succeeds, the raw value otherwise. -/
def pass1EntriesSpec (op : Op) (data : Rec)
    (fields : List (String × FieldConfig)) : Rec :=
  fields.map (fun kf =>
    (kf.1,
      let input := (alook data kf.1).getD .vundef
      match (if kf.2.dbField.isRelation then none else kf.2.inputResolver op) with
      | none => input
      | some r =>
        match r input with
        | .ok v => v
        | .error _ => input))

/-- The pass-1 resolver-invocation events: one `fieldResolver` event per
applicable field, in field order. -/
def pass1Events (lk : String) (op : Op) (depth : Nat)
    (fields : List (String × FieldConfig)) : List Event :=
  fields.filterMap (fun kf =>
    match (if kf.2.dbField.isRelation then none else kf.2.inputResolver op) with
    | none => none
    | some _ => some (.fieldResolver depth (fieldTag lk kf.1)))

/-- The deferred actions one relation field's strategy appends (evaluated
against an empty accumulator). -/
def relNewDefs (nc : NCF) (ctx : Ctx) (tag foreignKey : String)
    (mode : RelMode) (depth : Nat) (input : Val) : List Deferred :=
  match (relStrategy nc ctx tag foreignKey mode depth input []).res with
  | .ok (_, ds) => ds
  | .error _ => []

/-- The events one relation field's strategy performs (independent of the
accumulator it is handed). -/
def relStrategyEvents (nc : NCF) (ctx : Ctx) (tag foreignKey : String)
    (mode : RelMode) (depth : Nat) (input : Val) : List Event :=
  (relStrategy nc ctx tag foreignKey mode depth input []).trace

/-- The pass-2 entries as independent per-field outcomes. -/
def pass2EntriesSpec (nc : NCF) (ctx : Ctx) (lk : String) (op : Op) (depth : Nat)
    (data : Rec) (fields : List (String × FieldConfig)) : Rec :=
  fields.map (fun kf =>
    (kf.1,
      let input := (alook data kf.1).getD .vundef
      match kf.2.dbField with
      | .relation mode foreignKey =>
        (match kf.2.inputResolver op with
          | none => input
          | some _ =>
            match relFieldResult nc ctx (fieldTag lk kf.1) foreignKey mode depth input with
            | .ok v => v
            | .error _ => input)
      | _ => input))

/-- The pass-3 (field `resolveInput` hook) entries as independent
per-field outcomes: the hook's value on success, `undefined` on throw. -/
def pass3EntriesSpec (lk : String) (op : Op) (inputData : Rec)
    (item : Option Item) (resolvedData : Rec)
    (fields : List (String × FieldConfig)) : Rec :=
  fields.map (fun kf =>
    (kf.1,
      match kf.2.hooks.resolveInput op
          { listKey := lk, operation := op, inputData := some inputData, item := item,
            resolvedData := some resolvedData, fieldKey := some kf.1 } with
      | .ok v => v
      | .error _ => .vundef))

/-- The deferred actions pass 2 appends, as independent per-field
outcomes. -/
def pass2NewDefsSpec (nc : NCF) (ctx : Ctx) (lk : String) (op : Op) (depth : Nat)
    (data : Rec) (fields : List (String × FieldConfig)) : List Deferred :=
  fields.flatMap (fun kf =>
    match kf.2.dbField with
    | .relation mode foreignKey =>
      (match kf.2.inputResolver op with
        | none => []
        | some _ =>
          relNewDefs nc ctx (fieldTag lk kf.1) foreignKey mode depth
            ((alook data kf.1).getD .vundef))
    | _ => [])

/-- The pass-2 events, as independent per-field outcomes: each applicable
relation field's resolver-invocation event followed by its strategy's
events. -/
def pass2EventsSpec (nc : NCF) (ctx : Ctx) (lk : String) (op : Op) (depth : Nat)
    (data : Rec) (fields : List (String × FieldConfig)) : List Event :=
  fields.flatMap (fun kf =>
    match kf.2.dbField with
    | .relation mode foreignKey =>
      (match kf.2.inputResolver op with
        | none => []
        | some _ =>
          .fieldResolver depth (fieldTag lk kf.1)
            :: relStrategyEvents nc ctx (fieldTag lk kf.1) foreignKey mode depth
                ((alook data kf.1).getD .vundef))
    | _ => [])

/-- The access-filtered reload condition: the unique-target condition with
the access filter merged in, evaluated against the store snapshot. -/
def mergedFind (ctx : Ctx) (list : ListConfig) (uw : String × Val)
    (filt : AccessFilter) : Option Item :=
  (ctx.store.rows list.listKey).find? (fun it => matchesUnique uw it && evalFilter filt it)

/-- Replace the store snapshot of a context (used to compare runs against
different stores). -/
def Ctx.setRows (ctx : Ctx) (rows : String → List Item) : Ctx :=
  { ctx with store := { ctx.store with rows := rows } }

/-! ## Concrete example configurations (used by the witnesses) -/

/-- The identity field `resolveInput` hook: returns the field's current
resolved value (the default hook installed by list initialisation). -/
def defaultFieldResolveInput : Op → HookArgs → Except Err Val :=
  fun _ args => .ok ((alook (args.resolvedData.getD []) (args.fieldKey.getD "")).getD .vundef)

/-- No-op field hooks with the identity `resolveInput`. -/
def okFieldHooks : FieldHooks :=
  { resolveInput := defaultFieldResolveInput
  , validate := fun _ _ => .ok ()
  , beforeOperation := fun _ _ => .ok ()
  , afterOperation := fun _ _ => .ok () }

/-- No-op list hooks with the identity `resolveInput` (returns the
resolved data unchanged). -/
def okListHooks : ListHooks :=
  { resolveInput := fun _ args => .ok (args.resolvedData.getD [])
  , validate := fun _ _ => .ok ()
  , beforeOperation := fun _ _ => .ok ()
  , afterOperation := fun _ _ => .ok () }

/-- A plain scalar field with no input resolver. -/
def plainField (scalar : String) : FieldConfig :=
  { dbField := .scalar scalar, inputResolver := fun _ => none, hooks := okFieldHooks }

/-- A scalar field whose input resolver passes the value through. -/
def okResolverField (scalar : String) : FieldConfig :=
  { dbField := .scalar scalar, inputResolver := fun _ => some (fun v => .ok v)
  , hooks := okFieldHooks }

/-- A scalar field whose input resolver always throws. -/
def failResolverField (msg : String) : FieldConfig :=
  { dbField := .scalar "String", inputResolver := fun _ => some (fun _ => .error (.hookThrow msg))
  , hooks := okFieldHooks }

/-- The example related list. -/
def tagList : ListConfig :=
  { listKey := "Tag", fields := [("label", plainField "String")]
  , hooks := okListHooks, uniqueFields := ["id"], isSingleton := false }

/-- The example main list: a resolved scalar field and a to-many relation
to `Tag` (the relation resolver delegates to the factory strategy). -/
def postList : ListConfig :=
  { listKey := "Post"
  , fields :=
      [("title", okResolverField "String"),
       ("tags", { dbField := .relation .many "Tag"
                , inputResolver := fun _ => some (fun v => .ok v)
                , hooks := okFieldHooks })]
  , hooks := okListHooks, uniqueFields := ["id"], isSingleton := false }

/-- The example store: one `Post` row (id 1), one `Tag` row (id 5); all
writes succeed, echoing plausible rows. -/
def exStore : Store :=
  { rows := fun lk =>
      if lk = "Post" then [⟨1, [("title", .vstr "hello")]⟩]
      else if lk = "Tag" then [⟨5, [("label", .vstr "t")]⟩] else []
  , createRes := fun _ _ => .ok ⟨7, []⟩
  , updateRes := fun _ id _ => .ok ⟨id, []⟩
  , deleteRes := fun _ id => .ok ⟨id, []⟩ }

/-- The example context: everything allowed, unrestricted filters. -/
def exCtx : Ctx :=
  { store := exStore
  , operationAccess := fun _ _ => true
  , accessFilters := fun _ _ => .allowAll
  , lists := [("Post", postList), ("Tag", tagList)]
  , filterOrderOk := fun _ _ => true
  , createAccessOk := fun _ _ => true
  , updateItemOk := fun _ _ _ => true
  , deleteItemOk := fun _ _ => true }

/-- The example context with every operation denied. -/
def denyCtx : Ctx := { exCtx with operationAccess := fun _ _ => false }

/-- A list whose list-level `afterOperation` hook throws. -/
def afterThrowList : ListConfig :=
  { listKey := "Post", fields := []
  , hooks := { okListHooks with afterOperation := fun _ _ => .error (.hookThrow "boom") }
  , uniqueFields := ["id"], isSingleton := false }

/-- A list with two throwing non-relation resolvers (pass-1 aggregation
example). -/
def twoFailList : ListConfig :=
  { listKey := "F"
  , fields := [("a", failResolverField "bad a"), ("b", failResolverField "bad b")]
  , hooks := okListHooks, uniqueFields := ["id"], isSingleton := false }

/-- The example singleton list. -/
def singletonList : ListConfig :=
  { listKey := "Config", fields := [("title", okResolverField "String")]
  , hooks := okListHooks, uniqueFields := ["id"], isSingleton := true }

/-- The multi-field example list of spec §8: a `multi` field `name` with
subfields `first`,`last`. -/
def nameList : ListConfig :=
  { listKey := "Person"
  , fields := [("name",
      { dbField := .multi [("first", .scalar "String"), ("last", .scalar "String")]
      , inputResolver := fun _ => none, hooks := okFieldHooks })]
  , hooks := okListHooks, uniqueFields := ["id"], isSingleton := false }

/-- An empty store snapshot (no rows in any list). -/
def emptyRows : String → List Item := fun _ => []

/-! # Theorems

First the computation laws of the effects pairing, then generic trace
lemmas, then the per-claim developments. -/

@[simp] theorem bind_ok {α β : Type} (a : α) (tr : List Event) (f : α → M β) :
    (Bind.bind (⟨Except.ok a, tr⟩ : M α) f) = ⟨(f a).res, tr ++ (f a).trace⟩ := rfl

@[simp] theorem bind_err {α β : Type} (e : Err) (tr : List Event) (f : α → M β) :
    (Bind.bind (⟨Except.error e, tr⟩ : M α) f) = (⟨Except.error e, tr⟩ : M β) := rfl

@[simp] theorem pure_eq {α : Type} (a : α) :
    (Pure.pure a : M α) = ⟨Except.ok a, []⟩ := rfl

@[simp] theorem pur_eq {α : Type} (a : α) : (M.pur a : M α) = ⟨Except.ok a, []⟩ := rfl

@[simp] theorem emit_eq (ev : Event) : M.emit ev = ⟨Except.ok (), [ev]⟩ := rfl

@[simp] theorem fail_eq {α : Type} (e : Err) : (M.fail e : M α) = ⟨Except.error e, []⟩ := rfl

@[simp] theorem liftE_eq {α : Type} (r : Except Err α) : M.liftE r = ⟨r, []⟩ := rfl

@[simp] theorem attempt_eq {α : Type} (x : M α) : M.attempt x = ⟨.ok x.res, x.trace⟩ := rfl

@[simp] theorem bind_eq_mbind {α β : Type} (x : M α) (f : α → M β) :
    (Bind.bind x f) = M.bind x f := rfl

theorem mbind_mk {α β : Type} (r : Except Err α) (tr : List Event) (f : α → M β) :
    M.bind ⟨r, tr⟩ f =
      (match r with
        | .error e => (⟨Except.error e, tr⟩ : M β)
        | .ok a => ⟨(f a).res, tr ++ (f a).trace⟩) := rfl

@[simp] theorem mbind_ok {α β : Type} (a : α) (tr : List Event) (f : α → M β) :
    M.bind ⟨Except.ok a, tr⟩ f = ⟨(f a).res, tr ++ (f a).trace⟩ := rfl

@[simp] theorem mbind_err {α β : Type} (e : Err) (tr : List Event) (f : α → M β) :
    M.bind ⟨Except.error e, tr⟩ f = (⟨Except.error e, tr⟩ : M β) := rfl

example : (createOne 2 exCtx postList [("title", .vstr "x")]).res = .ok ⟨7, []⟩ := rfl

example :
    (createOne 2 exCtx postList
      [("title", .vstr "x"),
       ("tags", .vobj [("create", .vlist [.vobj [("label", .vstr "new")]])])]).res
      = .ok ⟨7, []⟩ := rfl

example : (updateOne 2 exCtx postList [("id", .vint 1)] [("title", .vstr "y")]).res
    = .ok ⟨1, []⟩ := rfl

example : (deleteOne exCtx postList [("id", .vint 1)]).res = .ok ⟨1, []⟩ := rfl

/-! ## Pass characterizations

Each field pass evaluates its fields independently: the pass equals, as a
whole computation, the per-field specification mirrors. -/

theorem pass1EntriesSpec_cons (op : Op) (data : Rec) (k : String) (f : FieldConfig)
    (rest : List (String × FieldConfig)) :
    pass1EntriesSpec op data ((k, f) :: rest)
      = (k,
          match (if f.dbField.isRelation then none else f.inputResolver op) with
          | none => (alook data k).getD .vundef
          | some r =>
            match r ((alook data k).getD .vundef) with
            | .ok v => v
            | .error _ => (alook data k).getD .vundef) :: pass1EntriesSpec op data rest := rfl

theorem pass1ErrorsSpec_cons (lk : String) (op : Op) (data : Rec) (k : String)
    (f : FieldConfig) (rest : List (String × FieldConfig)) :
    pass1ErrorsSpec lk op data ((k, f) :: rest)
      = (match (if f.dbField.isRelation then none else f.inputResolver op) with
          | none => []
          | some r =>
            match r ((alook data k).getD .vundef) with
            | .ok _ => []
            | .error e => [(fieldTag lk k, e)]) ++ pass1ErrorsSpec lk op data rest := by
  simp only [pass1ErrorsSpec, List.filterMap_cons]
  cases h : (if f.dbField.isRelation then none else f.inputResolver op) with
  | none => simp
  | some r =>
    cases hr : r ((alook data k).getD .vundef) with
    | ok v => simp [hr]
    | error e => simp [hr]

theorem pass1Events_cons (lk : String) (op : Op) (depth : Nat) (k : String)
    (f : FieldConfig) (rest : List (String × FieldConfig)) :
    pass1Events lk op depth ((k, f) :: rest)
      = (match (if f.dbField.isRelation then none else f.inputResolver op) with
          | none => []
          | some _ => [Event.fieldResolver depth (fieldTag lk k)]) ++ pass1Events lk op depth rest := by
  simp only [pass1Events, List.filterMap_cons]
  cases h : (if f.dbField.isRelation then none else f.inputResolver op) with
  | none => simp
  | some r => simp [h]

theorem applyNonRel_char (lk : String) (op : Op) (depth : Nat) (data : Rec)
    (fields : List (String × FieldConfig)) :
    applyNonRelResolvers lk op depth data fields
      = ⟨.ok (pass1EntriesSpec op data fields, pass1ErrorsSpec lk op data fields),
         pass1Events lk op depth fields⟩ := by
  induction fields with
  | nil => rfl
  | cons kf rest ih =>
    obtain ⟨k, f⟩ := kf
    rw [pass1EntriesSpec_cons, pass1ErrorsSpec_cons, pass1Events_cons]
    simp only [applyNonRelResolvers]
    cases h : (if f.dbField.isRelation then none else f.inputResolver op) with
    | none => simp [h, ih]
    | some r =>
      cases hr : r ((alook data k).getD .vundef) with
      | ok v => simp [h, hr, ih]
      | error e => simp [h, hr, ih]

theorem pass3EntriesSpec_cons (lk : String) (op : Op) (inputData : Rec)
    (item : Option Item) (resolvedData : Rec) (k : String) (f : FieldConfig)
    (rest : List (String × FieldConfig)) :
    pass3EntriesSpec lk op inputData item resolvedData ((k, f) :: rest)
      = (k,
          match f.hooks.resolveInput op
              { listKey := lk, operation := op, inputData := some inputData, item := item,
                resolvedData := some resolvedData, fieldKey := some k } with
          | .ok v => v
          | .error _ => .vundef) :: pass3EntriesSpec lk op inputData item resolvedData rest := rfl

theorem pass3ErrorsSpec_cons (lk : String) (op : Op) (inputData : Rec)
    (item : Option Item) (resolvedData : Rec) (k : String) (f : FieldConfig)
    (rest : List (String × FieldConfig)) :
    pass3ErrorsSpec lk op inputData item resolvedData ((k, f) :: rest)
      = (match f.hooks.resolveInput op
            { listKey := lk, operation := op, inputData := some inputData, item := item,
              resolvedData := some resolvedData, fieldKey := some k } with
          | .ok _ => []
          | .error e => [(fieldTag lk k ++ ".hooks.resolveInput", e)])
        ++ pass3ErrorsSpec lk op inputData item resolvedData rest := by
  simp only [pass3ErrorsSpec, List.filterMap_cons]
  cases hr : f.hooks.resolveInput op
      { listKey := lk, operation := op, inputData := some inputData, item := item,
        resolvedData := some resolvedData, fieldKey := some k } with
  | ok v => simp [hr]
  | error e => simp [hr]

theorem applyFieldRIHooks_char (lk : String) (op : Op) (depth : Nat)
    (inputData : Rec) (item : Option Item) (resolvedData : Rec)
    (fields : List (String × FieldConfig)) :
    applyFieldResolveInputHooks lk op depth inputData item resolvedData fields
      = ⟨.ok (pass3EntriesSpec lk op inputData item resolvedData fields,
              pass3ErrorsSpec lk op inputData item resolvedData fields),
         fields.map (fun kf => .fieldHook depth .resolveInput lk kf.1)⟩ := by
  induction fields with
  | nil => rfl
  | cons kf rest ih =>
    obtain ⟨k, f⟩ := kf
    rw [pass3EntriesSpec_cons, pass3ErrorsSpec_cons]
    simp only [applyFieldResolveInputHooks, List.map_cons]
    cases hr : f.hooks.resolveInput op
        { listKey := lk, operation := op, inputData := some inputData, item := item,
          resolvedData := some resolvedData, fieldKey := some k } with
    | ok v => simp [hr, ih]
    | error e => simp [hr, ih]

theorem runNestedCreates_shift (nc : NCF) (tag : String) (foreign : ListConfig)
    (d : Nat) (creates : List Val) :
    ∃ vs errs nds tr, ∀ defs,
      runNestedCreates nc tag foreign d creates defs = ⟨.ok (vs, errs, defs ++ nds), tr⟩ := by
  induction creates with
  | nil => exact ⟨[], [], [], [], fun defs => by simp [runNestedCreates]⟩
  | cons c rest ih =>
    obtain ⟨vs, errs, nds, tr, hih⟩ := ih
    cases c with
    | vobj data =>
      cases hnc : nc foreign data d with
      | mk r0 tr0 =>
        cases r0 with
        | ok p =>
          obtain ⟨it, df⟩ := p
          exact ⟨idObj it :: vs, errs, df :: nds, tr0 ++ tr, fun defs => by
            simp [runNestedCreates, hnc, hih, List.append_assoc]⟩
        | error e =>
          exact ⟨vs, (tag, e) :: errs, nds, tr0 ++ tr, fun defs => by
            simp [runNestedCreates, hnc, hih]⟩
    | vundef =>
      exact ⟨vs, (tag, .validation "create input must be an object") :: errs, nds, tr,
        fun defs => by simp [runNestedCreates, hih]⟩
    | vnull =>
      exact ⟨vs, (tag, .validation "create input must be an object") :: errs, nds, tr,
        fun defs => by simp [runNestedCreates, hih]⟩
    | vint n =>
      exact ⟨vs, (tag, .validation "create input must be an object") :: errs, nds, tr,
        fun defs => by simp [runNestedCreates, hih]⟩
    | vstr s =>
      exact ⟨vs, (tag, .validation "create input must be an object") :: errs, nds, tr,
        fun defs => by simp [runNestedCreates, hih]⟩
    | vbool b =>
      exact ⟨vs, (tag, .validation "create input must be an object") :: errs, nds, tr,
        fun defs => by simp [runNestedCreates, hih]⟩
    | vlist items =>
      exact ⟨vs, (tag, .validation "create input must be an object") :: errs, nds, tr,
        fun defs => by simp [runNestedCreates, hih]⟩

theorem relStrategy_shift (nc : NCF) (ctx : Ctx) (tag foreignKey : String)
    (mode : RelMode) (depth : Nat) (input : Val) :
    ∃ r ds tr, ∀ defs,
      relStrategy nc ctx tag foreignKey mode depth input defs = ⟨.ok (r, defs ++ ds), tr⟩ := by
  by_cases hu : (input.isUndef || input.isNull) = true
  · exact ⟨.ok .vundef, [], [], fun defs => by simp [relStrategy, hu]⟩
  · cases hlook : alook ctx.lists foreignKey with
    | none =>
      exact ⟨.error (.validation ("unknown list " ++ foreignKey)), [], [],
        fun defs => by simp [relStrategy, hu, hlook]⟩
    | some foreign =>
      cases mode with
      | many =>
        cases input with
        | vobj o =>
          obtain ⟨vs, errs, nds, tr, hrun⟩ :=
            runNestedCreates_shift nc tag foreign (depth + 1) (asList (alook o "create"))
          refine ⟨(if (((asList (alook o "connect")).map (fun c => resolveConnect ctx foreign c)).filterMap
                  (fun r => match r with | .error e => some (tag, e) | .ok _ => none) ++ errs).isEmpty
              then .ok (.vobj [("connect",
                .vlist ((((asList (alook o "connect")).map (fun c => resolveConnect ctx foreign c)).filterMap
                  (fun r => match r with | .ok v => some v | .error _ => none)) ++ vs))])
              else .error (.relationshipErrors
                (((asList (alook o "connect")).map (fun c => resolveConnect ctx foreign c)).filterMap
                  (fun r => match r with | .error e => some (tag, e) | .ok _ => none) ++ errs))),
            nds, tr, fun defs => ?_⟩
          simp only [relStrategy, hu, hlook]
          simp [hrun]
          split <;> simp
        | vundef => simp [Val.isUndef] at hu
        | vnull => simp [Val.isNull] at hu
        | vint n =>
          exact ⟨.error (.validation "to-many relationship input must be an object"), [], [],
            fun defs => by simp [relStrategy, hu, hlook]⟩
        | vstr s =>
          exact ⟨.error (.validation "to-many relationship input must be an object"), [], [],
            fun defs => by simp [relStrategy, hu, hlook]⟩
        | vbool b =>
          exact ⟨.error (.validation "to-many relationship input must be an object"), [], [],
            fun defs => by simp [relStrategy, hu, hlook]⟩
        | vlist items =>
          exact ⟨.error (.validation "to-many relationship input must be an object"), [], [],
            fun defs => by simp [relStrategy, hu, hlook]⟩
      | one =>
        cases input with
        | vobj o =>
          cases hc : alook o "connect" with
          | some c =>
            cases hcr : alook o "create" with
            | none =>
              exact ⟨(resolveConnect ctx foreign c).map (fun v => .vobj [("connect", v)]), [], [],
                fun defs => by simp [relStrategy, hu, hlook, hc, hcr]⟩
            | some cr =>
              exact ⟨.error (.validation "ambiguous input: both connect and create supplied"), [], [],
                fun defs => by simp [relStrategy, hu, hlook, hc, hcr]⟩
          | none =>
            cases hcr : alook o "create" with
            | none =>
              exact ⟨.error (.validation "to-one relationship input needs connect or create"), [], [],
                fun defs => by simp [relStrategy, hu, hlook, hc, hcr]⟩
            | some cr =>
              cases cr with
              | vobj data =>
                cases hnc : nc foreign data (depth + 1) with
                | mk r0 tr0 =>
                  cases r0 with
                  | ok p =>
                    obtain ⟨it, df⟩ := p
                    exact ⟨.ok (.vobj [("connect", idObj it)]), [df], tr0,
                      fun defs => by simp [relStrategy, hu, hlook, hc, hcr, hnc]⟩
                  | error e =>
                    exact ⟨.error e, [], tr0,
                      fun defs => by simp [relStrategy, hu, hlook, hc, hcr, hnc]⟩
              | vundef =>
                exact ⟨.error (.validation "create input must be an object"), [], [],
                  fun defs => by simp [relStrategy, hu, hlook, hc, hcr]⟩
              | vnull =>
                exact ⟨.error (.validation "create input must be an object"), [], [],
                  fun defs => by simp [relStrategy, hu, hlook, hc, hcr]⟩
              | vint n =>
                exact ⟨.error (.validation "create input must be an object"), [], [],
                  fun defs => by simp [relStrategy, hu, hlook, hc, hcr]⟩
              | vstr s =>
                exact ⟨.error (.validation "create input must be an object"), [], [],
                  fun defs => by simp [relStrategy, hu, hlook, hc, hcr]⟩
              | vbool b =>
                exact ⟨.error (.validation "create input must be an object"), [], [],
                  fun defs => by simp [relStrategy, hu, hlook, hc, hcr]⟩
              | vlist items =>
                exact ⟨.error (.validation "create input must be an object"), [], [],
                  fun defs => by simp [relStrategy, hu, hlook, hc, hcr]⟩
        | vundef => simp [Val.isUndef] at hu
        | vnull => simp [Val.isNull] at hu
        | vint n =>
          exact ⟨.error (.validation "to-one relationship input must be an object"), [], [],
            fun defs => by simp [relStrategy, hu, hlook]⟩
        | vstr s =>
          exact ⟨.error (.validation "to-one relationship input must be an object"), [], [],
            fun defs => by simp [relStrategy, hu, hlook]⟩
        | vbool b =>
          exact ⟨.error (.validation "to-one relationship input must be an object"), [], [],
            fun defs => by simp [relStrategy, hu, hlook]⟩
        | vlist items =>
          exact ⟨.error (.validation "to-one relationship input must be an object"), [], [],
            fun defs => by simp [relStrategy, hu, hlook]⟩

theorem relStrategy_char (nc : NCF) (ctx : Ctx) (tag foreignKey : String)
    (mode : RelMode) (depth : Nat) (input : Val) (defs : List Deferred) :
    relStrategy nc ctx tag foreignKey mode depth input defs
      = ⟨.ok (relFieldResult nc ctx tag foreignKey mode depth input,
              defs ++ relNewDefs nc ctx tag foreignKey mode depth input),
         relStrategyEvents nc ctx tag foreignKey mode depth input⟩ := by
  obtain ⟨r, ds, tr, h⟩ := relStrategy_shift nc ctx tag foreignKey mode depth input
  have h0 := h []
  have hdefs := h defs
  rw [hdefs]
  simp [relFieldResult, relNewDefs, relStrategyEvents, h0]

theorem pass2Specs_cons (nc : NCF) (ctx : Ctx) (lk : String) (op : Op) (depth : Nat)
    (data : Rec) (k : String) (f : FieldConfig) (rest : List (String × FieldConfig)) :
    (pass2EntriesSpec nc ctx lk op depth data ((k, f) :: rest)
      = (k,
          let input := (alook data k).getD .vundef
          match f.dbField with
          | .relation mode foreignKey =>
            (match f.inputResolver op with
              | none => input
              | some _ =>
                match relFieldResult nc ctx (fieldTag lk k) foreignKey mode depth input with
                | .ok v => v
                | .error _ => input)
          | _ => input) :: pass2EntriesSpec nc ctx lk op depth data rest) ∧
    (pass2ErrorsSpec nc ctx lk op depth data ((k, f) :: rest)
      = (match f.dbField with
          | .relation mode foreignKey =>
            (match f.inputResolver op with
              | none => []
              | some _ =>
                match relFieldResult nc ctx (fieldTag lk k) foreignKey mode depth
                    ((alook data k).getD .vundef) with
                | .ok _ => []
                | .error (.relationshipErrors es) => es
                | .error e => [(fieldTag lk k, e)])
          | _ => []) ++ pass2ErrorsSpec nc ctx lk op depth data rest) ∧
    (pass2NewDefsSpec nc ctx lk op depth data ((k, f) :: rest)
      = (match f.dbField with
          | .relation mode foreignKey =>
            (match f.inputResolver op with
              | none => []
              | some _ =>
                relNewDefs nc ctx (fieldTag lk k) foreignKey mode depth
                  ((alook data k).getD .vundef))
          | _ => []) ++ pass2NewDefsSpec nc ctx lk op depth data rest) ∧
    (pass2EventsSpec nc ctx lk op depth data ((k, f) :: rest)
      = (match f.dbField with
          | .relation mode foreignKey =>
            (match f.inputResolver op with
              | none => []
              | some _ =>
                .fieldResolver depth (fieldTag lk k)
                  :: relStrategyEvents nc ctx (fieldTag lk k) foreignKey mode depth
                      ((alook data k).getD .vundef))
          | _ => []) ++ pass2EventsSpec nc ctx lk op depth data rest) := by
  refine ⟨rfl, ?_, ?_, ?_⟩ <;>
    simp only [pass2ErrorsSpec, pass2NewDefsSpec, pass2EventsSpec, List.flatMap_cons]

theorem applyRel_char (nc : NCF) (ctx : Ctx) (lk : String) (op : Op) (depth : Nat)
    (data : Rec) (fields : List (String × FieldConfig)) (defs : List Deferred) :
    applyRelResolvers nc ctx lk op depth data fields defs
      = ⟨.ok (pass2EntriesSpec nc ctx lk op depth data fields,
              pass2ErrorsSpec nc ctx lk op depth data fields,
              defs ++ pass2NewDefsSpec nc ctx lk op depth data fields),
         pass2EventsSpec nc ctx lk op depth data fields⟩ := by
  induction fields generalizing defs with
  | nil => simp [applyRelResolvers, pass2EntriesSpec, pass2ErrorsSpec, pass2NewDefsSpec,
      pass2EventsSpec, M.pur]
  | cons kf rest ih =>
    obtain ⟨k, f⟩ := kf
    obtain ⟨he, herr, hdf, hev⟩ := pass2Specs_cons nc ctx lk op depth data k f rest
    rw [he, herr, hdf, hev]
    cases hdb : f.dbField with
    | scalar s => simp [applyRelResolvers, hdb, ih]
    | multi mf => simp [applyRelResolvers, hdb, ih]
    | relation mode foreignKey =>
      cases hres : f.inputResolver op with
      | none => simp [applyRelResolvers, hdb, hres, ih]
      | some r0 =>
        simp only [applyRelResolvers, hdb, hres]
        rw [relStrategy_char]
        cases hr : relFieldResult nc ctx (fieldTag lk k) foreignKey mode depth
            ((alook data k).getD .vundef) with
        | ok v => simp [hr, ih, List.append_assoc]
        | error e =>
          cases e <;> simp [hr, ih, List.append_assoc]

theorem runFieldHooksCollect_char (phase : Phase)
    (sel : FieldConfig → Op → HookArgs → Except Err Unit) (tagSuffix : String)
    (lk : String) (op : Op) (depth : Nat) (args : HookArgs)
    (fields : List (String × FieldConfig)) :
    (runFieldHooksCollect phase sel tagSuffix lk op depth args fields).trace
        = fields.map (fun kf => .fieldHook depth phase lk kf.1) ∧
      ∃ errs, runFieldHooksCollect phase sel tagSuffix lk op depth args fields
        = ⟨.ok errs, fields.map (fun kf => .fieldHook depth phase lk kf.1)⟩ := by
  induction fields with
  | nil => exact ⟨rfl, [], rfl⟩
  | cons kf rest ih =>
    obtain ⟨k, f⟩ := kf
    obtain ⟨htr, errs, hchar⟩ := ih
    cases hr : sel f op { args with fieldKey := some k } with
    | ok _ =>
      refine ⟨?_, errs, ?_⟩ <;>
        simp [runFieldHooksCollect, hr, hchar]
    | error e =>
      refine ⟨?_, (fieldTag lk k ++ tagSuffix, e) :: errs, ?_⟩ <;>
        simp [runFieldHooksCollect, hr, hchar]

theorem runFieldHooksSeq_trace_sub (phase : Phase)
    (sel : FieldConfig → Op → HookArgs → Except Err Unit)
    (lk : String) (op : Op) (depth : Nat) (args : HookArgs)
    (fields : List (String × FieldConfig)) :
    ∀ e ∈ (runFieldHooksSeq phase sel lk op depth args fields).trace,
      ∃ k, e = .fieldHook depth phase lk k := by
  induction fields with
  | nil => intro e he; simp [runFieldHooksSeq, M.pur] at he
  | cons kf rest ih =>
    obtain ⟨k, f⟩ := kf
    intro e he
    cases hr : sel f op { args with fieldKey := some k } with
    | ok _ =>
      simp only [runFieldHooksSeq, hr, bind_eq_mbind, emit_eq, liftE_eq, mbind_ok] at he
      simp only [List.cons_append, List.nil_append, List.mem_cons] at he
      rcases he with rfl | he
      · exact ⟨k, rfl⟩
      · exact ih e he
    | error e' =>
      simp only [runFieldHooksSeq, hr, bind_eq_mbind, emit_eq, liftE_eq, mbind_ok,
        mbind_err] at he
      simp only [List.cons_append, List.nil_append, List.mem_cons] at he
      rcases he with rfl | he
      · exact ⟨k, rfl⟩
      · simp at he

theorem runFieldHooksSeq_ok_trace (phase : Phase)
    (sel : FieldConfig → Op → HookArgs → Except Err Unit)
    (lk : String) (op : Op) (depth : Nat) (args : HookArgs)
    (fields : List (String × FieldConfig))
    (h : (runFieldHooksSeq phase sel lk op depth args fields).res = .ok ()) :
    (runFieldHooksSeq phase sel lk op depth args fields).trace
      = fields.map (fun kf => .fieldHook depth phase lk kf.1) := by
  induction fields with
  | nil => rfl
  | cons kf rest ih =>
    obtain ⟨k, f⟩ := kf
    cases hr : sel f op { args with fieldKey := some k } with
    | ok _ =>
      simp only [runFieldHooksSeq, hr, bind_eq_mbind, emit_eq, liftE_eq, mbind_ok] at h ⊢
      simp only [List.map_cons, List.cons_append, List.nil_append, List.cons.injEq, true_and]
      exact ih h
    | error e' =>
      simp only [runFieldHooksSeq, hr, bind_eq_mbind, emit_eq, liftE_eq, mbind_ok,
        mbind_err] at h
      exact absurd h (by simp)

theorem validateFields_char (list : ListConfig) (op : Op) (depth : Nat) (args : HookArgs) :
    ∃ errs, validateFields list op depth args
      = ⟨(if errs.isEmpty then .ok () else .error (.extensionError "validate" errs)),
         list.fields.map (fun kf => .fieldHook depth .validate list.listKey kf.1)⟩ := by
  obtain ⟨htr, errs, hchar⟩ := runFieldHooksCollect_char .validate (fun f => f.hooks.validate)
    ".hooks.validate" list.listKey op depth args list.fields
  refine ⟨errs, ?_⟩
  simp only [validateFields, hchar, bind_eq_mbind, mbind_ok]
  by_cases he : errs.isEmpty <;> simp [he]

theorem validateList_char (list : ListConfig) (op : Op) (depth : Nat) (args : HookArgs) :
    validateList list op depth args
      = ⟨(match list.hooks.validate op args with
          | .ok _ => .ok ()
          | .error e => .error (.extensionError "validate"
              [(list.listKey ++ ".hooks.validate", e)])),
         [.listHook depth .validate list.listKey]⟩ := by
  cases hv : list.hooks.validate op args with
  | ok u => simp [validateList, hv]
  | error e => simp [validateList, hv]

/-! ## The `getResolvedData` cascade

The four gates of `getResolvedData`, characterized against the
specification mirrors. -/

theorem getRD_gate1 (nc : NCF) (ctx : Ctx) (list : ListConfig) (inputData : Rec)
    (item : Option Item) (depth : Nat)
    (op : Op) (hop : op = (match item with | none => Op.create | some _ => Op.update))
    (h1 : pass1ErrorsSpec list.listKey op inputData list.fields ≠ []) :
    getResolvedData nc ctx list inputData item depth
      = ⟨.error (.resolverError (pass1ErrorsSpec list.listKey op inputData list.fields)),
         pass1Events list.listKey op depth list.fields⟩ := by
  have hne : (pass1ErrorsSpec list.listKey op inputData list.fields).isEmpty = false := by
    cases hc : pass1ErrorsSpec list.listKey op inputData list.fields with
    | nil => exact absurd hc h1
    | cons a l => rfl
  subst hop
  simp only [getResolvedData, applyNonRel_char, bind_eq_mbind, mbind_ok]
  simp [hne]

theorem getRD_gate2 (nc : NCF) (ctx : Ctx) (list : ListConfig) (inputData : Rec)
    (item : Option Item) (depth : Nat)
    (op : Op) (hop : op = (match item with | none => Op.create | some _ => Op.update))
    (h1 : pass1ErrorsSpec list.listKey op inputData list.fields = [])
    (h2 : pass2ErrorsSpec nc ctx list.listKey op depth
        (pass1EntriesSpec op inputData list.fields) list.fields ≠ []) :
    getResolvedData nc ctx list inputData item depth
      = ⟨.error (.relationshipError (pass2ErrorsSpec nc ctx list.listKey op depth
            (pass1EntriesSpec op inputData list.fields) list.fields)),
         pass1Events list.listKey op depth list.fields
           ++ pass2EventsSpec nc ctx list.listKey op depth
                (pass1EntriesSpec op inputData list.fields) list.fields⟩ := by
  have hne : (pass2ErrorsSpec nc ctx list.listKey op depth
      (pass1EntriesSpec op inputData list.fields) list.fields).isEmpty = false := by
    cases hc : pass2ErrorsSpec nc ctx list.listKey op depth
        (pass1EntriesSpec op inputData list.fields) list.fields with
    | nil => exact absurd hc h2
    | cons a l => rfl
  subst hop
  simp only [getResolvedData, applyNonRel_char, bind_eq_mbind, mbind_ok]
  rw [applyRel_char]
  simp [h1, hne]

theorem getRD_gate3 (nc : NCF) (ctx : Ctx) (list : ListConfig) (inputData : Rec)
    (item : Option Item) (depth : Nat)
    (op : Op) (hop : op = (match item with | none => Op.create | some _ => Op.update))
    (h1 : pass1ErrorsSpec list.listKey op inputData list.fields = [])
    (h2 : pass2ErrorsSpec nc ctx list.listKey op depth
        (pass1EntriesSpec op inputData list.fields) list.fields = [])
    (h3 : pass3ErrorsSpec list.listKey op inputData item
        (pass2EntriesSpec nc ctx list.listKey op depth
          (pass1EntriesSpec op inputData list.fields) list.fields) list.fields ≠ []) :
    getResolvedData nc ctx list inputData item depth
      = ⟨.error (.extensionError "resolveInput"
            (pass3ErrorsSpec list.listKey op inputData item
              (pass2EntriesSpec nc ctx list.listKey op depth
                (pass1EntriesSpec op inputData list.fields) list.fields) list.fields)),
         pass1Events list.listKey op depth list.fields
           ++ pass2EventsSpec nc ctx list.listKey op depth
                (pass1EntriesSpec op inputData list.fields) list.fields
           ++ list.fields.map (fun kf => .fieldHook depth .resolveInput list.listKey kf.1)⟩ := by
  have hne : (pass3ErrorsSpec list.listKey op inputData item
      (pass2EntriesSpec nc ctx list.listKey op depth
        (pass1EntriesSpec op inputData list.fields) list.fields) list.fields).isEmpty = false := by
    cases hc : pass3ErrorsSpec list.listKey op inputData item
        (pass2EntriesSpec nc ctx list.listKey op depth
          (pass1EntriesSpec op inputData list.fields) list.fields) list.fields with
    | nil => exact absurd hc h3
    | cons a l => rfl
  subst hop
  simp only [getResolvedData, applyNonRel_char, bind_eq_mbind, mbind_ok]
  rw [applyRel_char]
  simp only [h1, List.isEmpty_nil, if_pos, h2, ite_true, mbind_ok, applyFieldRIHooks_char]
  simp [h1, h2, hne, List.append_assoc]

theorem getRD_gate4 (nc : NCF) (ctx : Ctx) (list : ListConfig) (inputData : Rec)
    (item : Option Item) (depth : Nat)
    (op : Op) (hop : op = (match item with | none => Op.create | some _ => Op.update))
    (h1 : pass1ErrorsSpec list.listKey op inputData list.fields = [])
    (h2 : pass2ErrorsSpec nc ctx list.listKey op depth
        (pass1EntriesSpec op inputData list.fields) list.fields = [])
    (h3 : pass3ErrorsSpec list.listKey op inputData item
        (pass2EntriesSpec nc ctx list.listKey op depth
          (pass1EntriesSpec op inputData list.fields) list.fields) list.fields = []) :
    getResolvedData nc ctx list inputData item depth
      = ⟨(match list.hooks.resolveInput op
            { listKey := list.listKey, operation := op, inputData := some inputData,
              item := item,
              resolvedData := some (pass3EntriesSpec list.listKey op inputData item
                (pass2EntriesSpec nc ctx list.listKey op depth
                  (pass1EntriesSpec op inputData list.fields) list.fields) list.fields) } with
          | .ok r => .ok (r, pass2NewDefsSpec nc ctx list.listKey op depth
              (pass1EntriesSpec op inputData list.fields) list.fields)
          | .error e => .error (.extensionError "resolveInput"
              [(list.listKey ++ ".hooks.resolveInput", e)])),
         pass1Events list.listKey op depth list.fields
           ++ pass2EventsSpec nc ctx list.listKey op depth
                (pass1EntriesSpec op inputData list.fields) list.fields
           ++ list.fields.map (fun kf => .fieldHook depth .resolveInput list.listKey kf.1)
           ++ [.listHook depth .resolveInput list.listKey]⟩ := by
  simp only [getResolvedData]
  rw [← hop]
  simp only [applyNonRel_char, bind_eq_mbind, mbind_ok]
  rw [applyRel_char]
  simp only [h1, h2, applyFieldRIHooks_char, h3]
  cases hl : list.hooks.resolveInput op
      { listKey := list.listKey, operation := op,
        inputData := some inputData, item := item,
        resolvedData := some (pass3EntriesSpec list.listKey op inputData item
          (pass2EntriesSpec nc ctx list.listKey op depth
            (pass1EntriesSpec op inputData list.fields) list.fields) list.fields) } with
  | ok r => simp [hl, h1, h2, h3, List.append_assoc]
  | error e => simp [hl, h1, h2, h3, List.append_assoc]

/-! ## `resolveInputForCreateOrUpdate` decomposition -/

theorem resolve_err (nc : NCF) (ctx : Ctx) (list : ListConfig) (input : Rec)
    (item : Option Item) (depth : Nat) (e : Err) (trG : List Event)
    (hG : getResolvedData nc ctx list input item depth = ⟨.error e, trG⟩) :
    resolveInputForCreateOrUpdate nc ctx list input item depth = ⟨.error e, trG⟩ := by
  simp [resolveInputForCreateOrUpdate, hG]

theorem resolve_ok_decomp (nc : NCF) (ctx : Ctx) (list : ListConfig) (input : Rec)
    (item : Option Item) (depth : Nat) (dbdata : DBRec) (aop : Item → M Unit)
    (op : Op) (hop : op = (match item with | none => Op.create | some _ => Op.update))
    (h : (resolveInputForCreateOrUpdate nc ctx list input item depth).res = .ok (dbdata, aop)) :
    ∃ rd defs trG,
      getResolvedData nc ctx list input item depth = ⟨.ok (rd, defs), trG⟩ ∧
      dbdata = transformForPrismaClient list.fields rd ∧
      aop = afterOperationClosure list op depth
          { listKey := list.listKey, operation := op,
            inputData := some input, item := item, resolvedData := some rd } defs ∧
      (resolveInputForCreateOrUpdate nc ctx list input item depth).trace
        = trG ++ list.fields.map (fun kf => .fieldHook depth .validate list.listKey kf.1)
            ++ [.listHook depth .validate list.listKey]
            ++ [.listHook depth .beforeOperation list.listKey]
            ++ list.fields.map (fun kf => .fieldHook depth .beforeOperation list.listKey kf.1) := by
  cases hG : getResolvedData nc ctx list input item depth with
  | mk r trG =>
    cases r with
    | error e =>
      rw [resolve_err nc ctx list input item depth e trG hG] at h
      exact absurd h (by simp)
    | ok p =>
      obtain ⟨rd, defs⟩ := p
      refine ⟨rd, defs, trG, rfl, ?_⟩
      simp only [resolveInputForCreateOrUpdate, hG, bind_eq_mbind, mbind_ok] at h ⊢
      rw [← hop] at h ⊢
      obtain ⟨errsV, hVF⟩ := validateFields_char list op depth
        { listKey := list.listKey, operation := op,
          inputData := some input, item := item, resolvedData := some rd }
      rw [hVF] at h ⊢
      cases he : errsV.isEmpty with
      | false =>
        rw [he] at h
        exact absurd h (by simp)
      | true =>
        rw [he] at h
        rw [validateList_char] at h ⊢
        cases hv : list.hooks.validate op
            { listKey := list.listKey, operation := op,
              inputData := some input, item := item, resolvedData := some rd } with
        | error e =>
          rw [hv] at h
          exact absurd h (by simp)
        | ok u0 =>
          rw [hv] at h
          cases hb : list.hooks.beforeOperation op
              { listKey := list.listKey, operation := op,
                inputData := some input, item := item, resolvedData := some rd } with
          | error e =>
            rw [hb] at h
            exact absurd h (by simp)
          | ok u1 =>
            rw [hb] at h
            cases hs : runFieldHooksSeq .beforeOperation (fun f => f.hooks.beforeOperation)
                list.listKey op depth
                { listKey := list.listKey, operation := op,
                  inputData := some input, item := item, resolvedData := some rd }
                list.fields with
            | mk rs trS =>
              rw [hs] at h
              cases rs with
              | error e => exact absurd h (by simp)
              | ok u2 =>
                have htrS : trS = list.fields.map
                    (fun kf => .fieldHook depth .beforeOperation list.listKey kf.1) := by
                  have hh := runFieldHooksSeq_ok_trace .beforeOperation
                    (fun f => f.hooks.beforeOperation) list.listKey op depth
                    { listKey := list.listKey, operation := op,
                      inputData := some input, item := item, resolvedData := some rd }
                    list.fields (by rw [hs])
                  rw [hs] at hh
                  exact hh
                have hinj := h
                simp at hinj
                refine ⟨hinj.1.symm, hinj.2.symm, ?_⟩
                rw [htrS]
                simp [List.append_assoc]

/-! ## Trace classification

Membership lemmas: which events each stage of the pipeline can perform. -/

@[simp] theorem ite_trace {α : Type} (c : Prop) [Decidable c] (x y : M α) :
    (if c then x else y).trace = if c then x.trace else y.trace := apply_ite M.trace c x y

theorem trace_bind_emptyK {α β : Type} (x : M α) (f : α → M β)
    (h : ∀ a, (f a).trace = []) : (M.bind x f).trace = x.trace := by
  cases x with
  | mk r tr => cases r <;> simp [M.bind, h]

theorem runNested_events (P : Event → Prop) (nc : NCF) (tag : String)
    (foreign : ListConfig) (d : Nat) (creates : List Val) (defs : List Deferred)
    (hnc : ∀ data', ∀ e ∈ (nc foreign data' d).trace, P e) :
    ∀ e ∈ (runNestedCreates nc tag foreign d creates defs).trace, P e := by
  induction creates generalizing defs with
  | nil => intro e he; simp [runNestedCreates, M.pur] at he
  | cons c rest ih =>
    intro e he
    cases c with
    | vobj data =>
      cases hnc0 : nc foreign data d with
      | mk r0 tr0 =>
        cases r0 with
        | ok p =>
          obtain ⟨it, df⟩ := p
          simp only [runNestedCreates, hnc0, bind_eq_mbind, attempt_eq, mbind_ok] at he
          rw [trace_bind_emptyK _ _ (fun a => rfl)] at he
          rcases List.mem_append.mp he with he | he
          · exact hnc data e (by rw [hnc0]; exact he)
          · exact ih (defs ++ [df]) e he
        | error e0 =>
          simp only [runNestedCreates, hnc0, bind_eq_mbind, attempt_eq, mbind_ok] at he
          rw [trace_bind_emptyK _ _ (fun a => rfl)] at he
          rcases List.mem_append.mp he with he | he
          · exact hnc data e (by rw [hnc0]; exact he)
          · exact ih defs e he
    | vundef =>
      simp only [runNestedCreates, bind_eq_mbind] at he
      rw [trace_bind_emptyK _ _ (fun a => rfl)] at he
      exact ih defs e he
    | vnull =>
      simp only [runNestedCreates, bind_eq_mbind] at he
      rw [trace_bind_emptyK _ _ (fun a => rfl)] at he
      exact ih defs e he
    | vint n =>
      simp only [runNestedCreates, bind_eq_mbind] at he
      rw [trace_bind_emptyK _ _ (fun a => rfl)] at he
      exact ih defs e he
    | vstr str =>
      simp only [runNestedCreates, bind_eq_mbind] at he
      rw [trace_bind_emptyK _ _ (fun a => rfl)] at he
      exact ih defs e he
    | vbool b =>
      simp only [runNestedCreates, bind_eq_mbind] at he
      rw [trace_bind_emptyK _ _ (fun a => rfl)] at he
      exact ih defs e he
    | vlist items =>
      simp only [runNestedCreates, bind_eq_mbind] at he
      rw [trace_bind_emptyK _ _ (fun a => rfl)] at he
      exact ih defs e he

theorem relStrategy_events (P : Event → Prop) (nc : NCF) (ctx : Ctx)
    (tag foreignKey : String) (mode : RelMode) (depth : Nat) (input : Val)
    (defs : List Deferred)
    (hnc : ∀ l data', ∀ e ∈ (nc l data' (depth + 1)).trace, P e) :
    ∀ e ∈ (relStrategy nc ctx tag foreignKey mode depth input defs).trace, P e := by
  intro e he
  by_cases hu : (input.isUndef || input.isNull) = true
  · simp [relStrategy, hu, M.pur] at he
  · cases hlook : alook ctx.lists foreignKey with
    | none => simp [relStrategy, hu, hlook, M.pur] at he
    | some foreign =>
      cases mode with
      | many =>
        cases input with
        | vobj o =>
          cases hrun : runNestedCreates nc tag foreign (depth + 1)
              (asList (alook o "create")) defs with
          | mk rr trr =>
            have hmem : e ∈ trr := by
              revert he
              cases rr with
              | error e0 => simp [relStrategy, hu, hlook, hrun, M.pur]
              | ok p =>
                obtain ⟨vs, errs, defs'⟩ := p
                simp only [relStrategy, hu, hlook, hrun, bind_eq_mbind, mbind_ok]
                intro he
                revert he
                by_cases hemp : (((asList (alook o "connect")).map
                    (fun c => resolveConnect ctx foreign c)).filterMap
                      (fun r => match r with | .error e1 => some (tag, e1) | .ok _ => none)
                    ++ errs).isEmpty <;> simp [hemp, M.pur]
            exact runNested_events P nc tag foreign (depth + 1) (asList (alook o "create"))
              defs (fun data' => hnc foreign data') e (by rw [hrun]; exact hmem)
        | vundef => simp [Val.isUndef] at hu
        | vnull => simp [Val.isNull] at hu
        | vint n => simp [relStrategy, hu, hlook, M.pur] at he
        | vstr str => simp [relStrategy, hu, hlook, M.pur] at he
        | vbool b => simp [relStrategy, hu, hlook, M.pur] at he
        | vlist items => simp [relStrategy, hu, hlook, M.pur] at he
      | one =>
        cases input with
        | vobj o =>
          cases hc : alook o "connect" with
          | some c =>
            cases hcr : alook o "create" with
            | none => simp [relStrategy, hu, hlook, hc, hcr, M.pur] at he
            | some cr => simp [relStrategy, hu, hlook, hc, hcr, M.pur] at he
          | none =>
            cases hcr : alook o "create" with
            | none => simp [relStrategy, hu, hlook, hc, hcr, M.pur] at he
            | some cr =>
              cases cr with
              | vobj data =>
                cases hnc0 : nc foreign data (depth + 1) with
                | mk r0 tr0 =>
                  have hmem : e ∈ tr0 := by
                    revert he
                    cases r0 with
                    | ok p =>
                      obtain ⟨it, df⟩ := p
                      simp [relStrategy, hu, hlook, hc, hcr, hnc0, M.pur]
                    | error e0 =>
                      simp [relStrategy, hu, hlook, hc, hcr, hnc0, M.pur]
                  exact hnc foreign data e (by rw [hnc0]; exact hmem)
              | vundef => simp [relStrategy, hu, hlook, hc, hcr, M.pur] at he
              | vnull => simp [relStrategy, hu, hlook, hc, hcr, M.pur] at he
              | vint n => simp [relStrategy, hu, hlook, hc, hcr, M.pur] at he
              | vstr str => simp [relStrategy, hu, hlook, hc, hcr, M.pur] at he
              | vbool b => simp [relStrategy, hu, hlook, hc, hcr, M.pur] at he
              | vlist items => simp [relStrategy, hu, hlook, hc, hcr, M.pur] at he
        | vundef => simp [Val.isUndef] at hu
        | vnull => simp [Val.isNull] at hu
        | vint n => simp [relStrategy, hu, hlook, M.pur] at he
        | vstr str => simp [relStrategy, hu, hlook, M.pur] at he
        | vbool b => simp [relStrategy, hu, hlook, M.pur] at he
        | vlist items => simp [relStrategy, hu, hlook, M.pur] at he

theorem pass1Events_shape (lk : String) (op : Op) (depth : Nat)
    (fields : List (String × FieldConfig)) :
    ∀ e ∈ pass1Events lk op depth fields, ∃ tag, e = .fieldResolver depth tag := by
  intro e he
  simp only [pass1Events, List.mem_filterMap] at he
  obtain ⟨kf, _, hkf⟩ := he
  revert hkf
  cases (if kf.2.dbField.isRelation then none else kf.2.inputResolver op) with
  | none => simp
  | some r =>
    intro hkf
    exact ⟨fieldTag lk kf.1, by simpa using hkf.symm⟩

theorem pass2Events_all (P : Event → Prop) (nc : NCF) (ctx : Ctx) (lk : String)
    (op : Op) (depth : Nat) (data : Rec) (fields : List (String × FieldConfig))
    (hFR : ∀ tag, P (.fieldResolver depth tag))
    (hnc : ∀ l data', ∀ e ∈ (nc l data' (depth + 1)).trace, P e) :
    ∀ e ∈ pass2EventsSpec nc ctx lk op depth data fields, P e := by
  intro e he
  simp only [pass2EventsSpec, List.mem_flatMap] at he
  obtain ⟨kf, _, hkf⟩ := he
  revert hkf
  cases kf.2.dbField with
  | scalar s => simp
  | multi mf => simp
  | relation mode foreignKey =>
    cases kf.2.inputResolver op with
    | none => simp
    | some r =>
      intro hkf
      simp only [List.mem_cons] at hkf
      rcases hkf with rfl | hkf
      · exact hFR _
      · exact relStrategy_events P nc ctx (fieldTag lk kf.1) foreignKey mode depth
          ((alook data kf.1).getD .vundef) [] hnc e hkf

theorem getRD_events_all (P : Event → Prop) (nc : NCF) (ctx : Ctx)
    (list : ListConfig) (inputData : Rec) (item : Option Item) (depth : Nat)
    (hFR : ∀ tag, P (.fieldResolver depth tag))
    (hnc : ∀ l data', ∀ e ∈ (nc l data' (depth + 1)).trace, P e)
    (hFH : ∀ k, P (.fieldHook depth .resolveInput list.listKey k))
    (hLH : P (.listHook depth .resolveInput list.listKey)) :
    ∀ e ∈ (getResolvedData nc ctx list inputData item depth).trace, P e := by
  set O := (match item with | none => Op.create | some _ => Op.update) with hO
  by_cases h1 : pass1ErrorsSpec list.listKey O inputData list.fields = []
  · by_cases h2 : pass2ErrorsSpec nc ctx list.listKey O depth
        (pass1EntriesSpec O inputData list.fields) list.fields = []
    · by_cases h3 : pass3ErrorsSpec list.listKey O inputData item
          (pass2EntriesSpec nc ctx list.listKey O depth
            (pass1EntriesSpec O inputData list.fields) list.fields) list.fields = []
      · intro e he
        rw [getRD_gate4 nc ctx list inputData item depth O hO h1 h2 h3] at he
        simp only [List.mem_append, List.mem_singleton, List.mem_map] at he
        rcases he with ((h | h) | h) | h
        · obtain ⟨tag, rfl⟩ := pass1Events_shape list.listKey O depth list.fields e h
          exact hFR tag
        · exact pass2Events_all P nc ctx list.listKey O depth _ list.fields hFR hnc e h
        · obtain ⟨kf, _, rfl⟩ := h
          exact hFH kf.1
        · rw [h]
          exact hLH
      · intro e he
        rw [getRD_gate3 nc ctx list inputData item depth O hO h1 h2 h3] at he
        simp only [List.mem_append, List.mem_map] at he
        rcases he with (h | h) | h
        · obtain ⟨tag, rfl⟩ := pass1Events_shape list.listKey O depth list.fields e h
          exact hFR tag
        · exact pass2Events_all P nc ctx list.listKey O depth _ list.fields hFR hnc e h
        · obtain ⟨kf, _, rfl⟩ := h
          exact hFH kf.1
    · intro e he
      rw [getRD_gate2 nc ctx list inputData item depth O hO h1 h2] at he
      simp only [List.mem_append] at he
      rcases he with h | h
      · obtain ⟨tag, rfl⟩ := pass1Events_shape list.listKey O depth list.fields e h
        exact hFR tag
      · exact pass2Events_all P nc ctx list.listKey O depth _ list.fields hFR hnc e h
  · intro e he
    rw [getRD_gate1 nc ctx list inputData item depth O hO h1] at he
    obtain ⟨tag, rfl⟩ := pass1Events_shape list.listKey O depth list.fields e he
    exact hFR tag

theorem mem_bind_trace {α β : Type} (x : M α) (k : α → M β) :
    ∀ e ∈ (M.bind x k).trace, e ∈ x.trace ∨ ∃ a, e ∈ (k a).trace := by
  cases x with
  | mk r tr =>
    cases r with
    | error e0 => intro e he; exact Or.inl (by simpa [M.bind] using he)
    | ok a =>
      intro e he
      simp only [M.bind] at he
      rcases List.mem_append.mp he with h | h
      · exact Or.inl h
      · exact Or.inr ⟨a, h⟩

theorem validateFields_trace (list : ListConfig) (op : Op) (depth : Nat) (args : HookArgs) :
    (validateFields list op depth args).trace
      = list.fields.map (fun kf => .fieldHook depth .validate list.listKey kf.1) := by
  obtain ⟨errs, hc⟩ := validateFields_char list op depth args
  rw [hc]

theorem validateList_trace (list : ListConfig) (op : Op) (depth : Nat) (args : HookArgs) :
    (validateList list op depth args).trace = [.listHook depth .validate list.listKey] := by
  rw [validateList_char]

theorem resolve_events_all (P : Event → Prop) (nc : NCF) (ctx : Ctx)
    (list : ListConfig) (input : Rec) (item : Option Item) (depth : Nat)
    (hFR : ∀ tag, P (.fieldResolver depth tag))
    (hnc : ∀ l data', ∀ e ∈ (nc l data' (depth + 1)).trace, P e)
    (hFH : ∀ ph k, ph ≠ Phase.afterOperation → P (.fieldHook depth ph list.listKey k))
    (hLH : ∀ ph, ph ≠ Phase.afterOperation → P (.listHook depth ph list.listKey)) :
    ∀ e ∈ (resolveInputForCreateOrUpdate nc ctx list input item depth).trace, P e := by
  intro e he
  simp only [resolveInputForCreateOrUpdate, bind_eq_mbind] at he
  rcases mem_bind_trace _ _ e he with h | ⟨p, h⟩
  · exact getRD_events_all P nc ctx list input item depth hFR hnc
      (fun k => hFH .resolveInput k (by simp)) (hLH .resolveInput (by simp)) e h
  · obtain ⟨rd, defs⟩ := p
    rcases mem_bind_trace _ _ e h with h | ⟨_, h⟩
    · rw [validateFields_trace] at h
      simp only [List.mem_map] at h
      obtain ⟨kf, _, rfl⟩ := h
      exact hFH .validate kf.1 (by simp)
    · rcases mem_bind_trace _ _ e h with h | ⟨_, h⟩
      · rw [validateList_trace] at h
        simp only [List.mem_singleton] at h
        rw [h]
        exact hLH .validate (by simp)
      · rcases mem_bind_trace _ _ e h with h | ⟨_, h⟩
        · simp only [emit_eq, List.mem_singleton] at h
          rw [h]
          exact hLH .beforeOperation (by simp)
        · rcases mem_bind_trace _ _ e h with h | ⟨_, h⟩
          · simp [liftE_eq] at h
          · rcases mem_bind_trace _ _ e h with h | ⟨_, h⟩
            · obtain ⟨k, rfl⟩ := runFieldHooksSeq_trace_sub .beforeOperation
                (fun f => f.hooks.beforeOperation) list.listKey _ depth _ list.fields e h
              exact hFH .beforeOperation k (by simp)
            · simp [M.pur] at h

theorem createSingleGo_events_all (P : Event → Prop) (nc : NCF) (ctx : Ctx)
    (list : ListConfig) (rawData : Rec) (depth : Nat)
    (hFR : ∀ tag, P (.fieldResolver depth tag))
    (hnc : ∀ l data', ∀ e ∈ (nc l data' (depth + 1)).trace, P e)
    (hFH : ∀ ph k, ph ≠ Phase.afterOperation → P (.fieldHook depth ph list.listKey k))
    (hLH : ∀ ph, ph ≠ Phase.afterOperation → P (.listHook depth ph list.listKey))
    (hSC : ∀ dbdata b, P (.storeCreate depth list.listKey dbdata b)) :
    ∀ e ∈ (createSingleGo nc ctx list rawData depth).trace, P e := by
  intro e he
  simp only [createSingleGo, bind_eq_mbind] at he
  rcases mem_bind_trace _ _ e he with h | ⟨_, h⟩
  · revert h
    simp only [applyAccessControlForCreate]
    by_cases hacc : ctx.createAccessOk list.listKey rawData = true <;> simp [hacc, M.pur]
  · rcases mem_bind_trace _ _ e h with h | ⟨p, h⟩
    · exact resolve_events_all P nc ctx list rawData none depth hFR hnc hFH hLH e h
    · obtain ⟨dbdata, aop⟩ := p
      revert h
      cases hcr : ctx.store.createRes list.listKey
          (if list.isSingleton then aset dbdata "id" (.val (.vint 1)) else dbdata) with
      | ok it =>
        simp only [hcr, bind_eq_mbind, emit_eq, mbind_ok, M.pur]
        intro h
        simp only [List.append_nil, List.mem_singleton] at h
        rw [h]
        exact hSC _ _
      | error e0 =>
        simp only [hcr, bind_eq_mbind, emit_eq, mbind_ok, fail_eq, M.pur]
        intro h
        simp only [List.append_nil, List.mem_singleton] at h
        rw [h]
        exact hSC _ _

/-! ## Deferred-action provenance

Every deferred action accumulated during input resolution is the deferred
`afterOperation` of a nested create performed by the nested-create
capability. -/

theorem runNested_defs_mem (nc : NCF) (tag : String) (foreign : ListConfig)
    (d : Nat) (creates : List Val) :
    ∀ defs vs errs defs',
      (runNestedCreates nc tag foreign d creates defs).res = .ok (vs, errs, defs') →
      ∀ df ∈ defs', df ∈ defs ∨ ∃ data' it, (nc foreign data' d).res = .ok (it, df) := by
  induction creates with
  | nil =>
    intro defs vs errs defs' hres df hdf
    simp only [runNestedCreates, M.pur] at hres
    have hd : defs = defs' := congrArg (fun p => p.2.2) (Except.ok.inj hres)
    exact Or.inl (by rw [hd]; exact hdf)
  | cons c rest ih =>
    intro defs vs errs defs' hres df hdf
    cases c with
    | vobj data =>
      cases hnc0 : nc foreign data d with
      | mk r0 tr0 =>
        cases r0 with
        | ok p =>
          obtain ⟨it0, df0⟩ := p
          simp only [runNestedCreates, hnc0, bind_eq_mbind, attempt_eq, mbind_ok] at hres
          cases hrec : runNestedCreates nc tag foreign d rest (defs ++ [df0]) with
          | mk rr trr =>
            rw [hrec] at hres
            cases rr with
            | error e0 => exact absurd hres (by simp [M.bind])
            | ok q =>
              obtain ⟨vs0, errs0, defs0⟩ := q
              simp only [M.bind, M.pur] at hres
              have hd : defs0 = defs' := congrArg (fun p => p.2.2) (Except.ok.inj hres)
              rcases ih (defs ++ [df0]) vs0 errs0 defs0 (by rw [hrec]) df
                  (by rw [hd]; exact hdf) with hin | hsrc
              · rcases List.mem_append.mp hin with hin | hin
                · exact Or.inl hin
                · simp only [List.mem_singleton] at hin
                  exact Or.inr ⟨data, it0, by rw [hnc0, hin]⟩
              · exact Or.inr hsrc
        | error e0 =>
          simp only [runNestedCreates, hnc0, bind_eq_mbind, attempt_eq, mbind_ok] at hres
          cases hrec : runNestedCreates nc tag foreign d rest defs with
          | mk rr trr =>
            rw [hrec] at hres
            cases rr with
            | error e1 => exact absurd hres (by simp [M.bind])
            | ok q =>
              obtain ⟨vs0, errs0, defs0⟩ := q
              simp only [M.bind, M.pur] at hres
              have hd : defs0 = defs' := congrArg (fun p => p.2.2) (Except.ok.inj hres)
              exact ih defs vs0 errs0 defs0 (by rw [hrec]) df (by rw [hd]; exact hdf)
    | vundef =>
      simp only [runNestedCreates, bind_eq_mbind] at hres
      cases hrec : runNestedCreates nc tag foreign d rest defs with
      | mk rr trr =>
        rw [hrec] at hres
        cases rr with
        | error e1 => exact absurd hres (by simp [M.bind])
        | ok q =>
          obtain ⟨vs0, errs0, defs0⟩ := q
          simp only [M.bind, M.pur] at hres
          have hd : defs0 = defs' := congrArg (fun p => p.2.2) (Except.ok.inj hres)
          exact ih defs vs0 errs0 defs0 (by rw [hrec]) df (by rw [hd]; exact hdf)
    | vnull =>
      simp only [runNestedCreates, bind_eq_mbind] at hres
      cases hrec : runNestedCreates nc tag foreign d rest defs with
      | mk rr trr =>
        rw [hrec] at hres
        cases rr with
        | error e1 => exact absurd hres (by simp [M.bind])
        | ok q =>
          obtain ⟨vs0, errs0, defs0⟩ := q
          simp only [M.bind, M.pur] at hres
          have hd : defs0 = defs' := congrArg (fun p => p.2.2) (Except.ok.inj hres)
          exact ih defs vs0 errs0 defs0 (by rw [hrec]) df (by rw [hd]; exact hdf)
    | vint n =>
      simp only [runNestedCreates, bind_eq_mbind] at hres
      cases hrec : runNestedCreates nc tag foreign d rest defs with
      | mk rr trr =>
        rw [hrec] at hres
        cases rr with
        | error e1 => exact absurd hres (by simp [M.bind])
        | ok q =>
          obtain ⟨vs0, errs0, defs0⟩ := q
          simp only [M.bind, M.pur] at hres
          have hd : defs0 = defs' := congrArg (fun p => p.2.2) (Except.ok.inj hres)
          exact ih defs vs0 errs0 defs0 (by rw [hrec]) df (by rw [hd]; exact hdf)
    | vstr str =>
      simp only [runNestedCreates, bind_eq_mbind] at hres
      cases hrec : runNestedCreates nc tag foreign d rest defs with
      | mk rr trr =>
        rw [hrec] at hres
        cases rr with
        | error e1 => exact absurd hres (by simp [M.bind])
        | ok q =>
          obtain ⟨vs0, errs0, defs0⟩ := q
          simp only [M.bind, M.pur] at hres
          have hd : defs0 = defs' := congrArg (fun p => p.2.2) (Except.ok.inj hres)
          exact ih defs vs0 errs0 defs0 (by rw [hrec]) df (by rw [hd]; exact hdf)
    | vbool b =>
      simp only [runNestedCreates, bind_eq_mbind] at hres
      cases hrec : runNestedCreates nc tag foreign d rest defs with
      | mk rr trr =>
        rw [hrec] at hres
        cases rr with
        | error e1 => exact absurd hres (by simp [M.bind])
        | ok q =>
          obtain ⟨vs0, errs0, defs0⟩ := q
          simp only [M.bind, M.pur] at hres
          have hd : defs0 = defs' := congrArg (fun p => p.2.2) (Except.ok.inj hres)
          exact ih defs vs0 errs0 defs0 (by rw [hrec]) df (by rw [hd]; exact hdf)
    | vlist items =>
      simp only [runNestedCreates, bind_eq_mbind] at hres
      cases hrec : runNestedCreates nc tag foreign d rest defs with
      | mk rr trr =>
        rw [hrec] at hres
        cases rr with
        | error e1 => exact absurd hres (by simp [M.bind])
        | ok q =>
          obtain ⟨vs0, errs0, defs0⟩ := q
          simp only [M.bind, M.pur] at hres
          have hd : defs0 = defs' := congrArg (fun p => p.2.2) (Except.ok.inj hres)
          exact ih defs vs0 errs0 defs0 (by rw [hrec]) df (by rw [hd]; exact hdf)

theorem relStrategy_defs_mem (nc : NCF) (ctx : Ctx) (tag foreignKey : String)
    (mode : RelMode) (depth : Nat) (input : Val) (defs : List Deferred)
    (r : Except Err Val) (defs' : List Deferred)
    (hres : (relStrategy nc ctx tag foreignKey mode depth input defs).res = .ok (r, defs')) :
    ∀ df ∈ defs', df ∈ defs ∨ ∃ l data' it, (nc l data' (depth + 1)).res = .ok (it, df) := by
  intro df hdf
  by_cases hu : (input.isUndef || input.isNull) = true
  · simp only [relStrategy, hu, if_true, M.pur] at hres
    have hd : defs = defs' := congrArg (fun p => p.2) (Except.ok.inj hres)
    exact Or.inl (by rw [hd]; exact hdf)
  · cases hlook : alook ctx.lists foreignKey with
    | none =>
      simp only [relStrategy, hu, hlook, Bool.false_eq_true, if_false, M.pur] at hres
      have hd : defs = defs' := congrArg (fun p => p.2) (Except.ok.inj hres)
      exact Or.inl (by rw [hd]; exact hdf)
    | some foreign =>
      cases mode with
      | many =>
        cases input with
        | vobj o =>
          cases hrun : runNestedCreates nc tag foreign (depth + 1)
              (asList (alook o "create")) defs with
          | mk rr trr =>
            cases rr with
            | error e0 =>
              rw [relStrategy] at hres
              simp only [hu, hlook, Bool.false_eq_true, if_false] at hres
              rw [hrun] at hres
              exact absurd hres (by simp [M.bind])
            | ok q =>
              obtain ⟨vs, errs, defs0⟩ := q
              rw [relStrategy] at hres
              simp only [hu, hlook, Bool.false_eq_true, if_false] at hres
              rw [hrun] at hres
              have hd : defs0 = defs' := by
                simp only [bind_eq_mbind, mbind_ok] at hres
                split at hres
                · exact congrArg (fun p => p.2) (Except.ok.inj hres)
                · exact congrArg (fun p => p.2) (Except.ok.inj hres)
              rcases runNested_defs_mem nc tag foreign (depth + 1)
                  (asList (alook o "create")) defs vs errs defs0 (by rw [hrun]) df
                  (by rw [hd]; exact hdf) with hin | ⟨data', it, hsrc⟩
              · exact Or.inl hin
              · exact Or.inr ⟨foreign, data', it, hsrc⟩
        | vundef => simp [Val.isUndef] at hu
        | vnull => simp [Val.isNull] at hu
        | vint n =>
          simp only [relStrategy, hu, hlook, Bool.false_eq_true, if_false, M.pur] at hres
          have hd : defs = defs' := congrArg (fun p => p.2) (Except.ok.inj hres)
          exact Or.inl (by rw [hd]; exact hdf)
        | vstr str =>
          simp only [relStrategy, hu, hlook, Bool.false_eq_true, if_false, M.pur] at hres
          have hd : defs = defs' := congrArg (fun p => p.2) (Except.ok.inj hres)
          exact Or.inl (by rw [hd]; exact hdf)
        | vbool b =>
          simp only [relStrategy, hu, hlook, Bool.false_eq_true, if_false, M.pur] at hres
          have hd : defs = defs' := congrArg (fun p => p.2) (Except.ok.inj hres)
          exact Or.inl (by rw [hd]; exact hdf)
        | vlist items =>
          simp only [relStrategy, hu, hlook, Bool.false_eq_true, if_false, M.pur] at hres
          have hd : defs = defs' := congrArg (fun p => p.2) (Except.ok.inj hres)
          exact Or.inl (by rw [hd]; exact hdf)
      | one =>
        cases input with
        | vobj o =>
          cases hc : alook o "connect" with
          | some c =>
            cases hcr : alook o "create" with
            | none =>
              simp only [relStrategy, hu, hlook, hc, hcr, Bool.false_eq_true, if_false,
                M.pur] at hres
              have hd : defs = defs' := congrArg (fun p => p.2) (Except.ok.inj hres)
              exact Or.inl (by rw [hd]; exact hdf)
            | some cr =>
              simp only [relStrategy, hu, hlook, hc, hcr, Bool.false_eq_true, if_false,
                M.pur] at hres
              have hd : defs = defs' := congrArg (fun p => p.2) (Except.ok.inj hres)
              exact Or.inl (by rw [hd]; exact hdf)
          | none =>
            cases hcr : alook o "create" with
            | none =>
              simp only [relStrategy, hu, hlook, hc, hcr, Bool.false_eq_true, if_false,
                M.pur] at hres
              have hd : defs = defs' := congrArg (fun p => p.2) (Except.ok.inj hres)
              exact Or.inl (by rw [hd]; exact hdf)
            | some cr =>
              cases cr with
              | vobj data =>
                cases hnc0 : nc foreign data (depth + 1) with
                | mk r0 tr0 =>
                  cases r0 with
                  | ok p =>
                    obtain ⟨it0, df0⟩ := p
                    rw [relStrategy] at hres
                    simp only [hu, hlook, hc, hcr, Bool.false_eq_true, if_false] at hres
                    rw [hnc0] at hres
                    simp only [bind_eq_mbind, attempt_eq, mbind_ok, M.pur] at hres
                    have hd : defs ++ [df0] = defs' :=
                      congrArg (fun p => p.2) (Except.ok.inj hres)
                    rcases List.mem_append.mp (by rw [hd]; exact hdf) with hin | hin
                    · exact Or.inl hin
                    · simp only [List.mem_singleton] at hin
                      exact Or.inr ⟨foreign, data, it0, by rw [hnc0, hin]⟩
                  | error e0 =>
                    rw [relStrategy] at hres
                    simp only [hu, hlook, hc, hcr, Bool.false_eq_true, if_false] at hres
                    rw [hnc0] at hres
                    simp only [bind_eq_mbind, attempt_eq, mbind_ok, M.pur] at hres
                    have hd : defs = defs' := congrArg (fun p => p.2) (Except.ok.inj hres)
                    exact Or.inl (by rw [hd]; exact hdf)
              | vundef =>
                simp only [relStrategy, hu, hlook, hc, hcr, Bool.false_eq_true, if_false,
                  M.pur] at hres
                have hd : defs = defs' := congrArg (fun p => p.2) (Except.ok.inj hres)
                exact Or.inl (by rw [hd]; exact hdf)
              | vnull =>
                simp only [relStrategy, hu, hlook, hc, hcr, Bool.false_eq_true, if_false,
                  M.pur] at hres
                have hd : defs = defs' := congrArg (fun p => p.2) (Except.ok.inj hres)
                exact Or.inl (by rw [hd]; exact hdf)
              | vint n =>
                simp only [relStrategy, hu, hlook, hc, hcr, Bool.false_eq_true, if_false,
                  M.pur] at hres
                have hd : defs = defs' := congrArg (fun p => p.2) (Except.ok.inj hres)
                exact Or.inl (by rw [hd]; exact hdf)
              | vstr str =>
                simp only [relStrategy, hu, hlook, hc, hcr, Bool.false_eq_true, if_false,
                  M.pur] at hres
                have hd : defs = defs' := congrArg (fun p => p.2) (Except.ok.inj hres)
                exact Or.inl (by rw [hd]; exact hdf)
              | vbool b =>
                simp only [relStrategy, hu, hlook, hc, hcr, Bool.false_eq_true, if_false,
                  M.pur] at hres
                have hd : defs = defs' := congrArg (fun p => p.2) (Except.ok.inj hres)
                exact Or.inl (by rw [hd]; exact hdf)
              | vlist items =>
                simp only [relStrategy, hu, hlook, hc, hcr, Bool.false_eq_true, if_false,
                  M.pur] at hres
                have hd : defs = defs' := congrArg (fun p => p.2) (Except.ok.inj hres)
                exact Or.inl (by rw [hd]; exact hdf)
        | vundef => simp [Val.isUndef] at hu
        | vnull => simp [Val.isNull] at hu
        | vint n =>
          simp only [relStrategy, hu, hlook, Bool.false_eq_true, if_false, M.pur] at hres
          have hd : defs = defs' := congrArg (fun p => p.2) (Except.ok.inj hres)
          exact Or.inl (by rw [hd]; exact hdf)
        | vstr str =>
          simp only [relStrategy, hu, hlook, Bool.false_eq_true, if_false, M.pur] at hres
          have hd : defs = defs' := congrArg (fun p => p.2) (Except.ok.inj hres)
          exact Or.inl (by rw [hd]; exact hdf)
        | vbool b =>
          simp only [relStrategy, hu, hlook, Bool.false_eq_true, if_false, M.pur] at hres
          have hd : defs = defs' := congrArg (fun p => p.2) (Except.ok.inj hres)
          exact Or.inl (by rw [hd]; exact hdf)
        | vlist items =>
          simp only [relStrategy, hu, hlook, Bool.false_eq_true, if_false, M.pur] at hres
          have hd : defs = defs' := congrArg (fun p => p.2) (Except.ok.inj hres)
          exact Or.inl (by rw [hd]; exact hdf)

theorem relNewDefs_mem (nc : NCF) (ctx : Ctx) (tag foreignKey : String)
    (mode : RelMode) (depth : Nat) (input : Val) :
    ∀ df ∈ relNewDefs nc ctx tag foreignKey mode depth input,
      ∃ l data' it, (nc l data' (depth + 1)).res = .ok (it, df) := by
  intro df hdf
  have hchar := relStrategy_char nc ctx tag foreignKey mode depth input []
  rcases relStrategy_defs_mem nc ctx tag foreignKey mode depth input []
      (relFieldResult nc ctx tag foreignKey mode depth input)
      (relNewDefs nc ctx tag foreignKey mode depth input)
      (by rw [hchar]; simp) df hdf with hin | hsrc
  · simp at hin
  · exact hsrc

theorem getRD_defs_mem (nc : NCF) (ctx : Ctx) (list : ListConfig) (inputData : Rec)
    (item : Option Item) (depth : Nat) (rd : Rec) (defs : List Deferred)
    (hres : (getResolvedData nc ctx list inputData item depth).res = .ok (rd, defs)) :
    ∀ df ∈ defs, ∃ l data' it, (nc l data' (depth + 1)).res = .ok (it, df) := by
  set O := (match item with | none => Op.create | some _ => Op.update) with hO
  by_cases h1 : pass1ErrorsSpec list.listKey O inputData list.fields = []
  · by_cases h2 : pass2ErrorsSpec nc ctx list.listKey O depth
        (pass1EntriesSpec O inputData list.fields) list.fields = []
    · by_cases h3 : pass3ErrorsSpec list.listKey O inputData item
          (pass2EntriesSpec nc ctx list.listKey O depth
            (pass1EntriesSpec O inputData list.fields) list.fields) list.fields = []
      · rw [getRD_gate4 nc ctx list inputData item depth O hO h1 h2 h3] at hres
        intro df hdf
        have hdefs : defs = pass2NewDefsSpec nc ctx list.listKey O depth
            (pass1EntriesSpec O inputData list.fields) list.fields := by
          revert hres
          cases list.hooks.resolveInput O
              { listKey := list.listKey, operation := O,
                inputData := some inputData, item := item,
                resolvedData := some (pass3EntriesSpec list.listKey O inputData item
                  (pass2EntriesSpec nc ctx list.listKey O depth
                    (pass1EntriesSpec O inputData list.fields) list.fields)
                  list.fields) } with
          | ok r => intro hres; exact (congrArg (fun p => p.2) (Except.ok.inj hres)).symm
          | error e => intro hres; exact absurd hres (by simp)
        rw [hdefs] at hdf
        simp only [pass2NewDefsSpec, List.mem_flatMap] at hdf
        obtain ⟨kf, _, hkf⟩ := hdf
        revert hkf
        cases kf.2.dbField with
        | scalar s => simp
        | multi mf => simp
        | relation mode foreignKey =>
          cases kf.2.inputResolver O with
          | none => simp
          | some r0 =>
            intro hkf
            exact relNewDefs_mem nc ctx (fieldTag list.listKey kf.1) foreignKey mode depth
              ((alook (pass1EntriesSpec O inputData list.fields) kf.1).getD .vundef) df hkf
      · rw [getRD_gate3 nc ctx list inputData item depth O hO h1 h2 h3] at hres
        exact absurd hres (by simp)
    · rw [getRD_gate2 nc ctx list inputData item depth O hO h1 h2] at hres
      exact absurd hres (by simp)
  · rw [getRD_gate1 nc ctx list inputData item depth O hO h1] at hres
    exact absurd hres (by simp)

/-! ## `afterOperation` closure classification -/

theorem collectDeferred_events (Q : Event → Prop) (defs : List Deferred)
    (h : ∀ df ∈ defs, ∀ e ∈ (df ()).trace, Q e) :
    ∀ e ∈ (collectDeferredErrors defs).trace, Q e := by
  induction defs with
  | nil => intro e he; simp [collectDeferredErrors, M.pur] at he
  | cons d rest ih =>
    intro e he
    simp only [collectDeferredErrors, bind_eq_mbind, attempt_eq] at he
    rcases mem_bind_trace _ _ e he with h0 | ⟨r0, h0⟩
    · exact h d (List.mem_cons_self d rest) e h0
    · rcases mem_bind_trace _ _ e h0 with h1 | ⟨es0, h1⟩
      · exact ih (fun df hdf => h df (List.mem_cons_of_mem _ hdf)) e h1
      · revert h1
        cases r0 <;> simp [M.pur]

theorem nestedAfterOperation_events (Q : Event → Prop) (defs : List Deferred)
    (h : ∀ df ∈ defs, ∀ e ∈ (df ()).trace, Q e) :
    ∀ e ∈ (nestedAfterOperation defs).trace, Q e := by
  intro e he
  simp only [nestedAfterOperation, bind_eq_mbind] at he
  rcases mem_bind_trace _ _ e he with h0 | ⟨es, h0⟩
  · exact collectDeferred_events Q defs h e h0
  · revert h0
    by_cases hemp : es.isEmpty <;> simp [hemp, M.pur]

theorem afterOpClosure_events_all (Q : Event → Prop) (list : ListConfig) (op : Op)
    (depth : Nat) (args : HookArgs) (defs : List Deferred) (it : Item)
    (hdefs : ∀ df ∈ defs, ∀ e ∈ (df ()).trace, Q e)
    (hLH : Q (.listHook depth .afterOperation list.listKey))
    (hFH : ∀ k, Q (.fieldHook depth .afterOperation list.listKey k)) :
    ∀ e ∈ ((afterOperationClosure list op depth args defs) it).trace, Q e := by
  intro e he
  simp only [afterOperationClosure, bind_eq_mbind] at he
  rcases mem_bind_trace _ _ e he with h0 | ⟨_, h0⟩
  · exact nestedAfterOperation_events Q defs hdefs e h0
  · rcases mem_bind_trace _ _ e h0 with h1 | ⟨_, h1⟩
    · simp only [emit_eq, List.mem_singleton] at h1
      rw [h1]
      exact hLH
    · rcases mem_bind_trace _ _ e h1 with h2 | ⟨_, h2⟩
      · simp [liftE_eq] at h2
      · obtain ⟨k, rfl⟩ := runFieldHooksSeq_trace_sub .afterOperation
          (fun f => f.hooks.afterOperation) list.listKey op depth args list.fields e h2
        exact hFH k

/-! ## Success decompositions for the create path -/

theorem createSingleGo_ok_decomp (nc : NCF) (ctx : Ctx) (list : ListConfig)
    (rawData : Rec) (depth : Nat) (it : Item) (aop : Item → M Unit)
    (h : (createSingleGo nc ctx list rawData depth).res = .ok (it, aop)) :
    ∃ dbdata,
      (resolveInputForCreateOrUpdate nc ctx list rawData none depth).res = .ok (dbdata, aop) ∧
      ctx.store.createRes list.listKey
        (if list.isSingleton then aset dbdata "id" (.val (.vint 1)) else dbdata) = .ok it ∧
      (createSingleGo nc ctx list rawData depth).trace
        = (resolveInputForCreateOrUpdate nc ctx list rawData none depth).trace
          ++ [.storeCreate depth list.listKey
              (if list.isSingleton then aset dbdata "id" (.val (.vint 1)) else dbdata) true] := by
  by_cases hacc : ctx.createAccessOk list.listKey rawData = true
  · cases hr : resolveInputForCreateOrUpdate nc ctx list rawData none depth with
    | mk r tr =>
      cases r with
      | error e =>
        rw [createSingleGo, applyAccessControlForCreate] at h
        rw [hr] at h
        simp [hacc, M.pur, M.bind] at h
      | ok p =>
        obtain ⟨dbdata, aop0⟩ := p
        refine ⟨dbdata, ?_⟩
        rw [createSingleGo, applyAccessControlForCreate] at h
        rw [hr] at h
        simp only [hacc, if_true, M.pur, bind_eq_mbind, mbind_ok] at h
        cases hcr : ctx.store.createRes list.listKey
            (if list.isSingleton then aset dbdata "id" (.val (.vint 1)) else dbdata) with
        | ok it0 =>
          rw [hcr] at h
          simp only [bind_eq_mbind, emit_eq, mbind_ok, M.pur] at h
          have h1 : it0 = it := congrArg (fun p => p.1) (Except.ok.inj h)
          have h2 : aop0 = aop := congrArg (fun p => p.2) (Except.ok.inj h)
          refine ⟨by rw [← h2], congrArg Except.ok h1, ?_⟩
          rw [createSingleGo, applyAccessControlForCreate]
          rw [hr]
          simp [hacc, hcr, M.pur]
        | error e =>
          rw [hcr] at h
          simp [M.pur, M.bind] at h
  · rw [createSingleGo, applyAccessControlForCreate] at h
    simp [hacc, M.bind] at h

theorem reload_events (ctx : Ctx) (list : ListConfig) (op : Op) (uw : String × Val)
    (filt : AccessFilter) (depth : Nat) :
    ∀ e ∈ (accessFilteredReload ctx list op uw filt depth).trace,
      ∃ flt, e = .findUnique depth list.listKey uw.1 uw.2 flt := by
  intro e he
  cases filt with
  | denyAll => simp [accessFilteredReload, M.fail] at he
  | allowAll =>
    simp only [accessFilteredReload, bind_eq_mbind] at he
    rcases mem_bind_trace _ _ e he with h | ⟨_, h⟩
    · simp only [emit_eq, List.mem_singleton] at h
      exact ⟨false, h⟩
    · revert h
      cases (ctx.store.rows list.listKey).find?
          (fun it => matchesUnique uw it && evalFilter .allowAll it) with
      | some it => simp [M.pur]
      | none => simp [M.fail]
  | pred p =>
    simp only [accessFilteredReload, bind_eq_mbind] at he
    rcases mem_bind_trace _ _ e he with h | ⟨_, h⟩
    · simp only [emit_eq, List.mem_singleton] at h
      exact ⟨true, h⟩
    · revert h
      cases (ctx.store.rows list.listKey).find?
          (fun it => matchesUnique uw it && evalFilter (.pred p) it) with
      | some it => simp [M.pur]
      | none => simp [M.fail]

theorem gACUpdate_events (ctx : Ctx) (list : ListConfig) (uw : String × Val)
    (filt : AccessFilter) (rawData : Rec) (depth : Nat) :
    ∀ e ∈ (getAccessControlledItemForUpdate ctx list uw filt rawData depth).trace,
      ∃ flt, e = .findUnique depth list.listKey uw.1 uw.2 flt := by
  intro e he
  simp only [getAccessControlledItemForUpdate] at he
  rcases mem_bind_trace _ _ e he with h | ⟨it, h⟩
  · exact reload_events ctx list .update uw filt depth e h
  · revert h
    by_cases hok : ctx.updateItemOk list.listKey rawData it = true <;> simp [hok, M.pur]

theorem gACDelete_events (ctx : Ctx) (list : ListConfig) (uw : String × Val)
    (filt : AccessFilter) (depth : Nat) :
    ∀ e ∈ (getAccessControlledItemForDelete ctx list uw filt depth).trace,
      ∃ flt, e = .findUnique depth list.listKey uw.1 uw.2 flt := by
  intro e he
  simp only [getAccessControlledItemForDelete] at he
  rcases mem_bind_trace _ _ e he with h | ⟨it, h⟩
  · exact reload_events ctx list .delete uw filt depth e h
  · revert h
    by_cases hok : ctx.deleteItemOk list.listKey it = true <;> simp [hok, M.pur]

theorem accessFilteredReload_none (ctx : Ctx) (list : ListConfig) (op : Op)
    (uw : String × Val) (filt : AccessFilter) (depth : Nat)
    (hnone : mergedFind ctx list uw filt = none) :
    (accessFilteredReload ctx list op uw filt depth).res
      = .error (.accessDenied (cannotForItem op list.listKey)) := by
  cases filt with
  | denyAll => rfl
  | allowAll =>
    have h : (ctx.store.rows list.listKey).find?
        (fun it => matchesUnique uw it && evalFilter .allowAll it) = none := hnone
    simp [accessFilteredReload, h]
  | pred p =>
    have h : (ctx.store.rows list.listKey).find?
        (fun it => matchesUnique uw it && evalFilter (.pred p) it) = none := hnone
    simp [accessFilteredReload, h]

theorem gACUpdate_none (ctx : Ctx) (list : ListConfig) (uw : String × Val)
    (filt : AccessFilter) (rawData : Rec) (depth : Nat)
    (hnone : mergedFind ctx list uw filt = none) :
    (getAccessControlledItemForUpdate ctx list uw filt rawData depth).res
      = .error (.accessDenied (cannotForItem .update list.listKey)) := by
  have h := accessFilteredReload_none ctx list .update uw filt depth hnone
  cases hr : accessFilteredReload ctx list .update uw filt depth with
  | mk r tr =>
    have hres : r = .error (.accessDenied (cannotForItem .update list.listKey)) := by
      rw [hr] at h
      exact h
    rw [getAccessControlledItemForUpdate, hr, hres]
    rfl

theorem gACDelete_none (ctx : Ctx) (list : ListConfig) (uw : String × Val)
    (filt : AccessFilter) (depth : Nat)
    (hnone : mergedFind ctx list uw filt = none) :
    (getAccessControlledItemForDelete ctx list uw filt depth).res
      = .error (.accessDenied (cannotForItem .delete list.listKey)) := by
  have h := accessFilteredReload_none ctx list .delete uw filt depth hnone
  cases hr : accessFilteredReload ctx list .delete uw filt depth with
  | mk r tr =>
    have hres : r = .error (.accessDenied (cannotForItem .delete list.listKey)) := by
      rw [hr] at h
      exact h
    rw [getAccessControlledItemForDelete, hr, hres]
    rfl

theorem gACUpdate_ok_trace (ctx : Ctx) (list : ListConfig) (uw : String × Val)
    (filt : AccessFilter) (rawData : Rec) (depth : Nat) (it : Item)
    (h : (getAccessControlledItemForUpdate ctx list uw filt rawData depth).res = .ok it) :
    ∃ flt, (getAccessControlledItemForUpdate ctx list uw filt rawData depth).trace
      = [.findUnique depth list.listKey uw.1 uw.2 flt] := by
  cases filt with
  | denyAll =>
    exact absurd h (by simp [getAccessControlledItemForUpdate, accessFilteredReload])
  | allowAll =>
    refine ⟨false, ?_⟩
    cases hf : (ctx.store.rows list.listKey).find?
        (fun it => matchesUnique uw it && evalFilter .allowAll it) with
    | none =>
      exact absurd h
        (by simp [getAccessControlledItemForUpdate, accessFilteredReload, hf])
    | some it0 =>
      by_cases hok : ctx.updateItemOk list.listKey rawData it0 = true <;>
        simp [getAccessControlledItemForUpdate, accessFilteredReload, hf, hok]
  | pred p =>
    refine ⟨true, ?_⟩
    cases hf : (ctx.store.rows list.listKey).find?
        (fun it => matchesUnique uw it && evalFilter (.pred p) it) with
    | none =>
      exact absurd h
        (by simp [getAccessControlledItemForUpdate, accessFilteredReload, hf])
    | some it0 =>
      by_cases hok : ctx.updateItemOk list.listKey rawData it0 = true <;>
        simp [getAccessControlledItemForUpdate, accessFilteredReload, hf, hok]

theorem gACDelete_ok_trace (ctx : Ctx) (list : ListConfig) (uw : String × Val)
    (filt : AccessFilter) (depth : Nat) (it : Item)
    (h : (getAccessControlledItemForDelete ctx list uw filt depth).res = .ok it) :
    ∃ flt, (getAccessControlledItemForDelete ctx list uw filt depth).trace
      = [.findUnique depth list.listKey uw.1 uw.2 flt] := by
  cases filt with
  | denyAll =>
    exact absurd h (by simp [getAccessControlledItemForDelete, accessFilteredReload])
  | allowAll =>
    refine ⟨false, ?_⟩
    cases hf : (ctx.store.rows list.listKey).find?
        (fun it => matchesUnique uw it && evalFilter .allowAll it) with
    | none =>
      exact absurd h
        (by simp [getAccessControlledItemForDelete, accessFilteredReload, hf])
    | some it0 =>
      by_cases hok : ctx.deleteItemOk list.listKey it0 = true <;>
        simp [getAccessControlledItemForDelete, accessFilteredReload, hf, hok]
  | pred p =>
    refine ⟨true, ?_⟩
    cases hf : (ctx.store.rows list.listKey).find?
        (fun it => matchesUnique uw it && evalFilter (.pred p) it) with
    | none =>
      exact absurd h
        (by simp [getAccessControlledItemForDelete, accessFilteredReload, hf])
    | some it0 =>
      by_cases hok : ctx.deleteItemOk list.listKey it0 = true <;>
        simp [getAccessControlledItemForDelete, accessFilteredReload, hf, hok]

theorem updateOne_merged_none (fuel : Nat) (ctx : Ctx) (list : ListConfig)
    (uniqueInput data : Rec) (uw : String × Val)
    (hacc : getOperationAccess list ctx .update = true)
    (hw : resolveUniqueWhereInput uniqueInput list = .ok uw)
    (hf : checkFilterOrderAccess list ctx uw.1 = .ok ())
    (hnone : mergedFind ctx list uw (getAccessFilters list ctx .update) = none) :
    (updateOne fuel ctx list uniqueInput data).res
      = .error (.accessDenied (cannotForItem .update list.listKey)) := by
  have h := gACUpdate_none ctx list uw (getAccessFilters list ctx .update) data 0 hnone
  cases hrel : getAccessControlledItemForUpdate ctx list uw
      (getAccessFilters list ctx .update) data 0 with
  | mk rI trI =>
    have hres : rI = .error (.accessDenied (cannotForItem .update list.listKey)) := by
      rw [hrel] at h
      exact h
    simp [updateOne, hacc, updateSingle, hw, hf, hrel, hres]

theorem deleteOne_merged_none (ctx : Ctx) (list : ListConfig)
    (uniqueInput : Rec) (uw : String × Val)
    (hacc : getOperationAccess list ctx .delete = true)
    (hw : resolveUniqueWhereInput uniqueInput list = .ok uw)
    (hf : checkFilterOrderAccess list ctx uw.1 = .ok ())
    (hnone : mergedFind ctx list uw (getAccessFilters list ctx .delete) = none) :
    (deleteOne ctx list uniqueInput).res
      = .error (.accessDenied (cannotForItem .delete list.listKey)) := by
  have h := gACDelete_none ctx list uw (getAccessFilters list ctx .delete) 0 hnone
  cases hrel : getAccessControlledItemForDelete ctx list uw
      (getAccessFilters list ctx .delete) 0 with
  | mk rI trI =>
    have hres : rI = .error (.accessDenied (cannotForItem .delete list.listKey)) := by
      rw [hrel] at h
      exact h
    simp [deleteOne, hacc, deleteSingle, hw, hf, hrel, hres]

theorem marker_before (P : Event → Bool) (A B : List Event) (w : Event)
    (hA : ∀ e ∈ A, P e = false) (hw : P w = false) :
    ∀ t1 ev t2, A ++ w :: B = t1 ++ ev :: t2 → P ev = true → w ∈ t1 := by
  intro t1 ev t2 heq hev
  rcases List.append_eq_append_iff.mp heq with ⟨a', ht1, hwB⟩ | ⟨c', hA2, hevt⟩
  · cases a' with
    | nil =>
      have hwe : w = ev := (List.cons.inj (by simpa using hwB)).1
      rw [hwe, hev] at hw
      exact absurd hw (by simp)
    | cons x a'' =>
      have hx : w = x := (List.cons.inj (by simpa using hwB)).1
      rw [ht1, hx]
      exact List.mem_append_right _ (List.mem_cons_self x a'')
  · cases c' with
    | nil =>
      have hwe : ev = w := (List.cons.inj (by simpa using hevt)).1
      rw [← hwe, hev] at hw
      exact absurd hw (by simp)
    | cons y c'' =>
      have hy : ev = y := (List.cons.inj (by simpa using hevt)).1
      have hmem : y ∈ A := by
        rw [hA2]
        exact List.mem_append_right _ (List.mem_cons_self y c'')
      rw [hy] at hev
      rw [hA y hmem] at hev
      exact absurd hev (by simp)

theorem ncF_ok_decomp (n : Nat) (ctx : Ctx) (l : ListConfig) (data : Rec) (d : Nat)
    (it : Item) (df : Deferred)
    (h : (ncF (n + 1) ctx l data d).res = .ok (it, df)) :
    ∃ aop, (createSingleGo (ncF n ctx) ctx l data d).res = .ok (it, aop) ∧
      df = fun _ => aop it := by
  by_cases hacc : getOperationAccess l ctx .create = true
  · cases hcs : createSingleGo (ncF n ctx) ctx l data d with
    | mk r tr =>
      cases r with
      | error e =>
        simp only [ncF] at h
        rw [hcs] at h
        simp [hacc, M.bind] at h
      | ok p =>
        obtain ⟨it0, aop⟩ := p
        simp only [ncF] at h
        rw [hcs] at h
        simp only [hacc, if_true, bind_eq_mbind, mbind_ok, M.pur] at h
        have h1 : it0 = it := congrArg (fun p => p.1) (Except.ok.inj h)
        have h2 : (fun _ : Unit => aop it0) = df :=
          congrArg (fun p => p.2) (Except.ok.inj h)
        exact ⟨aop, by rw [← h1], by rw [← h2, h1]⟩
  · simp only [ncF] at h
    simp [hacc, M.bind] at h

/-! ## The nested-create capability: depth bounds and phase discipline

A nested create started at depth `d` performs only events at depth ≥ `d`,
none of them `afterOperation` hooks (its deferred action is returned, not
run); its deferred action performs only `afterOperation` hook events at
depth ≥ `d`. -/

theorem ncF_events (fuel : Nat) (ctx : Ctx) :
    ∀ l data d, ∀ e ∈ (ncF fuel ctx l data d).trace,
      d ≤ e.depth ∧ e.isAfterOpHook = false := by
  induction fuel with
  | zero => intro l data d e he; simp [ncF] at he
  | succ n ih =>
    intro l data d e he
    by_cases hacc : getOperationAccess l ctx .create = true
    · simp only [ncF, hacc, if_true, bind_eq_mbind] at he
      rw [trace_bind_emptyK _ _ (fun p => by obtain ⟨a, b⟩ := p; rfl)] at he
      refine createSingleGo_events_all
        (fun e => d ≤ e.depth ∧ e.isAfterOpHook = false) (ncF n ctx) ctx l data d
        (fun tag => ⟨Nat.le_refl d, rfl⟩)
        (fun l' data' e' he' =>
          ⟨Nat.le_trans (Nat.le_succ d) (ih l' data' (d + 1) e' he').1,
           (ih l' data' (d + 1) e' he').2⟩)
        (fun ph k hph => ⟨Nat.le_refl d, by
          cases ph with
          | afterOperation => exact absurd rfl hph
          | resolveInput => rfl
          | validate => rfl
          | beforeOperation => rfl⟩)
        (fun ph hph => ⟨Nat.le_refl d, by
          cases ph with
          | afterOperation => exact absurd rfl hph
          | resolveInput => rfl
          | validate => rfl
          | beforeOperation => rfl⟩)
        (fun dbdata b => ⟨Nat.le_refl d, rfl⟩)
        e he
    · simp [ncF, hacc] at he

theorem ncF_def_events (fuel : Nat) (ctx : Ctx) :
    ∀ l data d it df, (ncF fuel ctx l data d).res = .ok (it, df) →
      ∀ e ∈ (df ()).trace, d ≤ e.depth ∧ e.isAfterOpHook = true := by
  induction fuel with
  | zero => intro l data d it df hres; simp [ncF] at hres
  | succ n ih =>
    intro l data d it df hres e he
    obtain ⟨aop, hcs, hdf⟩ := ncF_ok_decomp n ctx l data d it df hres
    obtain ⟨dbdata, hrok, hcr⟩ := createSingleGo_ok_decomp (ncF n ctx) ctx l data d it aop hcs
    obtain ⟨rd, defs, trG, hG, hdb, haop, htr⟩ :=
      resolve_ok_decomp (ncF n ctx) ctx l data none d dbdata aop Op.create rfl hrok
    rw [hdf, haop] at he
    refine afterOpClosure_events_all
      (fun e => d ≤ e.depth ∧ e.isAfterOpHook = true) l Op.create d _ defs it
      (fun df' hdf' e' he' => ?_) ⟨Nat.le_refl d, rfl⟩ (fun k => ⟨Nat.le_refl d, rfl⟩) e he
    obtain ⟨l', data', it', hsrc⟩ :=
      getRD_defs_mem (ncF n ctx) ctx l data none d rd defs (by rw [hG]) df' hdf'
    exact ⟨Nat.le_trans (Nat.le_succ d) (ih l' data' (d + 1) it' df' hsrc e' he').1,
      (ih l' data' (d + 1) it' df' hsrc e' he').2⟩

theorem resolve_noAfter (fuel : Nat) (ctx : Ctx) (list : ListConfig) (input : Rec)
    (item : Option Item) (depth : Nat) :
    ∀ e ∈ (resolveInputForCreateOrUpdate (ncF fuel ctx) ctx list input item depth).trace,
      e.isAfterOpHook = false := by
  refine resolve_events_all (fun e => e.isAfterOpHook = false) (ncF fuel ctx) ctx list
    input item depth (fun tag => rfl)
    (fun l' data' e' he' => (ncF_events fuel ctx l' data' (depth + 1) e' he').2)
    (fun ph k hph => ?_) (fun ph hph => ?_)
  · cases ph with
    | afterOperation => exact absurd rfl hph
    | resolveInput => rfl
    | validate => rfl
    | beforeOperation => rfl
  · cases ph with
    | afterOperation => exact absurd rfl hph
    | resolveInput => rfl
    | validate => rfl
    | beforeOperation => rfl

theorem createSingle_noAfter (fuel : Nat) (ctx : Ctx) (list : ListConfig) (data : Rec)
    (depth : Nat) :
    ∀ e ∈ (createSingle fuel ctx list data depth).trace, e.isAfterOpHook = false := by
  refine createSingleGo_events_all (fun e => e.isAfterOpHook = false) (ncF fuel ctx) ctx
    list data depth (fun tag => rfl)
    (fun l' data' e' he' => (ncF_events fuel ctx l' data' (depth + 1) e' he').2)
    (fun ph k hph => ?_) (fun ph hph => ?_) (fun dbdata b => rfl)
  · cases ph with
    | afterOperation => exact absurd rfl hph
    | resolveInput => rfl
    | validate => rfl
    | beforeOperation => rfl
  · cases ph with
    | afterOperation => exact absurd rfl hph
    | resolveInput => rfl
    | validate => rfl
    | beforeOperation => rfl

/-! ## C3 — nested side effects only after the top-level write -/

/-- C3: for every top-level create or update mutation, no deferred
`afterOperation` action of a nested create — indeed no
`afterOperation`-phase hook at any depth — runs before the top-level store
write durably succeeds: any `afterOperation`-phase hook event in the trace
is preceded by a succeeded depth-0 store write; in particular, if the
top-level write fails (or any earlier phase fails), no `afterOperation`
hook has run at all. -/
theorem claim3_deferred_after_commit (fuel : Nat) (ctx : Ctx) (list : ListConfig)
    (data uniqueInput : Rec) :
    (∀ t1 ev t2, (createOne fuel ctx list data).trace = t1 ++ ev :: t2 →
      ev.isAfterOpHook = true → ∃ w ∈ t1, w.isTopOkWrite = true) ∧
    (∀ t1 ev t2, (updateOne fuel ctx list uniqueInput data).trace = t1 ++ ev :: t2 →
      ev.isAfterOpHook = true → ∃ w ∈ t1, w.isTopOkWrite = true) := by
  constructor
  · intro t1 ev t2 heq hev
    by_cases hacc : getOperationAccess list ctx .create = true
    · cases hcs : createSingle fuel ctx list data 0 with
      | mk r tr =>
        cases r with
        | error e =>
          have htr : (createOne fuel ctx list data).trace = tr := by
            simp [createOne, hacc, hcs]
          rw [htr] at heq
          have hmem : ev ∈ tr := by
            rw [heq]
            exact List.mem_append_right _ (List.mem_cons_self ev t2)
          have := createSingle_noAfter fuel ctx list data 0 ev (by rw [hcs]; exact hmem)
          rw [this] at hev
          exact absurd hev (by simp)
        | ok p =>
          obtain ⟨item, aop⟩ := p
          have hres : (createSingleGo (ncF fuel ctx) ctx list data 0).res = .ok (item, aop) := by
            rw [show createSingleGo (ncF fuel ctx) ctx list data 0
              = createSingle fuel ctx list data 0 from rfl, hcs]
          obtain ⟨dbdata, hrok, hcr, htrCS⟩ :=
            createSingleGo_ok_decomp (ncF fuel ctx) ctx list data 0 item aop hres
          have htr : (createOne fuel ctx list data).trace = tr ++ (aop item).trace := by
            simp only [createOne, hacc, if_true, bind_eq_mbind, hcs, mbind_ok]
            rw [trace_bind_emptyK _ _ (fun _ => rfl)]
          have htrw : tr = (resolveInputForCreateOrUpdate (ncF fuel ctx) ctx list data
              none 0).trace
              ++ [.storeCreate 0 list.listKey
                  (if list.isSingleton then aset dbdata "id" (.val (.vint 1)) else dbdata) true] := by
            rw [show tr = (createSingleGo (ncF fuel ctx) ctx list data 0).trace from by
              rw [show createSingleGo (ncF fuel ctx) ctx list data 0
                = createSingle fuel ctx list data 0 from rfl, hcs]]
            exact htrCS
          rw [htr, htrw, List.append_assoc, List.singleton_append] at heq
          refine ⟨.storeCreate 0 list.listKey
            (if list.isSingleton then aset dbdata "id" (.val (.vint 1)) else dbdata) true,
            ?_, rfl⟩
          exact marker_before Event.isAfterOpHook _ _
            (.storeCreate 0 list.listKey
              (if list.isSingleton then aset dbdata "id" (.val (.vint 1)) else dbdata) true)
            (resolve_noAfter fuel ctx list data none 0) rfl t1 ev t2 heq hev
    · simp only [createOne, hacc, Bool.false_eq_true, if_false, fail_eq] at heq
      exact absurd heq.symm (by simp)
  · intro t1 ev t2 heq hev
    by_cases hacc : getOperationAccess list ctx .update = true
    · cases hw : resolveUniqueWhereInput uniqueInput list with
      | error e =>
        simp only [updateOne, hacc, if_true, updateSingle, hw, bind_eq_mbind, liftE_eq,
          mbind_err] at heq
        exact absurd heq.symm (by simp)
      | ok uw =>
        cases hf : checkFilterOrderAccess list ctx uw.1 with
        | error e =>
          simp only [updateOne, hacc, if_true, updateSingle, hw, hf, bind_eq_mbind,
            liftE_eq, mbind_ok, mbind_err] at heq
          exact absurd heq.symm (by simp)
        | ok u0 =>
          cases hrel : getAccessControlledItemForUpdate ctx list uw
              (getAccessFilters list ctx .update) data 0 with
          | mk rI trI =>
            have hIno : ∀ e' ∈ trI, e'.isAfterOpHook = false := by
              intro e' he'
              obtain ⟨flt, rfl⟩ := gACUpdate_events ctx list uw
                (getAccessFilters list ctx .update) data 0 e' (by rw [hrel]; exact he')
              rfl
            cases rI with
            | error e =>
              have htr : (updateOne fuel ctx list uniqueInput data).trace = trI := by
                simp [updateOne, hacc, updateSingle, hw, hf, hrel]
              rw [htr] at heq
              have hmem : ev ∈ trI := by
                rw [heq]
                exact List.mem_append_right _ (List.mem_cons_self ev t2)
              rw [hIno ev hmem] at hev
              exact absurd hev (by simp)
            | ok item =>
              cases hres : resolveInputForCreateOrUpdate (ncF fuel ctx) ctx list data
                  (some item) 0 with
              | mk rR trR =>
                have hRno : ∀ e' ∈ trR, e'.isAfterOpHook = false := by
                  intro e' he'
                  exact resolve_noAfter fuel ctx list data (some item) 0 e'
                    (by rw [hres]; exact he')
                cases rR with
                | error e =>
                  have htr : (updateOne fuel ctx list uniqueInput data).trace
                      = trI ++ trR := by
                    simp [updateOne, hacc, updateSingle, hw, hf, hrel, hres]
                  rw [htr] at heq
                  have hmem : ev ∈ trI ++ trR := by
                    rw [heq]
                    exact List.mem_append_right _ (List.mem_cons_self ev t2)
                  rcases List.mem_append.mp hmem with hm | hm
                  · rw [hIno ev hm] at hev
                    exact absurd hev (by simp)
                  · rw [hRno ev hm] at hev
                    exact absurd hev (by simp)
                | ok p =>
                  obtain ⟨dbdata, aop⟩ := p
                  cases hupd : ctx.store.updateRes list.listKey item.id dbdata with
                  | error e =>
                    have htr : (updateOne fuel ctx list uniqueInput data).trace
                        = trI ++ trR ++ [.storeUpdate 0 list.listKey item.id dbdata false] := by
                      simp [updateOne, hacc, updateSingle, hw, hf, hrel, hres, hupd,
                        List.append_assoc]
                    rw [htr] at heq
                    have hmem : ev ∈ trI ++ trR
                        ++ [.storeUpdate 0 list.listKey item.id dbdata false] := by
                      rw [heq]
                      exact List.mem_append_right _ (List.mem_cons_self ev t2)
                    rcases List.mem_append.mp hmem with hm | hm
                    · rcases List.mem_append.mp hm with hm' | hm'
                      · rw [hIno ev hm'] at hev
                        exact absurd hev (by simp)
                      · rw [hRno ev hm'] at hev
                        exact absurd hev (by simp)
                    · simp only [List.mem_singleton] at hm
                      rw [hm] at hev
                      exact absurd hev (by simp [Event.isAfterOpHook])
                  | ok updated =>
                    have htr : (updateOne fuel ctx list uniqueInput data).trace
                        = (trI ++ trR)
                          ++ .storeUpdate 0 list.listKey item.id dbdata true
                            :: (aop updated).trace := by
                      simp only [updateOne, hacc, if_true, updateSingle, hw, hf,
                        bind_eq_mbind, liftE_eq, mbind_ok, hrel, hres, hupd, emit_eq]
                      rw [trace_bind_emptyK _ _ (fun _ => rfl)]
                      simp [List.append_assoc]
                    rw [htr] at heq
                    refine ⟨.storeUpdate 0 list.listKey item.id dbdata true, ?_, rfl⟩
                    refine marker_before Event.isAfterOpHook (trI ++ trR) _
                      (.storeUpdate 0 list.listKey item.id dbdata true)
                      ?_ rfl t1 ev t2 heq hev
                    intro e' he'
                    rcases List.mem_append.mp he' with hm | hm
                    · exact hIno e' hm
                    · exact hRno e' hm
    · simp only [updateOne, hacc, Bool.false_eq_true, if_false, fail_eq] at heq
      exact absurd heq.symm (by simp)

theorem claim3_deferred_after_commit_witness :
    ∃ w ∈ [Event.listHook 0 .resolveInput "Post",
           Event.listHook 0 .validate "Post",
           Event.listHook 0 .beforeOperation "Post",
           Event.storeCreate 0 "Post" [] true], w.isTopOkWrite = true :=
  (claim3_deferred_after_commit 1 exCtx afterThrowList [] []).1
    [Event.listHook 0 .resolveInput "Post",
     Event.listHook 0 .validate "Post",
     Event.listHook 0 .beforeOperation "Post",
     Event.storeCreate 0 "Post" [] true]
    (Event.listHook 0 .afterOperation "Post") [] rfl rfl

theorem topOkWrite_false_of_depth (e : Event) (h : 1 ≤ e.depth) :
    e.isTopOkWrite = false := by
  cases e with
  | storeCreate d lk data ok =>
    cases d with
    | zero => simp [Event.depth] at h
    | succ n => rfl
  | storeUpdate d lk id data ok =>
    cases d with
    | zero => simp [Event.depth] at h
    | succ n => rfl
  | storeDelete d lk id ok =>
    cases d with
    | zero => simp [Event.depth] at h
    | succ n => rfl
  | findUnique d lk k v f => rfl
  | fieldResolver d tag => rfl
  | fieldHook d ph lk k => rfl
  | listHook d ph lk => rfl

theorem resolve_noTopWrite (fuel : Nat) (ctx : Ctx) (list : ListConfig) (input : Rec)
    (item : Option Item) :
    ∀ e ∈ (resolveInputForCreateOrUpdate (ncF fuel ctx) ctx list input item 0).trace,
      e.isTopOkWrite = false := by
  refine resolve_events_all (fun e => e.isTopOkWrite = false) (ncF fuel ctx) ctx list
    input item 0 (fun tag => rfl)
    (fun l' data' e' he' =>
      topOkWrite_false_of_depth e' (ncF_events fuel ctx l' data' 1 e' he').1)
    (fun ph k hph => rfl) (fun ph hph => rfl)

theorem aop_allAfter (fuel : Nat) (ctx : Ctx) (list : ListConfig) (input : Rec)
    (item : Option Item) (depth : Nat) (dbdata : DBRec) (aop : Item → M Unit)
    (h : (resolveInputForCreateOrUpdate (ncF fuel ctx) ctx list input item depth).res
      = .ok (dbdata, aop)) :
    ∀ it' : Item, ∀ e ∈ (aop it').trace, e.isAfterOpHook = true := by
  obtain ⟨rd, defs, trG, hG, hdb, haop, htr⟩ :=
    resolve_ok_decomp (ncF fuel ctx) ctx list input item depth dbdata aop _ rfl h
  intro it' e he
  rw [haop] at he
  refine afterOpClosure_events_all (fun e => e.isAfterOpHook = true) list _ depth _ defs
    it' (fun df hdf e' he' => ?_) rfl (fun k => rfl) e he
  obtain ⟨l', data', it'', hsrc⟩ :=
    getRD_defs_mem (ncF fuel ctx) ctx list input item depth rd defs (by rw [hG]) df hdf
  exact (ncF_def_events fuel ctx l' data' (depth + 1) it'' df hsrc e' he').2

/-! ## C2 — failure and durable writes: the amended claim -/

/-- C2 (amended): for every item processed by `createOne/Many` or
`updateOne/Many`, if the item's outcome is Failed, then either no
top-level store write has durably succeeded for that mutation (nothing the
item's own store call persisted — nested creates issue their own writes
for related lists at depth ≥ 1), or the top-level store call fully
succeeded and the surfaced error was raised strictly afterwards, in the
`afterOperation` phase: the trace splits as `pre ++ write :: post` with no
durable top-level write in `pre` and only `afterOperation`-phase hook
events in `post`.  The store call itself is atomic — it either fully
succeeds or the whole item fails with no partial write (store model,
spec §4.7). -/
theorem claim2_amended_no_write_on_failure (fuel : Nat) (ctx : Ctx) (list : ListConfig)
    (data uniqueInput : Rec) (e : Err) :
    ((createOne fuel ctx list data).res = .error e →
      (∀ ev ∈ (createOne fuel ctx list data).trace, ev.isTopOkWrite = false) ∨
      (∃ w pre post, (createOne fuel ctx list data).trace = pre ++ w :: post ∧
        w.isTopOkWrite = true ∧ (∀ ev ∈ pre, ev.isTopOkWrite = false) ∧
        (∀ ev ∈ post, ev.isAfterOpHook = true))) ∧
    ((updateOne fuel ctx list uniqueInput data).res = .error e →
      (∀ ev ∈ (updateOne fuel ctx list uniqueInput data).trace, ev.isTopOkWrite = false) ∨
      (∃ w pre post, (updateOne fuel ctx list uniqueInput data).trace = pre ++ w :: post ∧
        w.isTopOkWrite = true ∧ (∀ ev ∈ pre, ev.isTopOkWrite = false) ∧
        (∀ ev ∈ post, ev.isAfterOpHook = true))) := by
  constructor
  · intro herr
    by_cases hacc : getOperationAccess list ctx .create = true
    · cases hcs : createSingle fuel ctx list data 0 with
      | mk r tr =>
        cases r with
        | error e0 =>
          left
          have htr : (createOne fuel ctx list data).trace = tr := by
            simp [createOne, hacc, hcs]
          rw [htr]
          intro ev hev
          -- a failed createSingle performed no succeeded top-level write
          by_cases haccC : ctx.createAccessOk list.listKey data = true
          · cases hres : resolveInputForCreateOrUpdate (ncF fuel ctx) ctx list data
                none 0 with
            | mk rR trR =>
              cases rR with
              | error e1 =>
                have : tr = trR := by
                  have h0 : createSingle fuel ctx list data 0
                      = ⟨.error e1, trR⟩ := by
                    rw [show createSingle fuel ctx list data 0
                      = createSingleGo (ncF fuel ctx) ctx list data 0 from rfl]
                    rw [createSingleGo, applyAccessControlForCreate]
                    rw [hres]
                    simp [haccC, M.pur]
                  rw [hcs] at h0
                  exact congrArg M.trace h0
                rw [this] at hev
                exact resolve_noTopWrite fuel ctx list data none ev
                  (by rw [hres]; exact hev)
              | ok p =>
                obtain ⟨dbdata, aop⟩ := p
                cases hcr : ctx.store.createRes list.listKey
                    (if list.isSingleton then aset dbdata "id" (.val (.vint 1)) else dbdata) with
                | ok it =>
                  exfalso
                  have h0 : (createSingle fuel ctx list data 0).res = .ok (it, aop) := by
                    rw [show createSingle fuel ctx list data 0
                      = createSingleGo (ncF fuel ctx) ctx list data 0 from rfl]
                    rw [createSingleGo, applyAccessControlForCreate]
                    rw [hres]
                    simp [haccC, hcr, M.pur]
                  rw [hcs] at h0
                  exact absurd h0 (by simp)
                | error e1 =>
                  have h0 : createSingle fuel ctx list data 0
                      = ⟨.error e1, trR ++ [.storeCreate 0 list.listKey
                          (if list.isSingleton then aset dbdata "id" (.val (.vint 1))
                            else dbdata) false]⟩ := by
                    rw [show createSingle fuel ctx list data 0
                      = createSingleGo (ncF fuel ctx) ctx list data 0 from rfl]
                    rw [createSingleGo, applyAccessControlForCreate]
                    rw [hres]
                    simp [haccC, hcr, M.pur]
                  rw [hcs] at h0
                  have : tr = trR ++ [.storeCreate 0 list.listKey
                      (if list.isSingleton then aset dbdata "id" (.val (.vint 1))
                        else dbdata) false] := congrArg M.trace h0
                  rw [this] at hev
                  rcases List.mem_append.mp hev with hm | hm
                  · exact resolve_noTopWrite fuel ctx list data none ev
                      (by rw [hres]; exact hm)
                  · simp only [List.mem_singleton] at hm
                    rw [hm]
                    rfl
          · have h0 : createSingle fuel ctx list data 0 = ⟨.error
                (.accessDenied (cannotForItem .create list.listKey)), []⟩ := by
              rw [show createSingle fuel ctx list data 0
                = createSingleGo (ncF fuel ctx) ctx list data 0 from rfl]
              rw [createSingleGo, applyAccessControlForCreate]
              simp [haccC, M.bind]
            rw [hcs] at h0
            have : tr = [] := congrArg M.trace h0
            rw [this] at hev
            simp at hev
        | ok p =>
          obtain ⟨item, aop⟩ := p
          right
          have hres : (createSingleGo (ncF fuel ctx) ctx list data 0).res
              = .ok (item, aop) := by
            rw [show createSingleGo (ncF fuel ctx) ctx list data 0
              = createSingle fuel ctx list data 0 from rfl, hcs]
          obtain ⟨dbdata, hrok, hcr, htrCS⟩ :=
            createSingleGo_ok_decomp (ncF fuel ctx) ctx list data 0 item aop hres
          have htr : (createOne fuel ctx list data).trace = tr ++ (aop item).trace := by
            simp only [createOne, hacc, if_true, bind_eq_mbind, hcs, mbind_ok]
            rw [trace_bind_emptyK _ _ (fun _ => rfl)]
          have htrw : tr = (resolveInputForCreateOrUpdate (ncF fuel ctx) ctx list data
              none 0).trace
              ++ [.storeCreate 0 list.listKey
                  (if list.isSingleton then aset dbdata "id" (.val (.vint 1)) else dbdata)
                  true] := by
            rw [show tr = (createSingleGo (ncF fuel ctx) ctx list data 0).trace from by
              rw [show createSingleGo (ncF fuel ctx) ctx list data 0
                = createSingle fuel ctx list data 0 from rfl, hcs]]
            exact htrCS
          refine ⟨.storeCreate 0 list.listKey
              (if list.isSingleton then aset dbdata "id" (.val (.vint 1)) else dbdata)
              true,
            (resolveInputForCreateOrUpdate (ncF fuel ctx) ctx list data none 0).trace,
            (aop item).trace, ?_, rfl, ?_, ?_⟩
          · rw [htr, htrw, List.append_assoc, List.singleton_append]
          · exact resolve_noTopWrite fuel ctx list data none
          · exact aop_allAfter fuel ctx list data none 0 dbdata aop hrok item
    · left
      simp only [createOne, hacc, Bool.false_eq_true, if_false, fail_eq]
      intro ev hev
      simp at hev
  · intro herr
    by_cases hacc : getOperationAccess list ctx .update = true
    · cases hw : resolveUniqueWhereInput uniqueInput list with
      | error e0 =>
        left
        simp only [updateOne, hacc, if_true, updateSingle, hw, bind_eq_mbind, liftE_eq,
          mbind_err]
        intro ev hev
        simp at hev
      | ok uw =>
        cases hf : checkFilterOrderAccess list ctx uw.1 with
        | error e0 =>
          left
          simp only [updateOne, hacc, if_true, updateSingle, hw, hf, bind_eq_mbind,
            liftE_eq, mbind_ok, mbind_err]
          intro ev hev
          simp at hev
        | ok u0 =>
          cases hrel : getAccessControlledItemForUpdate ctx list uw
              (getAccessFilters list ctx .update) data 0 with
          | mk rI trI =>
            have hIno : ∀ e' ∈ trI, e'.isTopOkWrite = false := by
              intro e' he'
              obtain ⟨flt, rfl⟩ := gACUpdate_events ctx list uw
                (getAccessFilters list ctx .update) data 0 e' (by rw [hrel]; exact he')
              rfl
            cases rI with
            | error e0 =>
              left
              have htr : (updateOne fuel ctx list uniqueInput data).trace = trI := by
                simp [updateOne, hacc, updateSingle, hw, hf, hrel]
              rw [htr]
              exact hIno
            | ok item =>
              cases hres : resolveInputForCreateOrUpdate (ncF fuel ctx) ctx list data
                  (some item) 0 with
              | mk rR trR =>
                have hRno : ∀ e' ∈ trR, e'.isTopOkWrite = false := by
                  intro e' he'
                  exact resolve_noTopWrite fuel ctx list data (some item) e'
                    (by rw [hres]; exact he')
                cases rR with
                | error e0 =>
                  left
                  have htr : (updateOne fuel ctx list uniqueInput data).trace
                      = trI ++ trR := by
                    simp [updateOne, hacc, updateSingle, hw, hf, hrel, hres]
                  rw [htr]
                  intro ev hev
                  rcases List.mem_append.mp hev with hm | hm
                  · exact hIno ev hm
                  · exact hRno ev hm
                | ok p =>
                  obtain ⟨dbdata, aop⟩ := p
                  cases hupd : ctx.store.updateRes list.listKey item.id dbdata with
                  | error e0 =>
                    left
                    have htr : (updateOne fuel ctx list uniqueInput data).trace
                        = trI ++ trR
                          ++ [.storeUpdate 0 list.listKey item.id dbdata false] := by
                      simp [updateOne, hacc, updateSingle, hw, hf, hrel, hres, hupd,
                        List.append_assoc]
                    rw [htr]
                    intro ev hev
                    rcases List.mem_append.mp hev with hm | hm
                    · rcases List.mem_append.mp hm with hm' | hm'
                      · exact hIno ev hm'
                      · exact hRno ev hm'
                    · simp only [List.mem_singleton] at hm
                      rw [hm]
                      rfl
                  | ok updated =>
                    right
                    have htr : (updateOne fuel ctx list uniqueInput data).trace
                        = (trI ++ trR)
                          ++ .storeUpdate 0 list.listKey item.id dbdata true
                            :: (aop updated).trace := by
                      simp only [updateOne, hacc, if_true, updateSingle, hw, hf,
                        bind_eq_mbind, liftE_eq, mbind_ok, hrel, hres, hupd, emit_eq]
                      rw [trace_bind_emptyK _ _ (fun _ => rfl)]
                      simp [List.append_assoc]
                    refine ⟨.storeUpdate 0 list.listKey item.id dbdata true,
                      trI ++ trR, (aop updated).trace, htr, rfl, ?_, ?_⟩
                    · intro ev hev
                      rcases List.mem_append.mp hev with hm | hm
                      · exact hIno ev hm
                      · exact hRno ev hm
                    · exact aop_allAfter fuel ctx list data (some item) 0 dbdata aop
                        (by rw [hres]) updated
    · left
      simp only [updateOne, hacc, Bool.false_eq_true, if_false, fail_eq]
      intro ev hev
      simp at hev

theorem claim2_amended_no_write_on_failure_witness :
    (∀ ev ∈ (createOne 1 exCtx afterThrowList []).trace, ev.isTopOkWrite = false) ∨
    (∃ w pre post, (createOne 1 exCtx afterThrowList []).trace = pre ++ w :: post ∧
      w.isTopOkWrite = true ∧ (∀ ev ∈ pre, ev.isTopOkWrite = false) ∧
      (∀ ev ∈ post, ev.isAfterOpHook = true)) :=
  (claim2_amended_no_write_on_failure 1 exCtx afterThrowList [] []
    (.hookThrow "boom")).1 rfl

/-! ## Association-list lemmas -/

theorem alook_aset {α : Type} (l : List (String × α)) (k : String) (v : α) :
    alook (aset l k v) k = some v := by
  induction l with
  | nil => simp [aset, alook]
  | cons kv rest ih =>
    by_cases h : kv.1 = k
    · simp [aset, alook, h]
    · cases kv with
      | mk k' v' =>
        simp only at h
        simp [aset, alook, h, ih]

theorem alook_eq_none_of_forall {α : Type} (l : List (String × α)) (k : String)
    (h : ∀ kv ∈ l, kv.1 ≠ k) : alook l k = none := by
  induction l with
  | nil => rfl
  | cons kv rest ih =>
    have hk := h kv (List.mem_cons_self kv rest)
    cases kv with
    | mk k' v' =>
      simp only at hk
      simp only [alook, if_neg hk]
      exact ih (fun kv hm => h kv (List.mem_cons_of_mem _ hm))

/-! ## C1 — operation-access denial -/

/-- C1: for every list, context and input, if `operationAccess` for the
operation kind (create, update or delete) is false, then every
orchestrator call for that operation (`createOne/Many`, `updateOne/Many`,
`deleteOne/Many`) raises `AccessDeniedError` and performs zero store calls
for that item — here the strongest form: the outcome is exactly the
access-denied error with an empty event trace (no `findUnique`, `create`,
`update` or `delete` reaches the store, and no resolver or hook runs). -/
theorem claim1_operationAccess_denied (fuel : Nat) (ctx : Ctx) (list : ListConfig)
    (data uniqueInput : Rec) (datas : List Rec) (updateInputs : List (Rec × Rec))
    (uniqueInputs : List Rec) :
    (ctx.operationAccess list.listKey .create = false →
      createOne fuel ctx list data
          = ⟨.error (.accessDenied (cannotForItem .create list.listKey)), []⟩ ∧
      ∀ r ∈ createMany fuel ctx list datas,
        r = ⟨.error (.accessDenied (cannotForItem .create list.listKey)), []⟩) ∧
    (ctx.operationAccess list.listKey .update = false →
      updateOne fuel ctx list uniqueInput data
          = ⟨.error (.accessDenied (cannotForItem .update list.listKey)), []⟩ ∧
      ∀ r ∈ updateMany fuel ctx list updateInputs,
        r = ⟨.error (.accessDenied (cannotForItem .update list.listKey)), []⟩) ∧
    (ctx.operationAccess list.listKey .delete = false →
      deleteOne ctx list uniqueInput
          = ⟨.error (.accessDenied (cannotForItem .delete list.listKey)), []⟩ ∧
      ∀ r ∈ deleteMany ctx list uniqueInputs,
        r = ⟨.error (.accessDenied (cannotForItem .delete list.listKey)), []⟩) := by
  refine ⟨fun h => ⟨?_, ?_⟩, fun h => ⟨?_, ?_⟩, fun h => ⟨?_, ?_⟩⟩
  · simp [createOne, getOperationAccess, h]
  · intro r hr
    simp only [createMany, getOperationAccess, h, List.mem_map] at hr
    obtain ⟨d, _, rfl⟩ := hr
    simp
  · simp [updateOne, getOperationAccess, h]
  · intro r hr
    simp only [updateMany, getOperationAccess, h, List.mem_map] at hr
    obtain ⟨d, _, rfl⟩ := hr
    simp
  · simp [deleteOne, getOperationAccess, h]
  · intro r hr
    simp only [deleteMany, getOperationAccess, h, List.mem_map] at hr
    obtain ⟨d, _, rfl⟩ := hr
    simp

/-- Witness for C1: the denial conclusion evaluated on the deny-all
context. -/
theorem claim1_operationAccess_denied_witness :
    createOne 2 denyCtx postList [("title", .vstr "x")]
      = ⟨.error (.accessDenied (cannotForItem .create "Post")), []⟩ :=
  ((claim1_operationAccess_denied 2 denyCtx postList [("title", .vstr "x")] []
    [] [] []).1 rfl).1

/-! ## Filter lemmas for the C4 phase-order observation -/

theorem isPhase0_false_of_depth (e : Event) (h : 1 ≤ e.depth) : e.isPhase0 = false := by
  cases e with
  | storeCreate d lk data ok =>
    cases d with
    | zero => simp [Event.depth] at h
    | succ n => rfl
  | storeUpdate d lk id data ok =>
    cases d with
    | zero => simp [Event.depth] at h
    | succ n => rfl
  | storeDelete d lk id ok =>
    cases d with
    | zero => simp [Event.depth] at h
    | succ n => rfl
  | fieldHook d ph lk k =>
    cases d with
    | zero => simp [Event.depth] at h
    | succ n => rfl
  | listHook d ph lk =>
    cases d with
    | zero => simp [Event.depth] at h
    | succ n => rfl
  | findUnique d lk k v f => rfl
  | fieldResolver d tag => rfl

theorem filterPhase0_eq_nil (l : List Event) (h : ∀ e ∈ l, e.isPhase0 = false) :
    l.filter Event.isPhase0 = [] := by
  induction l with
  | nil => rfl
  | cons a l ih =>
    rw [List.filter_cons, h a (List.mem_cons_self a l)]
    simp only [Bool.false_eq_true, if_false]
    exact ih (fun e he => h e (List.mem_cons_of_mem a he))

theorem filter_fieldHookEvents (ph : Phase) (lk : String)
    (fields : List (String × FieldConfig)) :
    (fields.map (fun kf => Event.fieldHook 0 ph lk kf.1)).filter Event.isPhase0
      = fields.map (fun kf => Event.fieldHook 0 ph lk kf.1) := by
  refine List.filter_eq_self.mpr ?_
  intro e he
  obtain ⟨kf, _, rfl⟩ := List.mem_map.mp he
  rfl

theorem pass1Events_phase0 (lk : String) (op : Op) (depth : Nat)
    (fields : List (String × FieldConfig)) :
    ∀ e ∈ pass1Events lk op depth fields, e.isPhase0 = false := by
  intro e he
  simp only [pass1Events, List.mem_filterMap] at he
  obtain ⟨kf, _, hkf⟩ := he
  cases hi : (if kf.2.dbField.isRelation then none else kf.2.inputResolver op) with
  | none =>
    rw [hi] at hkf
    exact absurd hkf (by simp)
  | some r =>
    rw [hi] at hkf
    have he' : Event.fieldResolver depth (fieldTag lk kf.1) = e := by
      exact Option.some.inj hkf
    rw [← he']
    rfl

theorem pass2Events_phase0 (fuel : Nat) (ctx : Ctx) (lk : String) (op : Op)
    (data : Rec) (fields : List (String × FieldConfig)) :
    ∀ e ∈ pass2EventsSpec (ncF fuel ctx) ctx lk op 0 data fields, e.isPhase0 = false :=
  pass2Events_all (fun e => e.isPhase0 = false) (ncF fuel ctx) ctx lk op 0 data fields
    (fun _ => rfl)
    (fun l' data' e he => isPhase0_false_of_depth e (ncF_events fuel ctx l' data' 1 e he).1)

theorem getRD_ok_filterPhase0 (fuel : Nat) (ctx : Ctx) (list : ListConfig)
    (input : Rec) (item : Option Item) (rd : Rec) (defs : List Deferred)
    (trG : List Event)
    (h : getResolvedData (ncF fuel ctx) ctx list input item 0 = ⟨.ok (rd, defs), trG⟩) :
    trG.filter Event.isPhase0
      = list.fields.map (fun kf => Event.fieldHook 0 .resolveInput list.listKey kf.1)
        ++ [Event.listHook 0 .resolveInput list.listKey] := by
  set O := (match item with | none => Op.create | some _ => Op.update) with hO
  by_cases h1 : pass1ErrorsSpec list.listKey O input list.fields = []
  · by_cases h2 : pass2ErrorsSpec (ncF fuel ctx) ctx list.listKey O 0
        (pass1EntriesSpec O input list.fields) list.fields = []
    · by_cases h3 : pass3ErrorsSpec list.listKey O input item
          (pass2EntriesSpec (ncF fuel ctx) ctx list.listKey O 0
            (pass1EntriesSpec O input list.fields) list.fields) list.fields = []
      · have h4 := getRD_gate4 (ncF fuel ctx) ctx list input item 0 O hO h1 h2 h3
        rw [h] at h4
        have htr := congrArg M.trace h4
        simp only at htr
        rw [htr, List.filter_append, List.filter_append, List.filter_append]
        rw [filterPhase0_eq_nil _ (pass1Events_phase0 list.listKey O 0 list.fields),
          filterPhase0_eq_nil _ (pass2Events_phase0 fuel ctx list.listKey O
            (pass1EntriesSpec O input list.fields) list.fields),
          filter_fieldHookEvents]
        simp [Event.isPhase0]
      · have hg := getRD_gate3 (ncF fuel ctx) ctx list input item 0 O hO h1 h2 h3
        rw [h] at hg
        exact absurd (congrArg M.res hg) (by simp)
    · have hg := getRD_gate2 (ncF fuel ctx) ctx list input item 0 O hO h1 h2
      rw [h] at hg
      exact absurd (congrArg M.res hg) (by simp)
  · have hg := getRD_gate1 (ncF fuel ctx) ctx list input item 0 O hO h1
    rw [h] at hg
    exact absurd (congrArg M.res hg) (by simp)

theorem afterOpClosure_ok_trace (list : ListConfig) (op : Op) (depth : Nat)
    (args : HookArgs) (defs : List Deferred) (it : Item)
    (h : ((afterOperationClosure list op depth args defs) it).res = .ok ()) :
    ((afterOperationClosure list op depth args defs) it).trace
      = (nestedAfterOperation defs).trace
        ++ Event.listHook depth .afterOperation list.listKey
          :: list.fields.map (fun kf => Event.fieldHook depth .afterOperation list.listKey kf.1) := by
  cases hN : nestedAfterOperation defs with
  | mk rN trN =>
    cases rN with
    | error e => simp [afterOperationClosure, hN] at h
    | ok u =>
      cases hL : list.hooks.afterOperation op args with
      | error e => simp [afterOperationClosure, hN, hL] at h
      | ok u2 =>
        cases hF : runFieldHooksSeq .afterOperation (fun f => f.hooks.afterOperation)
            list.listKey op depth args list.fields with
        | mk rF trF =>
          cases rF with
          | error e => simp [afterOperationClosure, hN, hL, hF] at h
          | ok u3 =>
            have hFtr : trF = list.fields.map
                (fun kf => Event.fieldHook depth .afterOperation list.listKey kf.1) := by
              have := runFieldHooksSeq_ok_trace .afterOperation
                (fun f => f.hooks.afterOperation) list.listKey op depth args list.fields
                (by rw [hF])
              rw [hF] at this
              exact this
            simp [afterOperationClosure, hN, hL, hF, hFtr]

theorem nestedAfter_phase0 (fuel : Nat) (ctx : Ctx) (list : ListConfig) (input : Rec)
    (item : Option Item) (rd : Rec) (defs : List Deferred)
    (hG : (getResolvedData (ncF fuel ctx) ctx list input item 0).res = .ok (rd, defs)) :
    ∀ e ∈ (nestedAfterOperation defs).trace, e.isPhase0 = false := by
  refine nestedAfterOperation_events _ defs ?_
  intro df hdf e he
  obtain ⟨l', data', it'', hsrc⟩ :=
    getRD_defs_mem (ncF fuel ctx) ctx list input item 0 rd defs hG df hdf
  exact isPhase0_false_of_depth e (ncF_def_events fuel ctx l' data' 1 it'' df hsrc e he).1

/-! ## C4 — the fixed hook phase order -/

/-- C4: on every successful create, update, and delete mutation, the
top-level observable events (depth-0 hook invocations and store writes,
`Event.isPhase0`) occur in exactly the canonical order — `resolveInput`
(field hooks, then the list hook), `validate` (field, then list),
`beforeOperation` (list, then field), the single store write, then
`afterOperation` (list, then field) — with delete running the same order
minus the `resolveInput` phase. -/
theorem claim4_hook_phase_order (fuel : Nat) (ctx : Ctx) (list : ListConfig)
    (data uniqueInput : Rec) (item : Item) :
    ((createOne fuel ctx list data).res = .ok item →
      ∃ payload, (createOne fuel ctx list data).trace.filter Event.isPhase0
        = canonicalBeforeWrite list.listKey list.fields
          ++ Event.storeCreate 0 list.listKey payload true
            :: canonicalAfterWrite list.listKey list.fields) ∧
    ((updateOne fuel ctx list uniqueInput data).res = .ok item →
      ∃ id payload, (updateOne fuel ctx list uniqueInput data).trace.filter Event.isPhase0
        = canonicalBeforeWrite list.listKey list.fields
          ++ Event.storeUpdate 0 list.listKey id payload true
            :: canonicalAfterWrite list.listKey list.fields) ∧
    ((deleteOne ctx list uniqueInput).res = .ok item →
      ∃ id, (deleteOne ctx list uniqueInput).trace.filter Event.isPhase0
        = canonicalBeforeWriteDelete list.listKey list.fields
          ++ Event.storeDelete 0 list.listKey id true
            :: canonicalAfterWrite list.listKey list.fields) := by
  refine ⟨?_, ?_, ?_⟩
  · intro hok
    by_cases hacc : getOperationAccess list ctx .create = true
    · cases hcs : createSingle fuel ctx list data 0 with
      | mk r tr =>
        cases r with
        | error e => simp [createOne, hacc, hcs] at hok
        | ok p =>
          obtain ⟨it0, aop⟩ := p
          cases haop : aop it0 with
          | mk rA trA =>
            cases rA with
            | error e => simp [createOne, hacc, hcs, haop] at hok
            | ok u =>
              cases u
              have htr : (createOne fuel ctx list data).trace = tr ++ trA := by
                simp [createOne, hacc, hcs, haop]
              have hresCS : (createSingleGo (ncF fuel ctx) ctx list data 0).res
                  = .ok (it0, aop) := by
                rw [show createSingleGo (ncF fuel ctx) ctx list data 0
                  = createSingle fuel ctx list data 0 from rfl, hcs]
              obtain ⟨dbdata, hrok, hcr, htrCS⟩ :=
                createSingleGo_ok_decomp (ncF fuel ctx) ctx list data 0 it0 aop hresCS
              obtain ⟨rd, defs, trG, hG, hdb, haopEq, htrR⟩ :=
                resolve_ok_decomp (ncF fuel ctx) ctx list data none 0 dbdata aop
                  Op.create rfl hrok
              have htr2 : tr
                  = (resolveInputForCreateOrUpdate (ncF fuel ctx) ctx list data none 0).trace
                    ++ [.storeCreate 0 list.listKey
                        (if list.isSingleton then aset dbdata "id" (.val (.vint 1))
                          else dbdata) true] := by
                rw [show tr = (createSingleGo (ncF fuel ctx) ctx list data 0).trace from by
                  rw [show createSingleGo (ncF fuel ctx) ctx list data 0
                    = createSingle fuel ctx list data 0 from rfl, hcs]]
                exact htrCS
              have hcl : (afterOperationClosure list Op.create 0
                  { listKey := list.listKey, operation := Op.create,
                    inputData := some data, item := none, resolvedData := some rd } defs) it0
                  = ⟨.ok (), trA⟩ := by
                rw [← haopEq]
                exact haop
              have htrA : trA = (nestedAfterOperation defs).trace
                  ++ Event.listHook 0 .afterOperation list.listKey
                    :: list.fields.map
                        (fun kf => Event.fieldHook 0 .afterOperation list.listKey kf.1) := by
                have := afterOpClosure_ok_trace list Op.create 0
                  { listKey := list.listKey, operation := Op.create,
                    inputData := some data, item := none, resolvedData := some rd } defs it0
                  (by rw [hcl])
                rw [hcl] at this
                exact this
              refine ⟨(if list.isSingleton then aset dbdata "id" (.val (.vint 1))
                else dbdata), ?_⟩
              rw [htr, htr2, htrR, htrA]
              simp only [List.filter_append, List.filter_cons]
              rw [getRD_ok_filterPhase0 fuel ctx list data none rd defs trG hG]
              rw [filterPhase0_eq_nil _
                (nestedAfter_phase0 fuel ctx list data none rd defs (by rw [hG]))]
              simp [filter_fieldHookEvents, canonicalBeforeWrite, canonicalAfterWrite,
                fieldHookEvents, Event.isPhase0, List.append_assoc]
    · simp [createOne, hacc] at hok
  · intro hok
    by_cases hacc : getOperationAccess list ctx .update = true
    · cases hw : resolveUniqueWhereInput uniqueInput list with
      | error e => simp [updateOne, hacc, updateSingle, hw] at hok
      | ok uw' =>
        cases hf : checkFilterOrderAccess list ctx uw'.1 with
        | error e => simp [updateOne, hacc, updateSingle, hw, hf] at hok
        | ok u0 =>
          cases hrel : getAccessControlledItemForUpdate ctx list uw'
              (getAccessFilters list ctx .update) data 0 with
          | mk rI trI =>
            have hItr : ∀ e ∈ trI, e.isPhase0 = false := by
              intro e' he'
              obtain ⟨flt, rfl⟩ := gACUpdate_events ctx list uw'
                (getAccessFilters list ctx .update) data 0 e' (by rw [hrel]; exact he')
              rfl
            cases rI with
            | error e => simp [updateOne, hacc, updateSingle, hw, hf, hrel] at hok
            | ok item0 =>
              cases hres : resolveInputForCreateOrUpdate (ncF fuel ctx) ctx list data
                  (some item0) 0 with
              | mk rR trR =>
                cases rR with
                | error e =>
                  simp [updateOne, hacc, updateSingle, hw, hf, hrel, hres] at hok
                | ok pR =>
                  obtain ⟨dbdata, aop⟩ := pR
                  cases hupd : ctx.store.updateRes list.listKey item0.id dbdata with
                  | error e =>
                    simp [updateOne, hacc, updateSingle, hw, hf, hrel, hres, hupd] at hok
                  | ok updated =>
                    cases haop : aop updated with
                    | mk rA trA =>
                      cases rA with
                      | error e =>
                        simp [updateOne, hacc, updateSingle, hw, hf, hrel, hres, hupd,
                          haop] at hok
                      | ok u =>
                        cases u
                        obtain ⟨rd, defs, trG, hG, hdb, haopEq, htrR⟩ :=
                          resolve_ok_decomp (ncF fuel ctx) ctx list data (some item0) 0
                            dbdata aop Op.update rfl (by rw [hres])
                        have htrR2 : trR = trG
                            ++ list.fields.map
                                (fun kf => Event.fieldHook 0 .validate list.listKey kf.1)
                            ++ [Event.listHook 0 .validate list.listKey]
                            ++ [Event.listHook 0 .beforeOperation list.listKey]
                            ++ list.fields.map
                                (fun kf => Event.fieldHook 0 .beforeOperation list.listKey kf.1) := by
                          rw [show trR = (resolveInputForCreateOrUpdate (ncF fuel ctx) ctx
                              list data (some item0) 0).trace from by rw [hres]]
                          exact htrR
                        have hcl : (afterOperationClosure list Op.update 0
                            { listKey := list.listKey, operation := Op.update,
                              inputData := some data, item := some item0,
                              resolvedData := some rd } defs) updated
                            = ⟨.ok (), trA⟩ := by
                          rw [← haopEq]
                          exact haop
                        have htrA : trA = (nestedAfterOperation defs).trace
                            ++ Event.listHook 0 .afterOperation list.listKey
                              :: list.fields.map
                                  (fun kf => Event.fieldHook 0 .afterOperation list.listKey kf.1) := by
                          have := afterOpClosure_ok_trace list Op.update 0
                            { listKey := list.listKey, operation := Op.update,
                              inputData := some data, item := some item0,
                              resolvedData := some rd } defs updated (by rw [hcl])
                          rw [hcl] at this
                          exact this
                        have htr : (updateOne fuel ctx list uniqueInput data).trace
                            = (trI ++ trR)
                              ++ Event.storeUpdate 0 list.listKey item0.id dbdata true
                                :: trA := by
                          simp only [updateOne, hacc, if_true, updateSingle, hw, hf,
                            bind_eq_mbind, liftE_eq, mbind_ok, hrel, hres, hupd, emit_eq,
                            haop]
                          simp [List.append_assoc]
                        refine ⟨item0.id, dbdata, ?_⟩
                        rw [htr, htrR2, htrA]
                        simp only [List.filter_append, List.filter_cons]
                        rw [getRD_ok_filterPhase0 fuel ctx list data (some item0) rd defs
                          trG hG]
                        rw [filterPhase0_eq_nil _ hItr]
                        rw [filterPhase0_eq_nil _
                          (nestedAfter_phase0 fuel ctx list data (some item0) rd defs
                            (by rw [hG]))]
                        simp [filter_fieldHookEvents, canonicalBeforeWrite,
                          canonicalAfterWrite, fieldHookEvents, Event.isPhase0,
                          List.append_assoc]
    · simp [updateOne, hacc] at hok
  · intro hok
    by_cases hacc : getOperationAccess list ctx .delete = true
    · cases hw : resolveUniqueWhereInput uniqueInput list with
      | error e => simp [deleteOne, hacc, deleteSingle, hw] at hok
      | ok uw' =>
        cases hf : checkFilterOrderAccess list ctx uw'.1 with
        | error e => simp [deleteOne, hacc, deleteSingle, hw, hf] at hok
        | ok u0 =>
          cases hrel : getAccessControlledItemForDelete ctx list uw'
              (getAccessFilters list ctx .delete) 0 with
          | mk rI trI =>
            have hItr : ∀ e ∈ trI, e.isPhase0 = false := by
              intro e' he'
              obtain ⟨flt, rfl⟩ := gACDelete_events ctx list uw'
                (getAccessFilters list ctx .delete) 0 e' (by rw [hrel]; exact he')
              rfl
            cases rI with
            | error e => simp [deleteOne, hacc, deleteSingle, hw, hf, hrel] at hok
            | ok item0 =>
              cases hVF : validateFields list .delete 0
                  { listKey := list.listKey, operation := .delete, inputData := none,
                    item := some item0, resolvedData := none } with
              | mk rV trV =>
                have hVtr : trV = list.fields.map
                    (fun kf => Event.fieldHook 0 .validate list.listKey kf.1) := by
                  have := validateFields_trace list .delete 0
                    { listKey := list.listKey, operation := .delete, inputData := none,
                      item := some item0, resolvedData := none }
                  rw [hVF] at this
                  exact this
                cases rV with
                | error e =>
                  simp [deleteOne, hacc, deleteSingle, hw, hf, hrel, hVF] at hok
                | ok uV =>
                  cases uV
                  cases hVL : list.hooks.validate .delete
                      { listKey := list.listKey, operation := .delete, inputData := none,
                        item := some item0, resolvedData := none } with
                  | error e =>
                    simp [deleteOne, hacc, deleteSingle, hw, hf, hrel, hVF, validateList,
                      hVL] at hok
                  | ok uVL =>
                    cases hB : list.hooks.beforeOperation .delete
                        { listKey := list.listKey, operation := .delete, inputData := none,
                          item := some item0, resolvedData := none } with
                    | error e =>
                      simp [deleteOne, hacc, deleteSingle, hw, hf, hrel, hVF, validateList,
                        hVL, hB] at hok
                    | ok uB =>
                      cases hBF : runFieldHooksSeq .beforeOperation
                          (fun f => f.hooks.beforeOperation) list.listKey .delete 0
                          { listKey := list.listKey, operation := .delete,
                            inputData := none, item := some item0, resolvedData := none }
                          list.fields with
                      | mk rB trB =>
                        cases rB with
                        | error e =>
                          simp [deleteOne, hacc, deleteSingle, hw, hf, hrel, hVF,
                            validateList, hVL, hB, hBF] at hok
                        | ok uB2 =>
                          cases uB2
                          have hBtr : trB = list.fields.map
                              (fun kf => Event.fieldHook 0 .beforeOperation list.listKey kf.1) := by
                            have := runFieldHooksSeq_ok_trace .beforeOperation
                              (fun f => f.hooks.beforeOperation) list.listKey .delete 0
                              { listKey := list.listKey, operation := .delete,
                                inputData := none, item := some item0,
                                resolvedData := none } list.fields (by rw [hBF])
                            rw [hBF] at this
                            exact this
                          cases hD : ctx.store.deleteRes list.listKey item0.id with
                          | error e =>
                            simp [deleteOne, hacc, deleteSingle, hw, hf, hrel, hVF,
                              validateList, hVL, hB, hBF, hD] at hok
                          | ok newItem =>
                            cases hA : list.hooks.afterOperation .delete
                                { listKey := list.listKey, operation := .delete,
                                  inputData := none, item := none, resolvedData := none,
                                  originalItem := some item0 } with
                            | error e =>
                              simp [deleteOne, hacc, deleteSingle, hw, hf, hrel, hVF,
                                validateList, hVL, hB, hBF, hD, hA] at hok
                            | ok uA =>
                              cases hAF : runFieldHooksSeq .afterOperation
                                  (fun f => f.hooks.afterOperation) list.listKey .delete 0
                                  { listKey := list.listKey, operation := .delete,
                                    inputData := none, item := none, resolvedData := none,
                                    originalItem := some item0 } list.fields with
                              | mk rAF trAF =>
                                cases rAF with
                                | error e =>
                                  simp [deleteOne, hacc, deleteSingle, hw, hf, hrel, hVF,
                                    validateList, hVL, hB, hBF, hD, hA, hAF] at hok
                                | ok uA2 =>
                                  cases uA2
                                  have hAtr : trAF = list.fields.map
                                      (fun kf => Event.fieldHook 0 .afterOperation
                                        list.listKey kf.1) := by
                                    have := runFieldHooksSeq_ok_trace .afterOperation
                                      (fun f => f.hooks.afterOperation) list.listKey
                                      .delete 0
                                      { listKey := list.listKey, operation := .delete,
                                        inputData := none, item := none,
                                        resolvedData := none,
                                        originalItem := some item0 } list.fields
                                      (by rw [hAF])
                                    rw [hAF] at this
                                    exact this
                                  refine ⟨item0.id, ?_⟩
                                  have htr : (deleteOne ctx list uniqueInput).trace
                                      = trI ++ (trV ++ ([Event.listHook 0 .validate
                                          list.listKey]
                                        ++ ([Event.listHook 0 .beforeOperation list.listKey]
                                        ++ (trB
                                        ++ (Event.storeDelete 0 list.listKey item0.id true
                                          :: (Event.listHook 0 .afterOperation list.listKey
                                            :: trAF)))))) := by
                                    simp only [deleteOne, hacc, if_true, deleteSingle, hw,
                                      hf, bind_eq_mbind, liftE_eq, mbind_ok, hrel, hVF,
                                      validateList, hVL, hB, hBF, hD, hA, hAF, emit_eq,
                                      pur_eq, mbind_err]
                                    simp [List.append_assoc]
                                  rw [htr, hVtr, hBtr, hAtr]
                                  simp only [List.filter_append, List.filter_cons]
                                  rw [filterPhase0_eq_nil _ hItr]
                                  simp [filter_fieldHookEvents, canonicalBeforeWriteDelete,
                                    canonicalAfterWrite, fieldHookEvents, Event.isPhase0,
                                    List.append_assoc]
    · simp [deleteOne, hacc] at hok

theorem claim4_hook_phase_order_witness :
    ∃ payload, (createOne 2 exCtx postList [("title", Val.vstr "x")]).trace.filter
        Event.isPhase0
      = canonicalBeforeWrite postList.listKey postList.fields
        ++ Event.storeCreate 0 postList.listKey payload true
          :: canonicalAfterWrite postList.listKey postList.fields :=
  (claim4_hook_phase_order 2 exCtx postList [("title", Val.vstr "x")] [] ⟨7, []⟩).1 rfl

/-! ## C5 — per-pass error aggregation -/

/-- C5: within each field-resolution pass of `getResolvedData` — the
non-relationship resolver pass, the relationship pass, and the field
`resolveInput`-hook pass — a throwing field never short-circuits the pass:
the single combined error raised after the pass carries the independent
per-field outcome list (`pass1/2/3ErrorsSpec`, one `{fieldTag, error}`
pair per failing field, in field order), and every applicable field's
resolver (resp. hook) is still invoked, witnessed by its invocation event
in the trace; and when `getResolvedData` fails this way, `createSingle`
surfaces the error with no store call for that item (every store event in
its trace belongs to a nested mutation at depth ≥ 1). -/
theorem claim5_pass_error_aggregation (fuel : Nat) (ctx : Ctx) (list : ListConfig)
    (input : Rec) (item : Option Item) (op : Op)
    (hop : op = (match item with | none => Op.create | some _ => Op.update)) :
    (pass1ErrorsSpec list.listKey op input list.fields ≠ [] →
      getResolvedData (ncF fuel ctx) ctx list input item 0
        = ⟨.error (.resolverError (pass1ErrorsSpec list.listKey op input list.fields)),
           pass1Events list.listKey op 0 list.fields⟩ ∧
      ∀ k f r, (k, f) ∈ list.fields →
        (if f.dbField.isRelation then none else f.inputResolver op) = some r →
        Event.fieldResolver 0 (fieldTag list.listKey k)
          ∈ (getResolvedData (ncF fuel ctx) ctx list input item 0).trace) ∧
    (pass1ErrorsSpec list.listKey op input list.fields = [] →
      pass2ErrorsSpec (ncF fuel ctx) ctx list.listKey op 0
          (pass1EntriesSpec op input list.fields) list.fields ≠ [] →
      (getResolvedData (ncF fuel ctx) ctx list input item 0).res
        = .error (.relationshipError (pass2ErrorsSpec (ncF fuel ctx) ctx list.listKey op 0
            (pass1EntriesSpec op input list.fields) list.fields)) ∧
      ∀ k f mode fk r, (k, f) ∈ list.fields → f.dbField = .relation mode fk →
        f.inputResolver op = some r →
        Event.fieldResolver 0 (fieldTag list.listKey k)
          ∈ (getResolvedData (ncF fuel ctx) ctx list input item 0).trace) ∧
    (pass1ErrorsSpec list.listKey op input list.fields = [] →
      pass2ErrorsSpec (ncF fuel ctx) ctx list.listKey op 0
          (pass1EntriesSpec op input list.fields) list.fields = [] →
      pass3ErrorsSpec list.listKey op input item
          (pass2EntriesSpec (ncF fuel ctx) ctx list.listKey op 0
            (pass1EntriesSpec op input list.fields) list.fields) list.fields ≠ [] →
      (getResolvedData (ncF fuel ctx) ctx list input item 0).res
        = .error (.extensionError "resolveInput"
            (pass3ErrorsSpec list.listKey op input item
              (pass2EntriesSpec (ncF fuel ctx) ctx list.listKey op 0
                (pass1EntriesSpec op input list.fields) list.fields) list.fields)) ∧
      ∀ k f, (k, f) ∈ list.fields →
        Event.fieldHook 0 .resolveInput list.listKey k
          ∈ (getResolvedData (ncF fuel ctx) ctx list input item 0).trace) ∧
    (∀ e : Err, (getResolvedData (ncF fuel ctx) ctx list input none 0).res = .error e →
      ((createSingle fuel ctx list input 0).res = .error e ∨
        (createSingle fuel ctx list input 0).res
          = .error (.accessDenied (cannotForItem .create list.listKey))) ∧
      ∀ ev ∈ (createSingle fuel ctx list input 0).trace,
        ev.isStore = true → 1 ≤ ev.depth) := by
  refine ⟨?_, ?_, ?_, ?_⟩
  · intro h1
    have hG := getRD_gate1 (ncF fuel ctx) ctx list input item 0 op hop h1
    refine ⟨hG, ?_⟩
    intro k f r hmem hres
    rw [hG]
    show _ ∈ pass1Events list.listKey op 0 list.fields
    refine List.mem_filterMap.mpr ⟨(k, f), hmem, ?_⟩
    simp only [hres]
  · intro h1 h2
    have hG := getRD_gate2 (ncF fuel ctx) ctx list input item 0 op hop h1 h2
    refine ⟨by rw [hG], ?_⟩
    intro k f mode fk r hmem hdb hres
    rw [hG]
    show _ ∈ pass1Events list.listKey op 0 list.fields
      ++ pass2EventsSpec (ncF fuel ctx) ctx list.listKey op 0
          (pass1EntriesSpec op input list.fields) list.fields
    refine List.mem_append_right _ (List.mem_flatMap.mpr ⟨(k, f), hmem, ?_⟩)
    simp only [hdb, hres]
    exact List.mem_cons_self _ _
  · intro h1 h2 h3
    have hG := getRD_gate3 (ncF fuel ctx) ctx list input item 0 op hop h1 h2 h3
    refine ⟨by rw [hG], ?_⟩
    intro k f hmem
    rw [hG]
    show _ ∈ pass1Events list.listKey op 0 list.fields
      ++ pass2EventsSpec (ncF fuel ctx) ctx list.listKey op 0
          (pass1EntriesSpec op input list.fields) list.fields
      ++ list.fields.map (fun kf => .fieldHook 0 .resolveInput list.listKey kf.1)
    exact List.mem_append_right _ (List.mem_map.mpr ⟨(k, f), hmem, rfl⟩)
  · intro e hGerr
    by_cases haccC : ctx.createAccessOk list.listKey input = true
    · cases hG : getResolvedData (ncF fuel ctx) ctx list input none 0 with
      | mk rG trG =>
        rw [hG] at hGerr
        have hrG : rG = .error e := hGerr
        have hG2 : getResolvedData (ncF fuel ctx) ctx list input none 0
            = ⟨.error e, trG⟩ := by rw [hG, hrG]
        have hres := resolve_err (ncF fuel ctx) ctx list input none 0 e trG hG2
        have hcs : createSingle fuel ctx list input 0 = ⟨.error e, trG⟩ := by
          rw [show createSingle fuel ctx list input 0
            = createSingleGo (ncF fuel ctx) ctx list input 0 from rfl]
          rw [createSingleGo, applyAccessControlForCreate, hres]
          simp [haccC]
        constructor
        · left
          rw [hcs]
        · intro ev hev hst
          have hev' : ev ∈ trG := by rw [hcs] at hev; exact hev
          refine getRD_events_all (fun e' => e'.isStore = true → 1 ≤ e'.depth)
            (ncF fuel ctx) ctx list input none 0 ?_ ?_ ?_ ?_ ev
            (by rw [hG2]; exact hev') hst
          · intro tag h
            exact absurd h (by simp [Event.isStore])
          · intro l' data' e' he' h
            exact (ncF_events fuel ctx l' data' 1 e' he').1
          · intro k h
            exact absurd h (by simp [Event.isStore])
          · intro h
            exact absurd h (by simp [Event.isStore])
    · have hcs : createSingle fuel ctx list input 0
          = ⟨.error (.accessDenied (cannotForItem .create list.listKey)), []⟩ := by
        rw [show createSingle fuel ctx list input 0
          = createSingleGo (ncF fuel ctx) ctx list input 0 from rfl]
        rw [createSingleGo, applyAccessControlForCreate]
        simp [haccC, M.bind]
      constructor
      · right
        rw [hcs]
      · intro ev hev
        rw [hcs] at hev
        simp at hev

theorem claim5_pass_error_aggregation_witness :
    pass1ErrorsSpec twoFailList.listKey .create [] twoFailList.fields ≠ [] ∧
    getResolvedData (ncF 1 exCtx) exCtx twoFailList [] none 0
      = ⟨.error (.resolverError
            (pass1ErrorsSpec twoFailList.listKey .create [] twoFailList.fields)),
         pass1Events twoFailList.listKey .create 0 twoFailList.fields⟩ ∧
    Event.fieldResolver 0 (fieldTag "F" "b")
      ∈ (getResolvedData (ncF 1 exCtx) exCtx twoFailList [] none 0).trace :=
  ⟨fun h => List.cons_ne_nil _ _ h,
   ((claim5_pass_error_aggregation 1 exCtx twoFailList [] none .create rfl).1
     (fun h => List.cons_ne_nil _ _ h)).1,
   ((claim5_pass_error_aggregation 1 exCtx twoFailList [] none .create rfl).1
     (fun h => List.cons_ne_nil _ _ h)).2 "b" (failResolverField "bad b") _
     (List.Mem.tail _ (List.Mem.head _)) rfl⟩

/-! ## C6 — the access-filtered reload and uniform denial -/

/-- C6: for every update or delete request, (i) the target row is reloaded
through the store with the access filter merged into the `where` condition
before any hook sees it — every hook invocation in the trace is preceded
by the `findUnique` reload; (ii) if the merged reload condition matches no
row, the operation fails with `AccessDeniedError`, and the error is the
same fixed value whatever the cause; in particular (iii) two runs that
differ only in the store's rows — say the row exists but is filtered out
by access control in one, and does not exist at all in the other — produce
identical outcomes. -/
theorem claim6_reload_and_uniform_denial (fuel : Nat) (ctx : Ctx) (list : ListConfig)
    (uniqueInput data : Rec) (uw : String × Val) (rows1 rows2 : String → List Item) :
    (∀ t1 ev t2, (updateOne fuel ctx list uniqueInput data).trace = t1 ++ ev :: t2 →
      ev.isHook = true → ∃ w ∈ t1, w.isFindUnique = true) ∧
    (∀ t1 ev t2, (deleteOne ctx list uniqueInput).trace = t1 ++ ev :: t2 →
      ev.isHook = true → ∃ w ∈ t1, w.isFindUnique = true) ∧
    (resolveUniqueWhereInput uniqueInput list = .ok uw →
      checkFilterOrderAccess list ctx uw.1 = .ok () →
      (getOperationAccess list ctx .update = true →
        mergedFind ctx list uw (getAccessFilters list ctx .update) = none →
        (updateOne fuel ctx list uniqueInput data).res
          = .error (.accessDenied (cannotForItem .update list.listKey))) ∧
      (getOperationAccess list ctx .delete = true →
        mergedFind ctx list uw (getAccessFilters list ctx .delete) = none →
        (deleteOne ctx list uniqueInput).res
          = .error (.accessDenied (cannotForItem .delete list.listKey))) ∧
      (getOperationAccess list ctx .update = true →
        mergedFind (Ctx.setRows ctx rows1) list uw (getAccessFilters list ctx .update) = none →
        mergedFind (Ctx.setRows ctx rows2) list uw (getAccessFilters list ctx .update) = none →
        (updateOne fuel (Ctx.setRows ctx rows1) list uniqueInput data).res
          = (updateOne fuel (Ctx.setRows ctx rows2) list uniqueInput data).res)) := by
  refine ⟨?_, ?_, ?_⟩
  · intro t1 ev t2 heq hev
    by_cases hacc : getOperationAccess list ctx .update = true
    · cases hw : resolveUniqueWhereInput uniqueInput list with
      | error e =>
        simp only [updateOne, hacc, if_true, updateSingle, hw, bind_eq_mbind, liftE_eq,
          mbind_err] at heq
        exact absurd heq.symm (by simp)
      | ok uw' =>
        cases hf : checkFilterOrderAccess list ctx uw'.1 with
        | error e =>
          simp only [updateOne, hacc, if_true, updateSingle, hw, hf, bind_eq_mbind,
            liftE_eq, mbind_ok, mbind_err] at heq
          exact absurd heq.symm (by simp)
        | ok u0 =>
          cases hrel : getAccessControlledItemForUpdate ctx list uw'
              (getAccessFilters list ctx .update) data 0 with
          | mk rI trI =>
            cases rI with
            | error e =>
              have htr : (updateOne fuel ctx list uniqueInput data).trace = trI := by
                simp [updateOne, hacc, updateSingle, hw, hf, hrel]
              rw [htr] at heq
              have hmem : ev ∈ trI := by
                rw [heq]
                exact List.mem_append_right _ (List.mem_cons_self ev t2)
              obtain ⟨flt, rfl⟩ := gACUpdate_events ctx list uw'
                (getAccessFilters list ctx .update) data 0 ev (by rw [hrel]; exact hmem)
              exact absurd hev (by simp [Event.isHook])
            | ok item =>
              obtain ⟨flt, htrI⟩ := gACUpdate_ok_trace ctx list uw'
                (getAccessFilters list ctx .update) data 0 item (by rw [hrel])
              rw [hrel] at htrI
              have htrI2 : trI = [Event.findUnique 0 list.listKey uw'.1 uw'.2 flt] := htrI
              obtain ⟨rest, htr⟩ : ∃ rest,
                  (updateOne fuel ctx list uniqueInput data).trace = trI ++ rest := by
                simp only [updateOne, hacc, if_true, updateSingle, hw, hf,
                  bind_eq_mbind, liftE_eq, mbind_ok, hrel]
                exact ⟨_, rfl⟩
              rw [htr, htrI2] at heq
              refine ⟨.findUnique 0 list.listKey uw'.1 uw'.2 flt, ?_, rfl⟩
              exact marker_before Event.isHook [] rest
                (.findUnique 0 list.listKey uw'.1 uw'.2 flt)
                (fun e' he' => absurd he' (by simp)) rfl t1 ev t2 (by simpa using heq) hev
    · simp only [updateOne, hacc, Bool.false_eq_true, if_false, fail_eq] at heq
      exact absurd heq.symm (by simp)
  · intro t1 ev t2 heq hev
    by_cases hacc : getOperationAccess list ctx .delete = true
    · cases hw : resolveUniqueWhereInput uniqueInput list with
      | error e =>
        simp only [deleteOne, hacc, if_true, deleteSingle, hw, bind_eq_mbind, liftE_eq,
          mbind_err] at heq
        exact absurd heq.symm (by simp)
      | ok uw' =>
        cases hf : checkFilterOrderAccess list ctx uw'.1 with
        | error e =>
          simp only [deleteOne, hacc, if_true, deleteSingle, hw, hf, bind_eq_mbind,
            liftE_eq, mbind_ok, mbind_err] at heq
          exact absurd heq.symm (by simp)
        | ok u0 =>
          cases hrel : getAccessControlledItemForDelete ctx list uw'
              (getAccessFilters list ctx .delete) 0 with
          | mk rI trI =>
            cases rI with
            | error e =>
              have htr : (deleteOne ctx list uniqueInput).trace = trI := by
                simp [deleteOne, hacc, deleteSingle, hw, hf, hrel]
              rw [htr] at heq
              have hmem : ev ∈ trI := by
                rw [heq]
                exact List.mem_append_right _ (List.mem_cons_self ev t2)
              obtain ⟨flt, rfl⟩ := gACDelete_events ctx list uw'
                (getAccessFilters list ctx .delete) 0 ev (by rw [hrel]; exact hmem)
              exact absurd hev (by simp [Event.isHook])
            | ok item =>
              obtain ⟨flt, htrI⟩ := gACDelete_ok_trace ctx list uw'
                (getAccessFilters list ctx .delete) 0 item (by rw [hrel])
              rw [hrel] at htrI
              have htrI2 : trI = [Event.findUnique 0 list.listKey uw'.1 uw'.2 flt] := htrI
              obtain ⟨rest, htr⟩ : ∃ rest,
                  (deleteOne ctx list uniqueInput).trace = trI ++ rest := by
                simp only [deleteOne, hacc, if_true, deleteSingle, hw, hf,
                  bind_eq_mbind, liftE_eq, mbind_ok, hrel]
                exact ⟨_, rfl⟩
              rw [htr, htrI2] at heq
              refine ⟨.findUnique 0 list.listKey uw'.1 uw'.2 flt, ?_, rfl⟩
              exact marker_before Event.isHook [] rest
                (.findUnique 0 list.listKey uw'.1 uw'.2 flt)
                (fun e' he' => absurd he' (by simp)) rfl t1 ev t2 (by simpa using heq) hev
    · simp only [deleteOne, hacc, Bool.false_eq_true, if_false, fail_eq] at heq
      exact absurd heq.symm (by simp)
  · intro hw hf
    refine ⟨?_, ?_, ?_⟩
    · intro hacc hnone
      exact updateOne_merged_none fuel ctx list uniqueInput data uw hacc hw hf hnone
    · intro hacc hnone
      exact deleteOne_merged_none ctx list uniqueInput uw hacc hw hf hnone
    · intro hacc hnone1 hnone2
      rw [updateOne_merged_none fuel (Ctx.setRows ctx rows1) list uniqueInput data uw
          hacc hw hf hnone1,
        updateOne_merged_none fuel (Ctx.setRows ctx rows2) list uniqueInput data uw
          hacc hw hf hnone2]

theorem claim6_reload_and_uniform_denial_witness :
    (updateOne 1 (Ctx.setRows exCtx exStore.rows) postList [("id", Val.vint 99)] []).res
      = (updateOne 1 (Ctx.setRows exCtx emptyRows) postList [("id", Val.vint 99)] []).res :=
  ((claim6_reload_and_uniform_denial 1 exCtx postList [("id", Val.vint 99)] []
    ("id", Val.vint 99) exStore.rows emptyRows).2.2 rfl rfl).2.2 rfl rfl rfl

/-! ## C7 — batch isolation -/

/-- The `createMany` batch is the independent per-item pipeline: each
element is exactly the `createOne` computation for its input (the source's
`.map(async ...)` shares only the batch-level access decision, which is
the same pure decision `createOne` consults). -/
theorem createMany_eq_map (fuel : Nat) (ctx : Ctx) (list : ListConfig)
    (datas : List Rec) :
    createMany fuel ctx list datas = datas.map (fun d => createOne fuel ctx list d) := rfl

/-- The `updateMany` batch is the independent per-item pipeline. -/
theorem updateMany_eq_map (fuel : Nat) (ctx : Ctx) (list : ListConfig)
    (updateInputs : List (Rec × Rec)) :
    updateMany fuel ctx list updateInputs
      = updateInputs.map (fun ui => updateOne fuel ctx list ui.1 ui.2) := rfl

/-- The `deleteMany` batch is the independent per-item pipeline. -/
theorem deleteMany_eq_map (ctx : Ctx) (list : ListConfig) (uniqueInputs : List Rec) :
    deleteMany ctx list uniqueInputs
      = uniqueInputs.map (fun w => deleteOne ctx list w) := rfl

/-- C7: every batch call returns exactly one outcome per input item, in
input order (`length` and positional equalities), and each item's full
pipeline runs independently — the batch around any item is the batches of
the siblings unchanged, so one item's failure neither prevents siblings
from completing nor appears in another item's outcome (each outcome is a
function of its own input alone). -/
theorem claim7_batch_isolation (fuel : Nat) (ctx : Ctx) (list : ListConfig)
    (datas : List Rec) (updateInputs : List (Rec × Rec)) (uniqueInputs : List Rec) :
    ((createMany fuel ctx list datas).length = datas.length ∧
      (∀ i : Nat, (createMany fuel ctx list datas)[i]?
        = (datas[i]?).map (fun d => createOne fuel ctx list d)) ∧
      ∀ l1 x l2, createMany fuel ctx list (l1 ++ x :: l2)
        = createMany fuel ctx list l1 ++ createOne fuel ctx list x :: createMany fuel ctx list l2) ∧
    ((updateMany fuel ctx list updateInputs).length = updateInputs.length ∧
      (∀ i : Nat, (updateMany fuel ctx list updateInputs)[i]?
        = (updateInputs[i]?).map (fun ui => updateOne fuel ctx list ui.1 ui.2)) ∧
      ∀ l1 x l2, updateMany fuel ctx list (l1 ++ x :: l2)
        = updateMany fuel ctx list l1 ++ updateOne fuel ctx list x.1 x.2 :: updateMany fuel ctx list l2) ∧
    ((deleteMany ctx list uniqueInputs).length = uniqueInputs.length ∧
      (∀ i : Nat, (deleteMany ctx list uniqueInputs)[i]?
        = (uniqueInputs[i]?).map (fun w => deleteOne ctx list w)) ∧
      ∀ l1 x l2, deleteMany ctx list (l1 ++ x :: l2)
        = deleteMany ctx list l1 ++ deleteOne ctx list x :: deleteMany ctx list l2) := by
  refine ⟨⟨?_, ?_, ?_⟩, ⟨?_, ?_, ?_⟩, ⟨?_, ?_, ?_⟩⟩
  · rw [createMany_eq_map]; exact List.length_map _ _
  · intro i; rw [createMany_eq_map]; exact List.getElem?_map _ _ _
  · intro l1 x l2; simp [createMany_eq_map]
  · rw [updateMany_eq_map]; exact List.length_map _ _
  · intro i; rw [updateMany_eq_map]; exact List.getElem?_map _ _ _
  · intro l1 x l2; simp [updateMany_eq_map]
  · rw [deleteMany_eq_map]; exact List.length_map _ _
  · intro i; rw [deleteMany_eq_map]; exact List.getElem?_map _ _ _
  · intro l1 x l2; simp [deleteMany_eq_map]

/-! ## C8 — multi-field expansion -/

/-- C8: a field of storage kind `multi` expands into one storage-column
entry per entry of its resolved (object) value, keyed by the deterministic
`fieldKey_subKey` scheme; in particular the spec §8 example — field `name`
with subfields `first`,`last` and resolved value `{first:"A", last:"B"}` —
emits exactly `{name_first:"A", name_last:"B"}`. -/
theorem claim8_multi_expansion (fields : List (String × FieldConfig)) (k : String)
    (f : FieldConfig) (mf : List (String × DBField)) (entries : List (String × Val))
    (rest : Rec) (hf : alook fields k = some f) (hmf : f.dbField = .multi mf) :
    transformForPrismaClient fields ((k, .vobj entries) :: rest)
        = entries.map (fun ikv =>
            (getDBFieldKeyForFieldOnMultiField k ikv.1,
             transformInnerDBField ((alook mf ikv.1).getD (.scalar "")) ikv.2))
          ++ transformForPrismaClient fields rest ∧
      transformForPrismaClient nameList.fields
          [("name", .vobj [("first", .vstr "A"), ("last", .vstr "B")])]
        = [("name_first", .val (.vstr "A")), ("name_last", .val (.vstr "B"))] := by
  constructor
  · simp [transformForPrismaClient, hf, hmf]
  · rfl

/-- Witness for C8: the general expansion applied to the spec §8 example
configuration. -/
theorem claim8_multi_expansion_witness :
    transformForPrismaClient nameList.fields
        [("name", .vobj [("first", .vstr "A"), ("last", .vstr "B")])]
      = [("name_first", .val (.vstr "A")), ("name_last", .val (.vstr "B"))] :=
  (claim8_multi_expansion nameList.fields "name"
    { dbField := .multi [("first", .scalar "String"), ("last", .scalar "String")]
    , inputResolver := fun _ => none, hooks := okFieldHooks }
    [("first", .scalar "String"), ("last", .scalar "String")]
    [("first", .vstr "A"), ("last", .vstr "B")] [] rfl rfl).2

/-! ## C9 — explicit-null sentinel for Json columns -/

/-- C9: a resolved `null` value for a structured/opaque (`Json`-typed)
column is translated by the Write Executor into the store's explicit
set-to-null sentinel (`DbNull`); the sentinel is distinct from every
in-memory value, and a field key absent from the resolved data stays
absent from the write payload (so the store leaves the column untouched on
update), provided no multi-field expansion produces that key. -/
theorem claim9_json_null_sentinel (fields : List (String × FieldConfig))
    (data : Rec) (k : String) (f : FieldConfig)
    (hf : alook fields k = some f) (hjson : f.dbField = .scalar "Json") :
    (transformInnerDBField (.scalar "Json") .vnull = .dbNull) ∧
    ((k, Val.vnull) ∈ data → (k, DBVal.dbNull) ∈ transformForPrismaClient fields data) ∧
    ((∀ kv ∈ data, kv.1 ≠ k ∧
        (match alook fields kv.1 with
          | some f' => ¬ ∃ mf, f'.dbField = .multi mf
          | none => True)) →
      alook (transformForPrismaClient fields data) k = none) ∧
    (∀ v : Val, DBVal.dbNull ≠ DBVal.val v) := by
  refine ⟨rfl, ?_, ?_, ?_⟩
  · intro hmem
    simp only [transformForPrismaClient, List.mem_flatMap]
    refine ⟨(k, Val.vnull), hmem, ?_⟩
    simp [hf, hjson, transformInnerDBField, Val.isNull]
  · intro h
    apply alook_eq_none_of_forall
    intro kv hkv
    simp only [transformForPrismaClient, List.mem_flatMap] at hkv
    obtain ⟨a, ha, hin⟩ := hkv
    obtain ⟨hne, hnm⟩ := h a ha
    cases hlook : alook fields a.1 with
    | none =>
      simp only [hlook] at hin
      simp only [List.mem_singleton] at hin
      rw [hin]
      exact hne
    | some f' =>
      cases hdb : f'.dbField with
      | multi mf =>
        have hnm' : ∀ x, f'.dbField ≠ DBField.multi x := by simpa [hlook] using hnm
        exact absurd hdb (hnm' mf)
      | scalar s =>
        simp only [hlook, hdb, List.mem_singleton] at hin
        rw [hin]
        exact hne
      | relation m l =>
        simp only [hlook, hdb, List.mem_singleton] at hin
        rw [hin]
        exact hne
  · intro v h
    exact DBVal.noConfusion h

/-- Witness for C9: the sentinel membership evaluated on a concrete
single-`Json`-field configuration. -/
theorem claim9_json_null_sentinel_witness :
    ("meta", DBVal.dbNull)
      ∈ transformForPrismaClient [("meta", plainField "Json")] [("meta", Val.vnull)] :=
  (claim9_json_null_sentinel [("meta", plainField "Json")] [("meta", Val.vnull)]
    "meta" (plainField "Json") rfl rfl).2.1 (List.mem_singleton.mpr rfl)

/-! ## C10 — singleton id injection -/

/-- C10: every create that reaches the store (`createOne`, `createMany`
and nested creates all go through `createSingle`, embedded as
`createSingleGo`) passes, for a singleton list, the resolved data with
`id` spliced to `1` (overriding any `id` present, at its original
position, as `{ ...data, id: 1 }` does); for a non-singleton list the
resolved data is passed through unchanged, with no injected `id`.  The
store-create event records exactly the data handed to the store. -/
theorem claim10_singleton_id (nc : NCF) (ctx : Ctx) (list : ListConfig)
    (rawData : Rec) (depth : Nat) (data : DBRec) (aop : Item → M Unit)
    (tr : List Event)
    (hacc : ctx.createAccessOk list.listKey rawData = true)
    (hres : resolveInputForCreateOrUpdate nc ctx list rawData none depth
      = ⟨.ok (data, aop), tr⟩) :
    (∃ ok, (createSingleGo nc ctx list rawData depth).trace
      = tr ++ [.storeCreate depth list.listKey
          (if list.isSingleton then aset data "id" (.val (.vint 1)) else data) ok]) ∧
    (list.isSingleton = true →
      alook (if list.isSingleton then aset data "id" (.val (.vint 1)) else data) "id"
        = some (.val (.vint 1))) ∧
    (list.isSingleton = false →
      (if list.isSingleton then aset data "id" (.val (.vint 1)) else data) = data) := by
  refine ⟨?_, ?_, ?_⟩
  · unfold createSingleGo applyAccessControlForCreate
    rw [hacc]
    simp only [if_pos rfl, pur_eq, bind_eq_mbind, mbind_ok, hres]
    cases hcr : ctx.store.createRes list.listKey
        (if list.isSingleton then aset data "id" (.val (.vint 1)) else data) with
    | ok it => exact ⟨true, by simp [hcr]⟩
    | error e => exact ⟨false, by simp [hcr]⟩
  · intro h; rw [if_pos h]; exact alook_aset data "id" (.val (.vint 1))
  · intro h; rw [h]; simp

/-- Witness for C10: the singleton splice evaluated on the concrete
singleton list (the store receives `id = 1`). -/
theorem claim10_singleton_id_witness :
    ∃ ok, (createSingleGo (ncF 1 exCtx) exCtx singletonList [("title", .vstr "x")] 0).trace
      = [.fieldResolver 0 "Config.title",
         .fieldHook 0 .resolveInput "Config" "title",
         .listHook 0 .resolveInput "Config",
         .fieldHook 0 .validate "Config" "title",
         .listHook 0 .validate "Config",
         .listHook 0 .beforeOperation "Config",
         .fieldHook 0 .beforeOperation "Config" "title"]
        ++ [.storeCreate 0 "Config"
            (aset [("title", .val (.vstr "x"))] "id" (.val (.vint 1))) ok] := by
  have h := (claim10_singleton_id (ncF 1 exCtx) exCtx singletonList
    [("title", .vstr "x")] 0 [("title", .val (.vstr "x"))]
    (afterOperationClosure singletonList .create 0
      { listKey := "Config", operation := .create
      , inputData := some [("title", .vstr "x")], item := none
      , resolvedData := some [("title", .vstr "x")] } [])
    [.fieldResolver 0 "Config.title",
     .fieldHook 0 .resolveInput "Config" "title",
     .listHook 0 .resolveInput "Config",
     .fieldHook 0 .validate "Config" "title",
     .listHook 0 .validate "Config",
     .listHook 0 .beforeOperation "Config",
     .fieldHook 0 .beforeOperation "Config" "title"]
    rfl rfl).1
  simpa using h

/-! ## C2 — no durable write on failure: refutation of the unqualified claim -/

/-- Counterexample to C2 as stated: on a list whose list-level
`afterOperation` hook throws, `createOne` surfaces an error (the item's
outcome is Failed), yet the top-level store create has durably succeeded —
the trace contains the succeeded depth-0 write. -/
theorem claim2_counterexample :
    (createOne 1 exCtx afterThrowList []).res = .error (.hookThrow "boom") ∧
    Event.storeCreate 0 "Post" [] true ∈ (createOne 1 exCtx afterThrowList []).trace ∧
    (Event.storeCreate 0 "Post" [] true).isTopOkWrite = true := by
  refine ⟨rfl, ?_, rfl⟩
  have h : (createOne 1 exCtx afterThrowList []).trace
      = [.listHook 0 .resolveInput "Post",
         .listHook 0 .validate "Post",
         .listHook 0 .beforeOperation "Post",
         .storeCreate 0 "Post" [] true,
         .listHook 0 .afterOperation "Post"] := rfl
  rw [h]
  exact .tail _ (.tail _ (.tail _ (.head _)))

end Keystone
